import Mathlib

/-! A verification development for the `Matrix<T>` container (`include/matrix/matrix.hpp`).

The container is a flat, row-major array of `m_capacity` elements together with five
`int64_t` bookkeeping fields.  The embedding below follows the header function by function.

Conventions of the embedding.

* `int64_t` values are integers kept in `[-2^63, 2^63)`; every arithmetic result the source
  stores in an `int64_t` goes through `wrap64`.
* `p_data` is `none` for the null pointer and `some a` for an owned array `a`; a position is
  an integer offset from `p_data`.
* An exception leaves the object as it was at the `throw`; mutating members therefore return
  the outcome together with the object.
* An access outside the owned array has no defined behaviour in C++.  The embedding stops
  there and reports `Error.undefined`, with the object as it was when the member was entered.
* The indeterminate initial contents of a new array are a parameter `fresh`.  Whether a
  `new T[n]` is served depends on `sizeof(T)`, on the implementation limit and on the memory
  at hand: `allocate_with` and `construct_with` take that outcome as a parameter, and
  `allocate`, `construct` and the copy members are the case of a store that serves every
  `n ≥ 0`.
* The `DEBUG` preprocessor flag is a Boolean parameter.
-/

namespace DenseMatrix

/-- Two's complement reduction of an integer to the `int64_t` range. -/
def wrap64 (x : Int) : Int := (x + 2 ^ 63) % 2 ^ 64 - 2 ^ 63

/-- Two's complement reduction of an integer to the `int32_t` range. -/
def wrap32 (x : Int) : Int := (x + 2 ^ 31) % 2 ^ 32 - 2 ^ 31

/-- Membership in the `int64_t` range. -/
def isInt64 (x : Int) : Prop := -2 ^ 63 ≤ x ∧ x < 2 ^ 63

instance (x : Int) : Decidable (isInt64 x) := by unfold isInt64; infer_instance

/-- The ways a member can end other than by returning. -/
inductive Error where
  | length_error
  | out_of_range
  | bad_array_new_length
  | undefined
  | assertion_failed
  | bad_alloc
  deriving DecidableEq

instance instDecidableEqExcept {ε α : Type} [DecidableEq ε] [DecidableEq α] :
    DecidableEq (Except ε α)
  | .ok a, .ok b =>
    if h : a = b then isTrue (by rw [h]) else isFalse (fun h1 => h (Except.ok.inj h1))
  | .error a, .error b =>
    if h : a = b then isTrue (by rw [h]) else isFalse (fun h1 => h (Except.error.inj h1))
  | .ok _, .error _ => isFalse (fun h => Except.noConfusion h)
  | .error _, .ok _ => isFalse (fun h => Except.noConfusion h)

/-- The object: `m_rows`, `m_cols`, `m_capacity`, `m_numRows`, `m_size`, `p_data`. -/
structure Matrix (T : Type) where
  m_rows : Int
  m_cols : Int
  m_capacity : Int
  m_numRows : Int
  m_size : Int
  p_data : Option (List T)
  deriving DecidableEq

section Memory

variable {T : Type}

/-- Read of `p[i]` in an array `a`; `none` when `i` is outside the array. -/
def load (a : List T) (i : Int) : Option T :=
  if i < 0 then none else a[i.toNat]?

/-- Write of `p[i] = v` in an array `a`; `none` when `i` is outside the array. -/
def store (a : List T) (i : Int) (v : T) : Option (List T) :=
  if 0 ≤ i ∧ i < a.length then some (a.set i.toNat v) else none

/-- Number of iterations of `for (; first != last; ++first)` with unit steps; the loop never
meets `last` when it starts beyond it. -/
def tripCount (first last : Int) : Option Nat :=
  if first ≤ last then some (last - first).toNat else none

/-- The loop of `std::copy(first, last, d)`: `*d = *first; ++d; ++first`, the source range
given by its elements. -/
def stdCopy : List T → Int → List T → Option (List T)
  | [], _, a => some a
  | x :: xs, d, a =>
    match store a d x with
    | none => none
    | some a1 => stdCopy xs (d + 1) a1

/-- The loop of `std::fill(first, last, v)` run for `n` iterations from position `p`. -/
def stdFill (v : T) : Nat → Int → List T → Option (List T)
  | 0, _, a => some a
  | n + 1, p, a =>
    match store a p v with
    | none => none
    | some a1 => stdFill v n (p + 1) a1

/-- The loop of `std::find(first, last, x)` run for at most `n` iterations from position `p`:
the first position holding `x`, or the position reached after `n` steps. -/
def stdFind [DecidableEq T] (x : T) (a : List T) : Nat → Int → Option Int
  | 0, p => some p
  | n + 1, p =>
    match load a p with
    | none => none
    | some y => if y = x then some p else stdFind x a n (p + 1)

/-- The elements read by a loop over `n` consecutive positions starting at `p`. -/
def readRange (a : List T) : Nat → Int → Option (List T)
  | 0, _ => some []
  | n + 1, p =>
    match load a p with
    | none => none
    | some y =>
      match readRange a n (p + 1) with
      | none => none
      | some ys => some (y :: ys)

/-- The loop `for (i = 0; i < size(); ++i) if (p_data[i] != rhs.p_data[i]) return false;`
followed by `return true`, run for `n` iterations from index `i`. -/
def eqLoop [DecidableEq T] (a b : List T) : Nat → Int → Option Bool
  | 0, _ => some true
  | n + 1, i =>
    match load a i, load b i with
    | some x, some y => if x ≠ y then some false else eqLoop a b n (i + 1)
    | _, _ => none

end Memory

namespace Matrix

variable {T : Type}

/-- The array behind `p_data`; the null pointer gives access to no element. -/
def arr (m : Matrix T) : List T := m.p_data.getD []

/-- The object after the array behind `p_data` has been written to. -/
def setArr (m : Matrix T) (a : List T) : Matrix T :=
  { m with p_data := m.p_data.map (fun _ => a) }

/-- Source: `Matrix()`. -/
def default : Matrix T :=
  { m_rows := 0, m_cols := 0, m_capacity := 0, m_numRows := 0, m_size := 0, p_data := none }

/-- Source: `numRows()`. -/
def numRows (m : Matrix T) : Int := m.m_numRows

/-- Source: `rows()`. -/
def rows (m : Matrix T) : Int := m.m_rows

/-- Source: `cols()`. -/
def cols (m : Matrix T) : Int := m.m_cols

/-- Source: `size()`. -/
def size (m : Matrix T) : Int := m.m_size

/-- Source: `capacity()`. -/
def capacity (m : Matrix T) : Int := m.m_capacity

/-- Source: `validateRows()`. -/
def validateRows (m : Matrix T) : Except Error Unit :=
  if m.m_rows < 0 then .error .length_error else .ok ()

/-- Source: `validateCols()`. -/
def validateCols (m : Matrix T) : Except Error Unit :=
  if m.m_cols < 0 then .error .length_error else .ok ()

/-- Source: `validateDimensions()`. -/
def validateDimensions (m : Matrix T) : Except Error Unit :=
  match m.validateRows with
  | .error e => .error e
  | .ok _ => m.validateCols

/-- Source: `checkAtCapacity()`. -/
def checkAtCapacity (m : Matrix T) : Except Error Unit :=
  if m.m_size ≥ m.m_capacity then .error .length_error else .ok ()

/-- Source: `resize(rows)`. -/
def resize (m : Matrix T) (rows : Int) : Except Error Unit × Matrix T :=
  if rows < 0 ∨ rows > m.m_rows then (.error .length_error, m)
  else (.ok (), { m with m_numRows := rows, m_size := wrap64 (rows * m.m_cols) })

/-- Source: `fill(val)`: `std::fill(begin(), end(), val)` with `begin() = p_data` and
`end() = p_data + capacity()`. -/
def fill (m : Matrix T) (val : T) : Except Error Unit × Matrix T :=
  match tripCount 0 m.capacity with
  | none => (.error .undefined, m)
  | some n =>
    match stdFill val n 0 m.arr with
    | none => (.error .undefined, m)
    | some a => (.ok (), m.setArr a)

/-- Source: `clear()`. -/
def clear (m : Matrix T) : Matrix T :=
  { m with m_size := 0, m_numRows := 0 }

/-- Source: `empty()`. -/
def empty (m : Matrix T) : Bool := !(decide (m.m_size ≠ 0))

/-- Source: `allocate(autoresize, fillVal)`, in a store that serves every `new T[n]` with
`n >= 0`; a negative array length makes `new T[m_capacity]` throw
`std::bad_array_new_length`. -/
def allocate (m : Matrix T) (autoresize : Bool) (fillVal : T) (fresh : Nat → T) :
    Except Error Unit × Matrix T :=
  if m.m_capacity < 0 then (.error .bad_array_new_length, m)
  else
    let m1 : Matrix T := { m with p_data := some ((List.range m.m_capacity.toNat).map fresh) }
    if autoresize then
      match m1.resize m1.m_rows with
      | (.error e, m2) => (.error e, m2)
      | (.ok _, m2) => m2.fill fillVal
    else (.ok (), m1)

/-- Source: `Matrix(rows, cols, autoResize, fillVal)`: the member initialisers, then
`validateDimensions()`, then `allocate(autoResize, fillVal)`.  No object exists when the
constructor throws. -/
def construct (rows cols : Int) (autoResize : Bool) (fillVal : T) (fresh : Nat → T) :
    Except Error (Matrix T) :=
  let m : Matrix T :=
    { m_rows := rows, m_cols := cols, m_capacity := wrap64 (rows * cols),
      m_numRows := 0, m_size := 0, p_data := none }
  match m.validateDimensions with
  | .error e => .error e
  | .ok _ =>
    match m.allocate autoResize fillVal fresh with
    | (.error e, _) => .error e
    | (.ok _, m1) => .ok m1

/-- Source: `allocate(autoresize, fillVal)`, the outcome of `new T[m_capacity]` left to the
environment: `new_array n` is `none` when an array of `n` elements is handed out, and
otherwise the exception thrown (`std::bad_array_new_length` or `std::bad_alloc`). -/
def allocate_with (new_array : Int → Option Error) (m : Matrix T) (autoresize : Bool)
    (fillVal : T) (fresh : Nat → T) : Except Error Unit × Matrix T :=
  match new_array m.m_capacity with
  | some e => (.error e, m)
  | none =>
    let m1 : Matrix T := { m with p_data := some ((List.range m.m_capacity.toNat).map fresh) }
    if autoresize then
      match m1.resize m1.m_rows with
      | (.error e, m2) => (.error e, m2)
      | (.ok _, m2) => m2.fill fillVal
    else (.ok (), m1)

/-- Source: `Matrix(rows, cols, autoResize, fillVal)`, the outcome of `new T[m_capacity]` left
to the environment as in `allocate_with`. -/
def construct_with (new_array : Int → Option Error) (rows cols : Int) (autoResize : Bool)
    (fillVal : T) (fresh : Nat → T) : Except Error (Matrix T) :=
  let m : Matrix T :=
    { m_rows := rows, m_cols := cols, m_capacity := wrap64 (rows * cols),
      m_numRows := 0, m_size := 0, p_data := none }
  match m.validateDimensions with
  | .error e => .error e
  | .ok _ =>
    match m.allocate_with new_array autoResize fillVal fresh with
    | (.error e, _) => .error e
    | (.ok _, m1) => .ok m1

/-- A store that serves every `new T[n]` with `n >= 0`. -/
def servedNew (n : Int) : Option Error :=
  if n < 0 then some .bad_array_new_length else none

/-- A sample store for a four-byte `T`: a negative length or one above `2^61` is refused with
`std::bad_array_new_length`, arrays of up to `2^20` elements are served, and the lengths in
between are refused with `std::bad_alloc`. -/
def sampleNew (n : Int) : Option Error :=
  if n < 0 ∨ n > 2 ^ 61 then some .bad_array_new_length
  else if n ≤ 2 ^ 20 then none else some .bad_alloc

/-- Source: `append(const Container& datapoint)`. -/
def append (m : Matrix T) (datapoint : List T) : Except Error Unit × Matrix T :=
  match m.checkAtCapacity with
  | .error e => (.error e, m)
  | .ok _ =>
    match stdCopy datapoint m.m_size m.arr with
    | none => (.error .undefined, m)
    | some a =>
      (.ok (), { m.setArr a with
                 m_numRows := wrap64 (m.m_numRows + 1), m_size := wrap64 (m.m_size + m.m_cols) })

/-- Source: `append(const Container&& datapoint)`. -/
def append_rvalue (m : Matrix T) (datapoint : List T) : Except Error Unit × Matrix T :=
  match m.checkAtCapacity with
  | .error e => (.error e, m)
  | .ok _ =>
    match stdCopy datapoint m.m_size m.arr with
    | none => (.error .undefined, m)
    | some a =>
      (.ok (), { m.setArr a with
                 m_numRows := wrap64 (m.m_numRows + 1), m_size := wrap64 (m.m_size + m.m_cols) })

/-- Source: `append(Iter begin, Iter end)`, the range `[begin, end)` given by its elements. -/
def append_range (m : Matrix T) (range : List T) : Except Error Unit × Matrix T :=
  match m.checkAtCapacity with
  | .error e => (.error e, m)
  | .ok _ =>
    match stdCopy range m.m_size m.arr with
    | none => (.error .undefined, m)
    | some a =>
      (.ok (), { m.setArr a with
                 m_numRows := wrap64 (m.m_numRows + 1), m_size := wrap64 (m.m_size + m.m_cols) })

/-- Source: `at(row)`: the position `p_data + row * m_cols`, as an offset from `p_data`. -/
def at_row (DEBUG : Bool) (m : Matrix T) (row : Int) : Except Error Int :=
  if DEBUG ∧ (row ≥ m.m_rows ∨ row < 0) then .error .out_of_range
  else .ok (wrap64 (row * m.m_cols))

/-- Source: `at(row, col)`: `*(at(row) + col)`. -/
def «at» (DEBUG : Bool) (m : Matrix T) (row col : Int) : Except Error T :=
  if DEBUG ∧ (col ≥ m.m_cols ∨ col < 0) then .error .out_of_range
  else
    match m.at_row DEBUG row with
    | .error e => .error e
    | .ok p =>
      match load m.arr (p + col) with
      | none => .error .undefined
      | some x => .ok x

/-- Source: `rowBegin(row)`: a row cursor at `at(row)`, given by its position. -/
def rowBegin (DEBUG : Bool) (m : Matrix T) (row : Int) : Except Error Int :=
  m.at_row DEBUG row

/-- Source: `rowEnd(row)`: a row cursor at `at(row) + m_cols`, given by its position. -/
def rowEnd (DEBUG : Bool) (m : Matrix T) (row : Int) : Except Error Int :=
  match m.at_row DEBUG row with
  | .error e => .error e
  | .ok p => .ok (p + m.m_cols)

/-- Source: `set(const int32_t row, const Container& datapoint)`.  The value passed by the
caller is converted to the `int32_t` parameter, which `rowBegin` then receives. -/
def set (DEBUG : Bool) (m : Matrix T) (row : Int) (datapoint : List T) :
    Except Error Unit × Matrix T :=
  match m.rowBegin DEBUG (wrap32 row) with
  | .error e => (.error e, m)
  | .ok d =>
    match stdCopy datapoint d m.arr with
    | none => (.error .undefined, m)
    | some a => (.ok (), m.setArr a)

/-- Source: `set(const int32_t row, const Container&& datapoint)`, with the same conversion of
the row. -/
def set_rvalue (DEBUG : Bool) (m : Matrix T) (row : Int) (datapoint : List T) :
    Except Error Unit × Matrix T :=
  match m.rowBegin DEBUG (wrap32 row) with
  | .error e => (.error e, m)
  | .ok d =>
    match stdCopy datapoint d m.arr with
    | none => (.error .undefined, m)
    | some a => (.ok (), m.setArr a)

/-- Source: `set(const int32_t row, Iter begin, Iter end)`, the range `[begin, end)` given by
its elements, with the same conversion of the row. -/
def set_range (DEBUG : Bool) (m : Matrix T) (row : Int) (range : List T) :
    Except Error Unit × Matrix T :=
  match m.rowBegin DEBUG (wrap32 row) with
  | .error e => (.error e, m)
  | .ok d =>
    match stdCopy range d m.arr with
    | none => (.error .undefined, m)
    | some a => (.ok (), m.setArr a)

/-- Source: `extractRow(row)`: `std::vector<T>(crowBegin(row), crowEnd(row))`. -/
def extractRow (DEBUG : Bool) (m : Matrix T) (row : Int) : Except Error (List T) :=
  match m.rowBegin DEBUG row, m.rowEnd DEBUG row with
  | .ok first, .ok last =>
    match tripCount first last with
    | none => .error .undefined
    | some n =>
      match readRange m.arr n first with
      | none => .error .undefined
      | some v => .ok v
  | .error e, _ => .error e
  | _, .error e => .error e

/-- Source: `find(element)`: `std::find(cbegin(), cend(), element)`, `std::distance(cbegin(), iter)`,
then the pair of `int32_t` made from `distance / m_cols` and `distance % m_cols`. -/
def find [DecidableEq T] (m : Matrix T) (element : T) : Except Error (Int × Int) :=
  match tripCount 0 m.capacity with
  | none => .error .undefined
  | some n =>
    match stdFind element m.arr n 0 with
    | none => .error .undefined
    | some distance =>
      if m.m_cols = 0 then .error .undefined
      else .ok (wrap32 (Int.tdiv distance m.m_cols), wrap32 (Int.tmod distance m.m_cols))

/-- Source: `operator==(rhs)`. -/
def eq [DecidableEq T] (m rhs : Matrix T) : Except Error Bool :=
  if m.m_rows ≠ rhs.m_rows then .ok false
  else if m.m_cols ≠ rhs.m_cols then .ok false
  else if m.m_capacity ≠ rhs.m_capacity then .ok false
  else if m.m_numRows ≠ rhs.m_numRows then .ok false
  else if m.m_size ≠ rhs.m_size then .ok false
  else
    match eqLoop m.arr rhs.arr m.size.toNat 0 with
    | none => .error .undefined
    | some b => .ok b

/-- Source: `operator!=(rhs)`: `!(*this == rhs)`. -/
def ne [DecidableEq T] (m rhs : Matrix T) : Except Error Bool :=
  match m.eq rhs with
  | .error e => .error e
  | .ok b => .ok (!b)

/-- Source: `Matrix(const Matrix& other)`: the member initialisers with `new T[m_capacity]`, then
`std::copy(other.cbegin(), other.cend(), begin())`. -/
def copy_construct (other : Matrix T) (fresh : Nat → T) : Except Error (Matrix T) :=
  if other.m_capacity < 0 then .error .bad_array_new_length
  else
    let m : Matrix T :=
      { m_rows := other.m_rows, m_cols := other.m_cols, m_capacity := other.m_capacity,
        m_numRows := other.m_numRows, m_size := other.m_size,
        p_data := some ((List.range other.m_capacity.toNat).map fresh) }
    match tripCount 0 other.capacity with
    | none => .error .undefined
    | some n =>
      match readRange other.arr n 0 with
      | none => .error .undefined
      | some src =>
        match stdCopy src 0 m.arr with
        | none => .error .undefined
        | some a => .ok (m.setArr a)

/-- Source: `operator=(const Matrix& rhs)` for `this != &rhs`: the old array is released, the fields
are taken from `rhs`, a new array is allocated and `[rhs.cbegin(), rhs.cend())` copied. -/
def copy_assign (m rhs : Matrix T) (fresh : Nat → T) : Except Error Unit × Matrix T :=
  let m1 : Matrix T :=
    { m_rows := rhs.m_rows, m_cols := rhs.m_cols, m_capacity := rhs.m_capacity,
      m_numRows := rhs.m_numRows, m_size := rhs.m_size, p_data := none }
  if m1.m_capacity < 0 then (.error .bad_array_new_length, m1)
  else
    let m2 : Matrix T := { m1 with p_data := some ((List.range m1.m_capacity.toNat).map fresh) }
    match tripCount 0 rhs.capacity with
    | none => (.error .undefined, m)
    | some n =>
      match readRange rhs.arr n 0 with
      | none => (.error .undefined, m)
      | some src =>
        match stdCopy src 0 m2.arr with
        | none => (.error .undefined, m)
        | some a => (.ok (), m2.setArr a)

/-- Source: `operator=(Matrix&& rhs)` for `this != &rhs`: the pair is `(*this, rhs)` afterwards. -/
def move_assign (_m rhs : Matrix T) : Matrix T × Matrix T :=
  ({ m_rows := rhs.m_rows, m_cols := rhs.m_cols, m_capacity := rhs.m_capacity,
     m_numRows := rhs.m_numRows, m_size := rhs.m_size, p_data := rhs.p_data },
   { m_rows := 0, m_cols := 0, m_capacity := 0, m_numRows := 0, m_size := 0, p_data := none })

/-- Source: `Matrix(Matrix&& other)`: delegates to `Matrix(0, 0, false)`, then
`*this = std::move(other)`; the pair is `(*this, other)` afterwards. -/
def move_construct (other : Matrix T) (fillVal : T) (fresh : Nat → T) :
    Except Error (Matrix T × Matrix T) :=
  match construct 0 0 false fillVal fresh with
  | .error e => .error e
  | .ok m => .ok (m.move_assign other)

/-- The bookkeeping invariant of the data model: `capacity == rows * cols`,
`size == numRows * cols`, `0 <= numRows <= rows` and `0 <= size <= capacity`. -/
def Bookkeeping (m : Matrix T) : Prop :=
  m.capacity = m.rows * m.cols ∧ m.size = m.numRows * m.cols ∧
  0 ≤ m.numRows ∧ m.numRows ≤ m.rows ∧ 0 ≤ m.size ∧ m.size ≤ m.capacity

instance (m : Matrix T) : Decidable m.Bookkeeping := by unfold Bookkeeping; infer_instance

/-- What the member declarations give: the five counters are `int64_t` values and the array
behind `p_data` holds `m_capacity` elements (none for the null pointer). -/
def WellFormed (m : Matrix T) : Prop :=
  isInt64 m.m_rows ∧ isInt64 m.m_cols ∧ isInt64 m.m_capacity ∧ isInt64 m.m_numRows ∧
  isInt64 m.m_size ∧ (m.arr.length : Int) = m.m_capacity

instance (m : Matrix T) : Decidable m.WellFormed := by unfold WellFormed; infer_instance

/-- The objects a program can hold: results of default construction or of a successful sized
construction whose `rows * cols` is an `int64_t`, closed under `append` of a row of `cols`
elements, `set`, `resize`, `fill`, `clear`, copy and move, whatever each call's outcome. -/
inductive Reachable : Matrix T → Prop
  | default : Reachable Matrix.default
  | construct (rows cols : Int) (autoResize : Bool) (fillVal : T) (fresh : Nat → T)
      (m : Matrix T) : isInt64 rows → isInt64 cols → 0 ≤ rows → 0 ≤ cols →
      isInt64 (rows * cols) → Matrix.construct rows cols autoResize fillVal fresh = .ok m →
      Reachable m
  | append (m : Matrix T) (datapoint : List T) : Reachable m →
      (datapoint.length : Int) = m.cols → Reachable (m.append datapoint).2
  | append_rvalue (m : Matrix T) (datapoint : List T) : Reachable m →
      (datapoint.length : Int) = m.cols → Reachable (m.append_rvalue datapoint).2
  | append_range (m : Matrix T) (range : List T) : Reachable m →
      (range.length : Int) = m.cols → Reachable (m.append_range range).2
  | set (DEBUG : Bool) (m : Matrix T) (row : Int) (datapoint : List T) : Reachable m →
      Reachable (m.set DEBUG row datapoint).2
  | set_rvalue (DEBUG : Bool) (m : Matrix T) (row : Int) (datapoint : List T) : Reachable m →
      Reachable (m.set_rvalue DEBUG row datapoint).2
  | set_range (DEBUG : Bool) (m : Matrix T) (row : Int) (range : List T) : Reachable m →
      Reachable (m.set_range DEBUG row range).2
  | resize (m : Matrix T) (rows : Int) : Reachable m → Reachable (m.resize rows).2
  | fill (m : Matrix T) (val : T) : Reachable m → Reachable (m.fill val).2
  | clear (m : Matrix T) : Reachable m → Reachable m.clear
  | copy_construct (other : Matrix T) (fresh : Nat → T) (m : Matrix T) : Reachable other →
      other.copy_construct fresh = .ok m → Reachable m
  | copy_assign (m rhs : Matrix T) (fresh : Nat → T) : Reachable m → Reachable rhs →
      Reachable (m.copy_assign rhs fresh).2
  | move_assign_this (m rhs : Matrix T) : Reachable m → Reachable rhs →
      Reachable (m.move_assign rhs).1
  | move_assign_rhs (m rhs : Matrix T) : Reachable m → Reachable rhs →
      Reachable (m.move_assign rhs).2
  | move_construct_this (other : Matrix T) (fillVal : T) (fresh : Nat → T)
      (r : Matrix T × Matrix T) : Reachable other →
      other.move_construct fillVal fresh = .ok r → Reachable r.1
  | move_construct_other (other : Matrix T) (fillVal : T) (fresh : Nat → T)
      (r : Matrix T × Matrix T) : Reachable other →
      other.move_construct fillVal fresh = .ok r → Reachable r.2

/-- A sample object: `Matrix<int>(3, 2, false)` on an array that happened to hold zeros. -/
def sample32 : Matrix Int :=
  { m_rows := 3, m_cols := 2, m_capacity := 6, m_numRows := 0, m_size := 0,
    p_data := some [0, 0, 0, 0, 0, 0] }

/-- A sample object: `sample32` after `append({1, 2})` and `append({3, 4})`. -/
def sample32b : Matrix Int :=
  { m_rows := 3, m_cols := 2, m_capacity := 6, m_numRows := 2, m_size := 4,
    p_data := some [1, 2, 3, 4, 0, 0] }

/-- A run of `append` calls, stopped at the first one that does not return. -/
def appendAll (m : Matrix T) : List (List T) → Except Error Unit × Matrix T
  | [] => (.ok (), m)
  | d :: ds =>
    match m.append d with
    | (.ok _, m1) => appendAll m1 ds
    | (.error e, m1) => (.error e, m1)

end Matrix

/-! ## Cursors

A cursor holds a pointer into the array of the object it was obtained from; the pointer is
given as `none` for the null pointer and otherwise as the offset from that object's `p_data`.
Arithmetic on the null pointer is not followed: its result is the null pointer again.  Both
values of the `Const` template parameter behave alike. -/

namespace Matrix

/-- Source: `ForwardRowIterator<Const>`, the member `p_iter`. -/
structure ForwardRowIterator where
  p_iter : Option Int
  deriving DecidableEq

/-- Source: `ForwardColumnIterator<Const>`, the members `p_iter` and `m_cols`. -/
structure ForwardColumnIterator where
  p_iter : Option Int
  m_cols : Int
  deriving DecidableEq

namespace ForwardRowIterator

variable {T : Type}

/-- Source: `ForwardRowIterator()`. -/
def default : ForwardRowIterator := { p_iter := none }

/-- Source: `operator++()`: `temp = *this; p_iter++; return temp;`.  The pair is the returned
cursor and `*this` afterwards. -/
def pre_increment (it : ForwardRowIterator) : ForwardRowIterator × ForwardRowIterator :=
  (it, { p_iter := it.p_iter.map (fun p => p + 1) })

/-- Source: `operator++(int)`: `++p_iter; return *this;`.  The pair is the returned cursor (a
reference to `*this`) and `*this` afterwards. -/
def post_increment (it : ForwardRowIterator) : ForwardRowIterator × ForwardRowIterator :=
  ({ p_iter := it.p_iter.map (fun p => p + 1) }, { p_iter := it.p_iter.map (fun p => p + 1) })

/-- Source: `operator==(rhs)`. -/
def eq (it rhs : ForwardRowIterator) : Bool := decide (it.p_iter = rhs.p_iter)

/-- Source: `operator!=(rhs)`. -/
def ne (it rhs : ForwardRowIterator) : Bool := decide (it.p_iter ≠ rhs.p_iter)

/-- Source: `operator*()`: `assert(p_iter != nullptr); return *p_iter;`, the read being made in
the array `a` the cursor points into. -/
def deref (a : List T) (it : ForwardRowIterator) : Except Error T :=
  match it.p_iter with
  | none => .error .assertion_failed
  | some p =>
    match load a p with
    | none => .error .undefined
    | some x => .ok x

end ForwardRowIterator

namespace ForwardColumnIterator

variable {T : Type}

/-- Source: `ForwardColumnIterator()`. -/
def default : ForwardColumnIterator := { p_iter := none, m_cols := 0 }

/-- Source: `operator++()`: `temp = *this; p_iter += m_cols; return temp;`.  The pair is the
returned cursor and `*this` afterwards. -/
def pre_increment (it : ForwardColumnIterator) : ForwardColumnIterator × ForwardColumnIterator :=
  (it, { it with p_iter := it.p_iter.map (fun p => p + it.m_cols) })

/-- Source: `operator++(int)`: `p_iter += m_cols; return *this;`.  The pair is the returned
cursor (a reference to `*this`) and `*this` afterwards. -/
def post_increment (it : ForwardColumnIterator) : ForwardColumnIterator × ForwardColumnIterator :=
  ({ it with p_iter := it.p_iter.map (fun p => p + it.m_cols) },
   { it with p_iter := it.p_iter.map (fun p => p + it.m_cols) })

/-- Source: `operator==(rhs)`. -/
def eq (it rhs : ForwardColumnIterator) : Bool := decide (it.p_iter = rhs.p_iter)

/-- Source: `operator!=(rhs)`. -/
def ne (it rhs : ForwardColumnIterator) : Bool := decide (it.p_iter ≠ rhs.p_iter)

/-- Source: `operator*()`: `assert(p_iter != nullptr); return *p_iter;`, the read being made in
the array `a` the cursor points into. -/
def deref (a : List T) (it : ForwardColumnIterator) : Except Error T :=
  match it.p_iter with
  | none => .error .assertion_failed
  | some p =>
    match load a p with
    | none => .error .undefined
    | some x => .ok x

end ForwardColumnIterator

variable {T : Type}

/-- The pointer `p_data + k`. -/
def ptr (m : Matrix T) (k : Int) : Option Int := m.p_data.map (fun _ => k)

/-- Source: `begin()`, both overloads. -/
def begin (m : Matrix T) : ForwardRowIterator := { p_iter := m.ptr 0 }

/-- Source: `cbegin()`. -/
def cbegin (m : Matrix T) : ForwardRowIterator := { p_iter := m.ptr 0 }

/-- Source: `end()`, both overloads. -/
def «end» (m : Matrix T) : ForwardRowIterator := { p_iter := m.ptr m.capacity }

/-- Source: `cend()`. -/
def cend (m : Matrix T) : ForwardRowIterator := { p_iter := m.ptr m.capacity }

/-- Source: `colBegin(col)`. -/
def colBegin (m : Matrix T) (col : Int) : ForwardColumnIterator :=
  { p_iter := m.ptr col, m_cols := m.m_cols }

/-- Source: `ccolBegin(col)`. -/
def ccolBegin (m : Matrix T) (col : Int) : ForwardColumnIterator :=
  { p_iter := m.ptr col, m_cols := m.m_cols }

/-- Source: `colEnd(col)`: `p_data + col + (m_numRows * m_cols)`. -/
def colEnd (m : Matrix T) (col : Int) : ForwardColumnIterator :=
  { p_iter := m.ptr (col + wrap64 (m.m_numRows * m.m_cols)), m_cols := m.m_cols }

/-- Source: `ccolEnd(col)`. -/
def ccolEnd (m : Matrix T) (col : Int) : ForwardColumnIterator :=
  { p_iter := m.ptr (col + wrap64 (m.m_numRows * m.m_cols)), m_cols := m.m_cols }

/-- Source: `crowBegin(row)`: the cursor `const_row_iterator(at(row))`; the cursor of
`rowBegin(row)` is at the same position. -/
def crowBegin (DEBUG : Bool) (m : Matrix T) (row : Int) : Except Error ForwardRowIterator :=
  match m.at_row DEBUG row with
  | .error e => .error e
  | .ok p => .ok { p_iter := m.ptr p }

/-- Source: `crowEnd(row)`: the cursor `const_row_iterator(at(row) + m_cols)`; the cursor of
`rowEnd(row)` is at the same position. -/
def crowEnd (DEBUG : Bool) (m : Matrix T) (row : Int) : Except Error ForwardRowIterator :=
  match m.at_row DEBUG row with
  | .error e => .error e
  | .ok p => .ok { p_iter := m.ptr (p + m.m_cols) }

/-- The loop `for (it = first; it != last; ++it) visit(*it);` over row cursors, cut after
`fuel` iterations: `none` when the cursor has not met `last` by then, otherwise the elements
visited in order, or the way a dereference ended. -/
def rowLoop (a : List T) : Nat → ForwardRowIterator → ForwardRowIterator →
    Option (Except Error (List T))
  | 0, it, last => if it.ne last then none else some (.ok [])
  | fuel + 1, it, last =>
    if it.ne last then
      match it.deref a with
      | .error e => some (.error e)
      | .ok x =>
        match rowLoop a fuel (it.pre_increment).2 last with
        | none => none
        | some (.error e) => some (.error e)
        | some (.ok xs) => some (.ok (x :: xs))
    else some (.ok [])

/-- The loop `for (it = first; it != last; ++it) visit(*it);` over column cursors, cut after
`fuel` iterations: `none` when the cursor has not met `last` by then, otherwise the elements
visited in order, or the way a dereference ended. -/
def colLoop (a : List T) : Nat → ForwardColumnIterator → ForwardColumnIterator →
    Option (Except Error (List T))
  | 0, it, last => if it.ne last then none else some (.ok [])
  | fuel + 1, it, last =>
    if it.ne last then
      match it.deref a with
      | .error e => some (.error e)
      | .ok x =>
        match colLoop a fuel (it.pre_increment).2 last with
        | none => none
        | some (.error e) => some (.error e)
        | some (.ok xs) => some (.ok (x :: xs))
    else some (.ok [])

/-- A run of `append` calls carried on after failures: the outcome, `numRows()` and `size()`
after each call, and the object at the end. -/
def appendTrace (m : Matrix T) : List (List T) → List (Except Error Unit × Int × Int) × Matrix T
  | [] => ([], m)
  | d :: ds =>
    (((m.append d).1, (m.append d).2.numRows, (m.append d).2.size) ::
      (appendTrace (m.append d).2 ds).1, (appendTrace (m.append d).2 ds).2)

end Matrix

/-! ## Objects in the free store

The members above work on the value of one object.  To tell a copy from its original the
arrays are placed in a free store: an object holds the address of its array and `new` hands
out an address where no array lives.  The copy members are embedded on objects directly, so
that which address a copy holds is what the source makes it; the members that mutate in place
write through the `p_data` of their own object. -/

/-- The free store: the array living at each address, `none` where no array lives. -/
abbrev Heap (T : Type) := Nat → Option (List T)

/-- An object as it lies in memory: the five counters and the address held in `p_data`. -/
structure Object where
  m_rows : Int
  m_cols : Int
  m_capacity : Int
  m_numRows : Int
  m_size : Int
  p_data : Option Nat
  deriving DecidableEq

/-- The calls that mutate an object in place: the overloads of `append` and `set`, `resize`,
`fill` and `clear`. -/
inductive Mutation (T : Type) where
  | append (datapoint : List T)
  | append_rvalue (datapoint : List T)
  | append_range (range : List T)
  | set (DEBUG : Bool) (row : Int) (datapoint : List T)
  | set_rvalue (DEBUG : Bool) (row : Int) (datapoint : List T)
  | set_range (DEBUG : Bool) (row : Int) (range : List T)
  | resize (rows : Int)
  | fill (val : T)
  | clear

/-- The call `u` made on the value `m`. -/
def Matrix.mutate {T : Type} (m : Matrix T) : Mutation T → Except Error Unit × Matrix T
  | .append d => m.append d
  | .append_rvalue d => m.append_rvalue d
  | .append_range d => m.append_range d
  | .set DEBUG row d => m.set DEBUG row d
  | .set_rvalue DEBUG row d => m.set_rvalue DEBUG row d
  | .set_range DEBUG row d => m.set_range DEBUG row d
  | .resize rows => m.resize rows
  | .fill val => m.fill val
  | .clear => (.ok (), m.clear)

namespace Object

variable {T : Type}

/-- The object as seen through its pointer: the value the members work on. -/
def view (o : Object) (h : Heap T) : Matrix T :=
  { m_rows := o.m_rows, m_cols := o.m_cols, m_capacity := o.m_capacity,
    m_numRows := o.m_numRows, m_size := o.m_size, p_data := o.p_data.bind h }

/-- The counters of the value `m` in an object holding the address `p`. -/
def ofValue (m : Matrix T) (p : Option Nat) : Object :=
  { m_rows := m.m_rows, m_cols := m.m_cols, m_capacity := m.m_capacity,
    m_numRows := m.m_numRows, m_size := m.m_size, p_data := p }

/-- The free store after the array at the address `p` has become `arr`. -/
def writeAt (h : Heap T) (p : Option Nat) (arr : Option (List T)) : Heap T :=
  match p with
  | none => h
  | some a => fun b => if b = a then arr else h b

/-- The call `u` made on the object `o`: the member runs on the value seen through `p_data`,
the counters go back into the object and the array goes back to the address in `p_data`, which
none of these members reassigns. -/
def mutate (o : Object) (h : Heap T) (u : Mutation T) : Except Error Unit × Object × Heap T :=
  (((o.view h).mutate u).1, ofValue ((o.view h).mutate u).2 o.p_data,
    writeAt h o.p_data ((o.view h).mutate u).2.p_data)

/-- A sequence of calls made on the object `o`, whatever each call's outcome. -/
def mutateAll (o : Object) (h : Heap T) : List (Mutation T) → Object × Heap T
  | [] => (o, h)
  | u :: us => mutateAll (o.mutate h u).2.1 (o.mutate h u).2.2 us

/-- The array reached through the pointer `p` in the free store `h`; the null pointer and an
address where no array lives give access to no element. -/
def arrAt (h : Heap T) (p : Option Nat) : List T := (p.bind h).getD []

/-- Source: `Matrix(const Matrix& other)`.  The member initialisers take the five counters of
`other` and `p_data(new T[m_capacity])`, the new array lying at the address `a` that `new`
hands out; then `std::copy(other.cbegin(), other.cend(), begin())` reads through
`other.p_data` and writes through the new `p_data`. -/
def copy_construct (other : Object) (h : Heap T) (a : Nat) (fresh : Nat → T) :
    Except Error (Object × Heap T) :=
  if other.m_capacity < 0 then .error .bad_array_new_length
  else
    let c : Object :=
      { m_rows := other.m_rows, m_cols := other.m_cols, m_capacity := other.m_capacity,
        m_numRows := other.m_numRows, m_size := other.m_size, p_data := some a }
    let h1 : Heap T := writeAt h c.p_data (some ((List.range c.m_capacity.toNat).map fresh))
    match tripCount 0 other.m_capacity with
    | none => .error .undefined
    | some n =>
      match readRange (arrAt h1 other.p_data) n 0 with
      | none => .error .undefined
      | some src =>
        match stdCopy src 0 (arrAt h1 c.p_data) with
        | none => .error .undefined
        | some arr => .ok (c, writeAt h1 c.p_data (some arr))

/-- Source: `operator=(const Matrix& rhs)` for `this != &rhs`.  `delete[] p_data` takes the old
array out of the free store; the five counters are taken from `rhs`; `p_data = new
T[m_capacity]` makes `p_data` the address `a` that `new` hands out; then
`std::copy(rhs.cbegin(), rhs.cend(), begin())` reads through `rhs.p_data` and writes through
the new `p_data`. -/
def copy_assign (o rhs : Object) (h : Heap T) (a : Nat) (fresh : Nat → T) :
    Except Error Unit × Object × Heap T :=
  let h1 : Heap T := writeAt h o.p_data none
  let o1 : Object :=
    { m_rows := rhs.m_rows, m_cols := rhs.m_cols, m_capacity := rhs.m_capacity,
      m_numRows := rhs.m_numRows, m_size := rhs.m_size, p_data := o.p_data }
  if o1.m_capacity < 0 then (.error .bad_array_new_length, o1, h1)
  else
    let o2 : Object := { o1 with p_data := some a }
    let h2 : Heap T := writeAt h1 o2.p_data (some ((List.range o2.m_capacity.toNat).map fresh))
    match tripCount 0 rhs.m_capacity with
    | none => (.error .undefined, o2, h2)
    | some n =>
      match readRange (arrAt h2 rhs.p_data) n 0 with
      | none => (.error .undefined, o2, h2)
      | some src =>
        match stdCopy src 0 (arrAt h2 o2.p_data) with
        | none => (.error .undefined, o2, h2)
        | some arr => (.ok (), o2, writeAt h2 o2.p_data (some arr))

end Object

/-- The relation of a copy `c`, seen in the free store `h1`, to its original `m`, seen in `h`
before the copy: same `rows`, `cols`, `capacity`, `numRows` and `size`; equal elements on
`[0, size)`; `c == m` right after the copy; `m` still has its former value; and no sequence of
later calls on `c` changes the value of `m`. -/
def Object.CopyOf {T : Type} [DecidableEq T] (m : Object) (h : Heap T) (c : Object)
    (h1 : Heap T) : Prop :=
  (c.view h1).rows = (m.view h).rows ∧ (c.view h1).cols = (m.view h).cols ∧
  (c.view h1).capacity = (m.view h).capacity ∧ (c.view h1).numRows = (m.view h).numRows ∧
  (c.view h1).size = (m.view h).size ∧
  (∀ i : Int, 0 ≤ i → i < (m.view h).size →
    ∃ x, load (c.view h1).arr i = some x ∧ load (m.view h).arr i = some x) ∧
  (c.view h1).eq (m.view h1) = .ok true ∧
  m.view h1 = m.view h ∧
  ∀ us : List (Mutation T), m.view (c.mutateAll h1 us).2 = m.view h

/-- A sample object: `Matrix<int>(2^32, 2^32, false)` after `resize(1)`, its empty array at
address 0 of `overflowHeap`. -/
def overflowObject : Object :=
  { m_rows := 2 ^ 32, m_cols := 2 ^ 32, m_capacity := 0, m_numRows := 1, m_size := 2 ^ 32,
    p_data := some 0 }

/-- A sample free store: an empty array at address 0, nothing elsewhere. -/
def overflowHeap : Heap Int := fun b => if b = 0 then some [] else none

/-- A sample free store: the array of `sample32b` at address 0, nothing elsewhere. -/
def sampleHeap : Heap Int := fun b => if b = 0 then some [1, 2, 3, 4, 0, 0] else none

/-- A sample object: `sample32b`, its array at address 0. -/
def sampleObject : Object :=
  { m_rows := 3, m_cols := 2, m_capacity := 6, m_numRows := 2, m_size := 4, p_data := some 0 }

/-! ## Memory and loop lemmas -/

section MemoryLemmas

variable {T : Type}

theorem wrap64_eq {x : Int} (h1 : -2 ^ 63 ≤ x) (h2 : x < 2 ^ 63) : wrap64 x = x := by
  unfold wrap64
  rw [Int.emod_eq_of_lt (by omega) (by omega)]
  omega

theorem load_eq_some {a : List T} {i : Int} {x : T} :
    load a i = some x ↔ 0 ≤ i ∧ a[i.toNat]? = some x := by
  unfold load
  split
  · constructor
    · intro h; cases h
    · intro h; omega
  · constructor
    · intro h; exact ⟨by omega, h⟩
    · intro h; exact h.2

theorem load_of_nat (a : List T) (k : Nat) : load a (k : Int) = a[k]? := by
  simp [load]

theorem load_isSome {a : List T} {i : Int} (h0 : 0 ≤ i) (h1 : i < a.length) :
    ∃ x, load a i = some x := by
  have : i.toNat < a.length := by omega
  refine ⟨a[i.toNat], ?_⟩
  simp [load, List.getElem?_eq_getElem this]
  omega

theorem store_length {a a1 : List T} {i : Int} {v : T} (h : store a i v = some a1) :
    a1.length = a.length := by
  unfold store at h
  split at h
  · cases h; simp
  · cases h

theorem store_ok {a : List T} {i : Int} (v : T) (h0 : 0 ≤ i) (h1 : i < a.length) :
    store a i v = some (a.set i.toNat v) := by
  simp [store, h0, h1]

theorem load_store {a a1 : List T} {i : Int} {v : T} (h : store a i v = some a1) (j : Int) :
    load a1 j = if j = i then some v else load a j := by
  unfold store at h
  split at h
  next hb =>
    cases h
    unfold load
    by_cases hj : j < 0
    · have : j ≠ i := by omega
      simp [hj, this]
    · simp only [hj, if_false]
      by_cases hji : j = i
      · subst hji
        have : j.toNat < a.length := by omega
        simp [List.getElem?_set, this]
      · have : i.toNat ≠ j.toNat := by omega
        simp [List.getElem?_set, this, hji]
  next => cases h

theorem stdCopy_ok (src : List T) : ∀ (d : Int) (a : List T), 0 ≤ d →
    d + src.length ≤ a.length → ∃ a1, stdCopy src d a = some a1 := by
  induction src with
  | nil => intro d a _ _; exact ⟨a, rfl⟩
  | cons x xs ih =>
    intro d a h0 h1
    simp only [List.length_cons, Nat.cast_add, Nat.cast_one] at h1
    have hs := store_ok (a := a) x h0 (by omega)
    simp only [stdCopy, hs]
    apply ih
    · omega
    · simp only [List.length_set]; omega

theorem stdCopy_spec (src : List T) : ∀ (d : Int) (a a1 : List T), stdCopy src d a = some a1 →
    a1.length = a.length ∧
    ∀ j : Int, load a1 j =
      if d ≤ j ∧ j < d + src.length then src[(j - d).toNat]? else load a j := by
  induction src with
  | nil =>
    intro d a a1 h
    simp only [stdCopy, Option.some.injEq] at h
    subst h
    refine ⟨rfl, fun j => ?_⟩
    have : ¬ (d ≤ j ∧ j < d + (([] : List T).length : Int)) := by
      simp only [List.length_nil, Nat.cast_zero]; omega
    rw [if_neg this]
  | cons x xs ih =>
    intro d a a1 h
    simp only [stdCopy] at h
    cases hs : store a d x with
    | none => rw [hs] at h; cases h
    | some a2 =>
      rw [hs] at h
      obtain ⟨hl, hj⟩ := ih (d + 1) a2 a1 h
      refine ⟨by rw [hl, store_length hs], fun j => ?_⟩
      rw [hj j, load_store hs j]
      simp only [List.length_cons, Nat.cast_add, Nat.cast_one]
      by_cases h1 : j = d
      · subst h1
        have c1 : ¬ (j + 1 ≤ j ∧ j < j + 1 + (xs.length : Int)) := by omega
        have c2 : j ≤ j ∧ j < j + ((xs.length : Int) + 1) := by omega
        rw [if_neg c1, if_pos c2]
        simp
      · by_cases h2 : d + 1 ≤ j ∧ j < d + 1 + (xs.length : Int)
        · have c2 : d ≤ j ∧ j < d + ((xs.length : Int) + 1) := by omega
          rw [if_pos h2, if_pos c2]
          have : (j - d).toNat = (j - (d + 1)).toNat + 1 := by omega
          rw [this, List.getElem?_cons_succ]
        · have c2 : ¬ (d ≤ j ∧ j < d + ((xs.length : Int) + 1)) := by omega
          rw [if_neg h2, if_neg c2, if_neg h1]

theorem stdFill_eq_stdCopy (v : T) : ∀ (n : Nat) (p : Int) (a : List T),
    stdFill v n p a = stdCopy (List.replicate n v) p a := by
  intro n
  induction n with
  | zero => intro p a; rfl
  | succ n ih =>
    intro p a
    simp only [stdFill, List.replicate_succ, stdCopy]
    cases store a p v with
    | none => rfl
    | some a1 => exact ih (p + 1) a1

theorem readRange_ok (a : List T) : ∀ (n : Nat) (p : Int), 0 ≤ p → p + n ≤ a.length →
    ∃ l, readRange a n p = some l := by
  intro n
  induction n with
  | zero => intro p _ _; exact ⟨[], rfl⟩
  | succ n ih =>
    intro p h0 h1
    simp only [Nat.cast_add, Nat.cast_one] at h1
    obtain ⟨y, hy⟩ := load_isSome (a := a) h0 (by omega)
    obtain ⟨l, hl⟩ := ih (p + 1) (by omega) (by omega)
    exact ⟨y :: l, by simp only [readRange, hy, hl]⟩

theorem readRange_spec (a : List T) : ∀ (n : Nat) (p : Int) (l : List T),
    readRange a n p = some l →
    l.length = n ∧ ∀ k : Nat, k < n → load a (p + k) = l[k]? := by
  intro n
  induction n with
  | zero =>
    intro p l h
    simp only [readRange, Option.some.injEq] at h
    subst h
    exact ⟨rfl, fun k hk => absurd hk (Nat.not_lt_zero k)⟩
  | succ n ih =>
    intro p l h
    simp only [readRange] at h
    cases hy : load a p with
    | none => rw [hy] at h; cases h
    | some y =>
      rw [hy] at h
      cases hr : readRange a n (p + 1) with
      | none => rw [hr] at h; cases h
      | some ys =>
        rw [hr] at h
        simp only [Option.some.injEq] at h
        subst h
        obtain ⟨hl, hk⟩ := ih (p + 1) ys hr
        refine ⟨by simp [hl], fun k hk1 => ?_⟩
        cases k with
        | zero => simpa using hy
        | succ k =>
          have := hk k (by omega)
          rw [List.getElem?_cons_succ, ← this]
          congr 1
          push_cast
          omega

theorem stdFind_first [DecidableEq T] (x : T) (a : List T) : ∀ (n : Nat) (p i : Int),
    p ≤ i → i < p + n → load a i = some x →
    (∀ j, p ≤ j → j < i → ∃ y, load a j = some y ∧ y ≠ x) →
    stdFind x a n p = some i := by
  intro n
  induction n with
  | zero => intro p i h1 h2; simp only [Nat.cast_zero] at h2; omega
  | succ n ih =>
    intro p i h1 h2 hx hbefore
    simp only [Nat.cast_add, Nat.cast_one] at h2
    by_cases hpi : p = i
    · subst hpi
      simp only [stdFind, hx, if_true]
    · obtain ⟨y, hy, hne⟩ := hbefore p (le_refl p) (by omega)
      simp only [stdFind, hy, if_neg hne]
      exact ih (p + 1) i (by omega) (by omega) hx
        (fun j hj1 hj2 => hbefore j (by omega) hj2)

theorem eqLoop_true [DecidableEq T] (a b : List T) : ∀ (n : Nat) (i : Int),
    eqLoop a b n i = some true ↔
      ∀ k : Int, i ≤ k → k < i + n → ∃ x, load a k = some x ∧ load b k = some x := by
  intro n
  induction n with
  | zero =>
    intro i
    simp only [eqLoop, Nat.cast_zero, true_iff]
    intro k h1 h2; omega
  | succ n ih =>
    intro i
    simp only [Nat.cast_add, Nat.cast_one]
    constructor
    · intro h k h1 h2
      unfold eqLoop at h
      cases ha : load a i with
      | none => simp [ha] at h
      | some x =>
        cases hb : load b i with
        | none => simp [ha, hb] at h
        | some y =>
          simp only [ha, hb] at h
          by_cases hxy : x = y
          · subst hxy
            simp only [ne_eq, not_true_eq_false, if_false] at h
            by_cases hk : k = i
            · subst hk; exact ⟨x, ha, hb⟩
            · exact (ih (i + 1)).1 h k (by omega) (by omega)
          · simp [hxy] at h
    · intro h
      obtain ⟨x, ha, hb⟩ := h i (le_refl i) (by omega)
      unfold eqLoop
      simp only [ha, hb, ne_eq, not_true_eq_false, if_false]
      exact (ih (i + 1)).2 (fun k h1 h2 => h k (by omega) (by omega))

theorem eqLoop_ok [DecidableEq T] (a b : List T) : ∀ (n : Nat) (i : Int),
    0 ≤ i → i + n ≤ a.length → i + n ≤ b.length → ∃ r, eqLoop a b n i = some r := by
  intro n
  induction n with
  | zero => intro i _ _ _; exact ⟨true, rfl⟩
  | succ n ih =>
    intro i h0 h1 h2
    simp only [Nat.cast_add, Nat.cast_one] at h1 h2
    obtain ⟨x, ha⟩ := load_isSome (a := a) h0 (by omega)
    obtain ⟨y, hb⟩ := load_isSome (a := b) h0 (by omega)
    unfold eqLoop
    simp only [ha, hb]
    by_cases hxy : x = y
    · simp only [hxy, ne_eq, not_true_eq_false, if_false]
      exact ih (i + 1) (by omega) (by omega) (by omega)
    · exact ⟨false, by simp [hxy]⟩

end MemoryLemmas

/-! ## Lemmas on the operations -/

namespace Matrix

section OperationLemmas

variable {T : Type}


theorem list_eq_of_load {a b : List T} (h : ∀ j : Int, load a j = load b j) : a = b := by
  apply List.ext_getElem?
  intro n
  have := h (n : Int)
  rwa [load_of_nat, load_of_nat] at this

theorem stdFill_full (v : T) (a : List T) :
    stdFill v a.length 0 a = some (List.replicate a.length v) := by
  rw [stdFill_eq_stdCopy]
  obtain ⟨a1, h1⟩ := stdCopy_ok (List.replicate a.length v) 0 a (le_refl 0) (by simp)
  rw [h1]
  obtain ⟨hl, hj⟩ := stdCopy_spec _ _ _ _ h1
  congr 1
  apply list_eq_of_load
  intro j
  rw [hj j]
  by_cases hc : 0 ≤ j ∧ j < 0 + ((List.replicate a.length v).length : Int)
  · rw [if_pos hc]
    simp only [load]
    have : ¬ j < 0 := by omega
    simp only [this, if_false, sub_zero]
  · rw [if_neg hc]
    simp only [List.length_replicate, zero_add] at hc
    simp only [load]
    by_cases hj0 : j < 0
    · simp [hj0]
    · have h2 : a.length ≤ j.toNat := by omega
      simp only [hj0, if_false]
      rw [List.getElem?_eq_none h2, List.getElem?_eq_none (by simpa using h2)]

theorem mul_room {R C N : Int} (h1 : N ≤ R) (h : N * C < R * C) :
    N < R ∧ 0 < C ∧ (N + 1) * C ≤ R * C := by
  have hlt : N < R := by
    rcases lt_or_eq_of_le h1 with h2 | h2
    · exact h2
    · subst h2; exact absurd h (lt_irrefl _)
  have hC : 0 < C := by
    by_contra hc
    have hc : C ≤ 0 := not_lt.mp hc
    have : (R - N) * C ≤ 0 := mul_nonpos_of_nonneg_of_nonpos (by omega) hc
    have e : (R - N) * C = R * C - N * C := by ring
    omega
  refine ⟨hlt, hC, ?_⟩
  have : 0 ≤ (R - (N + 1)) * C := mul_nonneg (by omega) (le_of_lt hC)
  have e : (R - (N + 1)) * C = R * C - (N + 1) * C := by ring
  omega

theorem mul_within {R C n : Int} (hc : 0 ≤ R * C) (h0 : 0 ≤ n) (h1 : n ≤ R) :
    0 ≤ n * C ∧ n * C ≤ R * C := by
  by_cases hC : 0 ≤ C
  · refine ⟨mul_nonneg h0 hC, ?_⟩
    exact mul_le_mul_of_nonneg_right h1 hC
  · have hC : C < 0 := not_le.mp hC
    have hR : R = 0 := by
      by_contra hne
      have hpos : 0 < R := by omega
      have := mul_neg_of_pos_of_neg hpos hC
      omega
    have hn : n = 0 := by omega
    subst hn; subst hR
    simp

theorem arr_setArr (m : Matrix T) (a : List T) (h : a.length = m.arr.length) :
    (m.setArr a).arr = a := by
  unfold setArr arr at *
  cases hp : m.p_data with
  | none =>
    rw [hp] at h
    simp only [Option.getD_none, List.length_nil, List.length_eq_zero] at h
    simp [h]
  | some b => simp

theorem append_rvalue_eq (m : Matrix T) (d : List T) : m.append_rvalue d = m.append d := rfl

theorem append_range_eq (m : Matrix T) (d : List T) : m.append_range d = m.append d := rfl

theorem set_rvalue_eq (DEBUG : Bool) (m : Matrix T) (row : Int) (d : List T) :
    m.set_rvalue DEBUG row d = m.set DEBUG row d := rfl

theorem set_range_eq (DEBUG : Bool) (m : Matrix T) (row : Int) (d : List T) :
    m.set_range DEBUG row d = m.set DEBUG row d := rfl

/-- Writing the array keeps well-formedness and the bookkeeping. -/
theorem good_setArr {m : Matrix T} (hw : m.WellFormed) (hi : m.Bookkeeping) (a : List T)
    (h : a.length = m.arr.length) : (m.setArr a).WellFormed ∧ (m.setArr a).Bookkeeping := by
  have ha := arr_setArr m a h
  obtain ⟨w1, w2, w3, w4, w5, w6⟩ := hw
  refine ⟨⟨w1, w2, w3, w4, w5, ?_⟩, hi⟩
  rw [ha, h]; exact w6

/-- The result of a successful `append`, under the invariant. -/
theorem append_result {m : Matrix T} (hw : m.WellFormed) (hi : m.Bookkeeping)
    (hs : m.size < m.capacity) (d : List T) (hd : (d.length : Int) = m.cols) :
    ∃ a, stdCopy d m.m_size m.arr = some a ∧
      m.append d = (.ok (), { m.setArr a with
        m_numRows := m.m_numRows + 1, m_size := m.m_size + m.m_cols }) := by
  obtain ⟨w1, w2, w3, w4, w5, w6⟩ := hw
  obtain ⟨i1, i2, i3, i4, i5, i6⟩ := hi
  simp only [Matrix.capacity, Matrix.rows, Matrix.cols, Matrix.size, Matrix.numRows, isInt64] at *
  have hroom := mul_room i4 (by rw [← i2, ← i1]; exact hs)
  obtain ⟨a, ha⟩ := stdCopy_ok d m.m_size m.arr i5 (by rw [hd, w6]; rw [i2, i1]; linarith [hroom.2.2])
  refine ⟨a, ha, ?_⟩
  have hc : ¬ m.m_size ≥ m.m_capacity := by omega
  have e1 : wrap64 (m.m_numRows + 1) = m.m_numRows + 1 := wrap64_eq (by omega) (by omega)
  have e2 : wrap64 (m.m_size + m.m_cols) = m.m_size + m.m_cols := by
    have : m.m_size + m.m_cols ≤ m.m_capacity := by rw [i2, i1]; linarith [hroom.2.2]
    exact wrap64_eq (by omega) (by omega)
  simp only [append, checkAtCapacity, hc, if_false, ha, e1, e2]


theorem stdFill_fresh (v : T) (n : Nat) (fresh : Nat → T) :
    stdFill v n 0 ((List.range n).map fresh) = some (List.replicate n v) := by
  have h := stdFill_full v ((List.range n).map fresh)
  simpa using h

/-- The object built by the sized constructor when `rows * cols` does not overflow. -/
theorem construct_result (rows cols : Int) (h0r : 0 ≤ rows) (h0c : 0 ≤ cols)
    (hp : rows * cols < 2 ^ 63) (autoResize : Bool) (fillVal : T) (fresh : Nat → T) :
    construct rows cols autoResize fillVal fresh = .ok
      { m_rows := rows, m_cols := cols, m_capacity := rows * cols,
        m_numRows := if autoResize then rows else 0,
        m_size := if autoResize then rows * cols else 0,
        p_data := some (if autoResize then List.replicate (rows * cols).toNat fillVal
                        else (List.range (rows * cols).toNat).map fresh) } := by
  have hnn : 0 ≤ rows * cols := mul_nonneg h0r h0c
  have hw : wrap64 (rows * cols) = rows * cols := wrap64_eq (by omega) hp
  have v1 : ¬ rows < 0 := by omega
  have v2 : ¬ cols < 0 := by omega
  have v3 : ¬ rows * cols < 0 := by omega
  cases autoResize with
  | false =>
    simp [construct, validateDimensions, validateRows, validateCols, allocate, hw, v1, v2, v3]
  | true =>
    have r1 : ¬ (rows < 0 ∨ rows > rows) := by omega
    have t1 : tripCount 0 (rows * cols) = some (rows * cols).toNat := by
      simp [tripCount, hnn]
    simp [construct, validateDimensions, validateRows, validateCols, allocate, hw, v1, v2, v3,
      resize, r1, fill, capacity, t1, arr, stdFill_fresh, setArr]


theorem good_default :
    (Matrix.default : Matrix T).WellFormed ∧ (Matrix.default : Matrix T).Bookkeeping := by
  simp [Matrix.default, WellFormed, Bookkeeping, isInt64, arr, Matrix.capacity, Matrix.rows, Matrix.cols, Matrix.size, Matrix.numRows]

theorem good_construct {rows cols : Int} (hr : isInt64 rows) (hc : isInt64 cols)
    (h0r : 0 ≤ rows) (h0c : 0 ≤ cols) (hp : isInt64 (rows * cols)) {autoResize : Bool}
    {fillVal : T} {fresh : Nat → T} {m : Matrix T}
    (h : construct rows cols autoResize fillVal fresh = .ok m) : m.WellFormed ∧ m.Bookkeeping := by
  rw [construct_result rows cols h0r h0c hp.2] at h
  simp only [Except.ok.injEq] at h
  subst h
  have hnn : 0 ≤ rows * cols := mul_nonneg h0r h0c
  have h63 : isInt64 0 := by unfold isInt64; omega
  cases autoResize with
  | false =>
    simp only [WellFormed, Bookkeeping, arr, Matrix.capacity, Matrix.rows, Matrix.cols, Matrix.size, Matrix.numRows]
    simp [hr, hc, hp, h0r, hnn, h63]
  | true =>
    simp only [WellFormed, Bookkeeping, arr, Matrix.capacity, Matrix.rows, Matrix.cols, Matrix.size, Matrix.numRows]
    simp [hr, hc, hp, h0r, hnn]

theorem good_append {m : Matrix T} (hw : m.WellFormed) (hi : m.Bookkeeping) (d : List T)
    (hd : (d.length : Int) = m.cols) : (m.append d).2.WellFormed ∧ (m.append d).2.Bookkeeping := by
  by_cases hs : m.size < m.capacity
  · obtain ⟨a, ha, he⟩ := append_result hw hi hs d hd
    rw [he]
    have hl := (stdCopy_spec _ _ _ _ ha).1
    have harr : (m.setArr a).arr = a := arr_setArr m a hl
    obtain ⟨w1, w2, w3, w4, w5, w6⟩ := hw
    obtain ⟨i1, i2, i3, i4, i5, i6⟩ := hi
    simp only [Matrix.capacity, Matrix.rows, Matrix.cols, Matrix.size, Matrix.numRows, isInt64] at *
    have hroom := mul_room i4 (by rw [← i2, ← i1]; exact hs)
    have hsz : m.m_size + m.m_cols = (m.m_numRows + 1) * m.m_cols := by rw [i2]; ring
    have hle : m.m_size + m.m_cols ≤ m.m_capacity := by rw [hsz, i1]; exact hroom.2.2
    refine ⟨⟨w1, w2, w3, ?_, ?_, ?_⟩, ⟨i1, hsz, ?_, ?_, ?_, hle⟩⟩
    · show -2 ^ 63 ≤ m.m_numRows + 1 ∧ m.m_numRows + 1 < 2 ^ 63
      omega
    · show -2 ^ 63 ≤ m.m_size + m.m_cols ∧ m.m_size + m.m_cols < 2 ^ 63
      omega
    · show ((Matrix.arr (m.setArr a)).length : Int) = m.m_capacity
      rw [harr, hl]; exact w6
    · show 0 ≤ m.m_numRows + 1
      omega
    · show m.m_numRows + 1 ≤ m.m_rows
      omega
    · show 0 ≤ m.m_size + m.m_cols
      omega
  · have hc : m.m_size ≥ m.m_capacity := by
      simp only [capacity, size] at hs; omega
    have : (m.append d).2 = m := by simp [append, checkAtCapacity, hc]
    rw [this]; exact ⟨hw, hi⟩

theorem good_set {m : Matrix T} (hw : m.WellFormed) (hi : m.Bookkeeping) (DEBUG : Bool)
    (row : Int) (d : List T) : (m.set DEBUG row d).2.WellFormed ∧ (m.set DEBUG row d).2.Bookkeeping := by
  unfold Matrix.set
  cases m.rowBegin DEBUG (wrap32 row) with
  | error e => exact ⟨hw, hi⟩
  | ok p =>
    simp only
    cases hc : stdCopy d p m.arr with
    | none => exact ⟨hw, hi⟩
    | some a => exact good_setArr hw hi a (stdCopy_spec _ _ _ _ hc).1

theorem good_resize {m : Matrix T} (hw : m.WellFormed) (hi : m.Bookkeeping) (n : Int) :
    (m.resize n).2.WellFormed ∧ (m.resize n).2.Bookkeeping := by
  unfold resize
  by_cases hn : n < 0 ∨ n > m.m_rows
  · rw [if_pos hn]; exact ⟨hw, hi⟩
  · rw [if_neg hn]
    obtain ⟨w1, w2, w3, w4, w5, w6⟩ := hw
    obtain ⟨i1, i2, i3, i4, i5, i6⟩ := hi
    simp only [Matrix.capacity, Matrix.rows, Matrix.cols, Matrix.size, Matrix.numRows, isInt64] at *
    have hb := mul_within (R := m.m_rows) (C := m.m_cols) (n := n) (by rw [← i1]; omega)
      (by omega) (by omega)
    have e : wrap64 (n * m.m_cols) = n * m.m_cols := wrap64_eq (by omega) (by omega)
    simp only [e]
    refine ⟨⟨w1, w2, w3, ?_, ?_, w6⟩, ⟨i1, rfl, ?_, ?_, hb.1, ?_⟩⟩
    · show -2 ^ 63 ≤ n ∧ n < 2 ^ 63
      omega
    · show -2 ^ 63 ≤ n * m.m_cols ∧ n * m.m_cols < 2 ^ 63
      omega
    · show 0 ≤ n
      omega
    · show n ≤ m.m_rows
      omega
    · show n * m.m_cols ≤ m.m_capacity
      omega

theorem good_fill {m : Matrix T} (hw : m.WellFormed) (hi : m.Bookkeeping) (v : T) :
    (m.fill v).2.WellFormed ∧ (m.fill v).2.Bookkeeping := by
  unfold fill
  cases tripCount 0 m.capacity with
  | none => exact ⟨hw, hi⟩
  | some n =>
    simp only
    cases hc : stdFill v n 0 m.arr with
    | none => exact ⟨hw, hi⟩
    | some a =>
      rw [stdFill_eq_stdCopy] at hc
      exact good_setArr hw hi a (stdCopy_spec _ _ _ _ hc).1

theorem good_clear {m : Matrix T} (hw : m.WellFormed) (hi : m.Bookkeeping) :
    m.clear.WellFormed ∧ m.clear.Bookkeeping := by
  obtain ⟨w1, w2, w3, w4, w5, w6⟩ := hw
  obtain ⟨i1, i2, i3, i4, i5, i6⟩ := hi
  simp only [Matrix.capacity, Matrix.rows, Matrix.cols, Matrix.size, Matrix.numRows, isInt64] at *
  refine ⟨⟨w1, w2, w3, ?_, ?_, w6⟩, ⟨i1, ?_, ?_, ?_, ?_, ?_⟩⟩ <;>
    simp only [clear, Matrix.capacity, Matrix.rows, Matrix.cols, Matrix.size, Matrix.numRows, isInt64] <;> omega


/-- A new array of `other.m_capacity` elements under `other`'s counters, once written to. -/
theorem good_fresh_copy {other : Matrix T} (hw : other.WellFormed) (hi : other.Bookkeeping)
    (fresh : Nat → T) (a : List T)
    (hl : a.length = ((List.range other.m_capacity.toNat).map fresh).length) :
    (Matrix.setArr
      ({ m_rows := other.m_rows, m_cols := other.m_cols, m_capacity := other.m_capacity,
         m_numRows := other.m_numRows, m_size := other.m_size,
         p_data := some ((List.range other.m_capacity.toNat).map fresh) } : Matrix T) a).WellFormed ∧
    (Matrix.setArr
      ({ m_rows := other.m_rows, m_cols := other.m_cols, m_capacity := other.m_capacity,
         m_numRows := other.m_numRows, m_size := other.m_size,
         p_data := some ((List.range other.m_capacity.toNat).map fresh) } : Matrix T) a).Bookkeeping := by
  obtain ⟨w1, w2, w3, w4, w5, w6⟩ := hw
  obtain ⟨i1, i2, i3, i4, i5, i6⟩ := hi
  simp only [Matrix.capacity, Matrix.rows, Matrix.cols, Matrix.size, Matrix.numRows] at *
  refine ⟨⟨w1, w2, w3, w4, w5, ?_⟩, ⟨i1, i2, i3, i4, i5, i6⟩⟩
  simp only [setArr, arr, Option.map_some', Option.getD_some]
  rw [hl]
  simp only [List.length_map, List.length_range]
  omega

theorem good_copy_construct {other : Matrix T} (hw : other.WellFormed)
    (hi : other.Bookkeeping) {fresh : Nat → T} {m : Matrix T}
    (h : other.copy_construct fresh = .ok m) : m.WellFormed ∧ m.Bookkeeping := by
  unfold copy_construct at h
  split at h
  · cases h
  · simp only at h
    split at h
    · cases h
    · split at h
      · cases h
      · split at h
        · cases h
        · next a ha =>
          simp only [Except.ok.injEq] at h
          subst h
          exact good_fresh_copy hw hi fresh a (stdCopy_spec _ _ _ _ ha).1

theorem good_copy_assign {m rhs : Matrix T} (hw : m.WellFormed) (hi : m.Bookkeeping)
    (hwr : rhs.WellFormed) (hir : rhs.Bookkeeping) (fresh : Nat → T) :
    (m.copy_assign rhs fresh).2.WellFormed ∧ (m.copy_assign rhs fresh).2.Bookkeeping := by
  have hcap : ¬ rhs.m_capacity < 0 := by
    have h5 := hir.2.2.2.2.1
    have h6 := hir.2.2.2.2.2
    simp only [Matrix.capacity, Matrix.size] at h5 h6
    omega
  unfold copy_assign
  simp only [hcap, if_false]
  split
  · exact ⟨hw, hi⟩
  · split
    · exact ⟨hw, hi⟩
    · split
      · exact ⟨hw, hi⟩
      · next a ha =>
        exact good_fresh_copy hwr hir fresh a (stdCopy_spec _ _ _ _ ha).1

theorem move_assign_fst (m rhs : Matrix T) : (m.move_assign rhs).1 = rhs := rfl

theorem move_assign_snd (m rhs : Matrix T) : (m.move_assign rhs).2 = Matrix.default := rfl

theorem move_construct_ok (other : Matrix T) (fillVal : T) (fresh : Nat → T) :
    other.move_construct fillVal fresh = .ok (other, Matrix.default) := by
  have h := construct_result 0 0 (le_refl 0) (le_refl 0) (by norm_num) false fillVal fresh
  unfold move_construct
  rw [h]
  rfl

/-- Every reachable object is well formed and satisfies the bookkeeping invariant. -/
theorem good_of_reachable {m : Matrix T} (h : Reachable m) : m.WellFormed ∧ m.Bookkeeping := by
  induction h with
  | default => exact good_default
  | construct rows cols autoResize fillVal fresh m hr hc h0r h0c hp h =>
    exact good_construct hr hc h0r h0c hp h
  | append m d _ hd ih => exact good_append ih.1 ih.2 d hd
  | append_rvalue m d _ hd ih => rw [append_rvalue_eq]; exact good_append ih.1 ih.2 d hd
  | append_range m d _ hd ih => rw [append_range_eq]; exact good_append ih.1 ih.2 d hd
  | set DEBUG m row d _ ih => exact good_set ih.1 ih.2 DEBUG row d
  | set_rvalue DEBUG m row d _ ih => rw [set_rvalue_eq]; exact good_set ih.1 ih.2 DEBUG row d
  | set_range DEBUG m row d _ ih => rw [set_range_eq]; exact good_set ih.1 ih.2 DEBUG row d
  | resize m n _ ih => exact good_resize ih.1 ih.2 n
  | fill m v _ ih => exact good_fill ih.1 ih.2 v
  | clear m _ ih => exact good_clear ih.1 ih.2
  | copy_construct other fresh m _ h ih => exact good_copy_construct ih.1 ih.2 h
  | copy_assign m rhs fresh _ _ ih1 ih2 => exact good_copy_assign ih1.1 ih1.2 ih2.1 ih2.2 fresh
  | move_assign_this m rhs _ _ _ ih2 => rw [move_assign_fst]; exact ih2
  | move_assign_rhs m rhs _ _ _ _ => rw [move_assign_snd]; exact good_default
  | move_construct_this other fillVal fresh r _ h ih =>
    rw [move_construct_ok] at h
    simp only [Except.ok.injEq] at h
    subst h; exact ih
  | move_construct_other other fillVal fresh r _ h ih =>
    rw [move_construct_ok] at h
    simp only [Except.ok.injEq] at h
    subst h; exact good_default

/-- The outcome of the sized constructor for non-negative dimensions, in terms of the
`int64_t` product stored in `m_capacity`. -/
theorem construct_wrapped (rows cols : Int) (h0r : 0 ≤ rows) (h0c : 0 ≤ cols)
    (autoResize : Bool) (fillVal : T) (fresh : Nat → T) :
    construct rows cols autoResize fillVal fresh =
      if wrap64 (rows * cols) < 0 then .error .bad_array_new_length
      else .ok
        { m_rows := rows, m_cols := cols, m_capacity := wrap64 (rows * cols),
          m_numRows := if autoResize then rows else 0,
          m_size := if autoResize then wrap64 (rows * cols) else 0,
          p_data := some (if autoResize then List.replicate (wrap64 (rows * cols)).toNat fillVal
                          else (List.range (wrap64 (rows * cols)).toNat).map fresh) } := by
  have v1 : ¬ rows < 0 := by omega
  have v2 : ¬ cols < 0 := by omega
  by_cases v3 : wrap64 (rows * cols) < 0
  · simp [construct, validateDimensions, validateRows, validateCols, allocate, v1, v2, v3]
  · have hnn : 0 ≤ wrap64 (rows * cols) := by omega
    cases autoResize with
    | false =>
      simp [construct, validateDimensions, validateRows, validateCols, allocate, v1, v2, v3]
    | true =>
      have r1 : ¬ (rows < 0 ∨ rows > rows) := by omega
      have t1 : tripCount 0 (wrap64 (rows * cols)) = some (wrap64 (rows * cols)).toNat := by
        simp [tripCount, hnn]
      simp [construct, validateDimensions, validateRows, validateCols, allocate, v1, v2, v3,
        resize, r1, fill, capacity, t1, arr, stdFill_fresh, setArr]

theorem cell_bounds {R C r c : Int} (hr0 : 0 ≤ r) (hr : r < R) (hc0 : 0 ≤ c) (hc : c < C) :
    0 ≤ r * C ∧ r * C + c < R * C := by
  have hC : 0 ≤ C := by omega
  have h1 : 0 ≤ r * C := mul_nonneg hr0 hC
  have h2 : (r + 1) * C ≤ R * C := mul_le_mul_of_nonneg_right (by omega) hC
  have e : (r + 1) * C = r * C + C := by ring
  exact ⟨h1, by omega⟩

theorem load_replicate (n : Nat) (v : T) (i : Int) (h0 : 0 ≤ i) (h1 : i < n) :
    load (List.replicate n v) i = some v := by
  have h2 : i.toNat < n := by omega
  have h3 : ¬ i < 0 := by omega
  simp only [load, h3, if_false]
  rw [List.getElem?_eq_getElem (by simpa using h2)]
  simp

theorem append_error_iff (m : Matrix T) (d : List T) :
    (m.append d).1 = .error .length_error ↔ m.size ≥ m.capacity := by
  unfold append checkAtCapacity
  by_cases hc : m.m_size ≥ m.m_capacity
  · simp [hc, Matrix.size, Matrix.capacity]
  · simp only [hc, if_false, Matrix.size, Matrix.capacity, iff_false]
    cases stdCopy d m.m_size m.arr with
    | none => simp
    | some a => simp

theorem append_error_state (m : Matrix T) (d : List T) (e : Error)
    (h : (m.append d).1 = .error e) : (m.append d).2 = m := by
  unfold append at h ⊢
  cases hc : m.checkAtCapacity with
  | error e1 => rfl
  | ok u =>
    rw [hc] at h
    simp only at h ⊢
    cases hs : stdCopy d m.m_size m.arr with
    | none => rfl
    | some a => rw [hs] at h; cases h

theorem readRange_of_load (a : List T) (l : List T) : ∀ p : Int,
    (∀ k : Nat, k < l.length → load a (p + k) = l[k]?) → readRange a l.length p = some l := by
  induction l with
  | nil => intro p _; rfl
  | cons x xs ih =>
    intro p h
    have h0 := h 0 (by simp)
    simp only [Nat.cast_zero, add_zero, List.getElem?_cons_zero] at h0
    have hrest : readRange a xs.length (p + 1) = some xs := by
      apply ih
      intro k hk
      have := h (k + 1) (by simp; omega)
      rw [List.getElem?_cons_succ] at this
      rw [← this]
      congr 1
      push_cast
      ring
    simp only [List.length_cons, readRange, h0, hrest]

/-- The value of `extractRow(row)` for a row inside the declared rows, in terms of the array. -/
theorem extractRow_of_range (DEBUG : Bool) (m : Matrix T) (r : Int) (hr0 : 0 ≤ r)
    (hr : r < m.m_rows) (hc : 0 ≤ m.m_cols) (hwr : wrap64 (r * m.m_cols) = r * m.m_cols)
    (l : List T) (hl : readRange m.arr m.m_cols.toNat (r * m.m_cols) = some l) :
    m.extractRow DEBUG r = .ok l := by
  have d2 : ¬ (DEBUG = true ∧ (r ≥ m.m_rows ∨ r < 0)) := by
    intro h; omega
  have t : tripCount (r * m.m_cols) (r * m.m_cols + m.m_cols) = some m.m_cols.toNat := by
    have : r * m.m_cols ≤ r * m.m_cols + m.m_cols := by omega
    simp [tripCount, this]
  simp only [extractRow, rowBegin, rowEnd, at_row, d2, if_false, hwr, t, hl]

theorem arr_update (m : Matrix T) (n s : Int) :
    Matrix.arr { m with m_numRows := n, m_size := s } = m.arr := rfl

/-- A run of `append` calls that fits in the declared rows succeeds throughout. -/
theorem appendAll_ok (ds : List (List T)) : ∀ (m : Matrix T), m.WellFormed → m.Bookkeeping →
    0 < m.cols → (∀ d ∈ ds, (d.length : Int) = m.cols) →
    m.numRows + ds.length ≤ m.rows →
    ∃ mk, m.appendAll ds = (.ok (), mk) ∧ mk.WellFormed ∧ mk.Bookkeeping ∧
      mk.numRows = m.numRows + ds.length ∧ mk.rows = m.rows ∧ mk.cols = m.cols := by
  induction ds with
  | nil =>
    intro m hw hi _ _ _
    exact ⟨m, rfl, hw, hi, by simp, rfl, rfl⟩
  | cons d ds ih =>
    intro m hw hi hc hd hn
    simp only [List.length_cons, Nat.cast_add, Nat.cast_one] at hn
    have hd0 : (d.length : Int) = m.cols := hd d (by simp)
    have hs : m.size < m.capacity := by
      rw [hi.1, hi.2.1]
      exact mul_lt_mul_of_pos_right (by omega) hc
    obtain ⟨a, _, he⟩ := append_result hw hi hs d hd0
    have hg := good_append hw hi d hd0
    rw [he] at hg
    obtain ⟨mk, h1, h2, h3, h4, h5, h6⟩ := ih _ hg.1 hg.2 (by exact hc)
      (fun x hx => by rw [hd x (by simp [hx])]; rfl)
      (by show m.m_numRows + 1 + (ds.length : Int) ≤ m.m_rows
          simp only [Matrix.numRows, Matrix.rows] at hn; omega)
    refine ⟨mk, ?_, h2, h3, ?_, by rw [h5]; rfl, by rw [h6]; rfl⟩
    · simp only [appendAll, he]
      exact h1
    · rw [h4]
      show m.m_numRows + 1 + (ds.length : Int) = m.m_numRows + ((ds.length : Int) + 1)
      omega

theorem wrap32_eq {x : Int} (h1 : -2 ^ 31 ≤ x) (h2 : x < 2 ^ 31) : wrap32 x = x := by
  unfold wrap32
  rw [Int.emod_eq_of_lt (by omega) (by omega)]
  omega

/-- The value of `at(row, col)` for a cell inside the declared dimensions, in terms of the array. -/
theorem at_of_load (DEBUG : Bool) (m : Matrix T) (r c : Int) (hr0 : 0 ≤ r) (hr : r < m.m_rows)
    (hc0 : 0 ≤ c) (hc : c < m.m_cols) (hwr : wrap64 (r * m.m_cols) = r * m.m_cols) (x : T)
    (hx : load m.arr (r * m.m_cols + c) = some x) : m.at DEBUG r c = .ok x := by
  have d1 : ¬ (DEBUG = true ∧ (c ≥ m.m_cols ∨ c < 0)) := by
    intro h; omega
  have d2 : ¬ (DEBUG = true ∧ (r ≥ m.m_rows ∨ r < 0)) := by
    intro h; omega
  simp only [«at», at_row, d1, d2, if_false, hwr, hx]

/-- The least position holding `x`, when some position does. -/
theorem exists_first [DecidableEq T] (a : List T) (x : T) (k : Int) (hk0 : 0 ≤ k)
    (hk : load a k = some x) :
    ∃ i : Int, 0 ≤ i ∧ i ≤ k ∧ load a i = some x ∧
      ∀ j : Int, 0 ≤ j → j < i → load a j ≠ some x := by
  have hex : ∃ n : Nat, load a (n : Int) = some x := ⟨k.toNat, by
    rw [Int.toNat_of_nonneg hk0]; exact hk⟩
  refine ⟨(Nat.find hex : Nat), by omega, ?_, Nat.find_spec hex, ?_⟩
  · have := Nat.find_min' hex (m := k.toNat) (by rw [Int.toNat_of_nonneg hk0]; exact hk)
    omega
  · intro j hj0 hj1
    have hlt : j.toNat < Nat.find hex := by omega
    have := Nat.find_min hex hlt
    rwa [Int.toNat_of_nonneg hj0] at this

theorem readRange_full (a : List T) : readRange a a.length 0 = some a := by
  apply readRange_of_load
  intro k _
  rw [zero_add, load_of_nat]

theorem readRange_nil {n : Nat} {p : Int} {l : List T}
    (h : readRange ([] : List T) n p = some l) : n = 0 ∧ l = [] := by
  cases n with
  | zero =>
    simp only [readRange, Option.some.injEq] at h
    exact ⟨rfl, h.symm⟩
  | succ n =>
    have : load ([] : List T) p = none := by
      unfold load; split <;> simp
    simp [readRange, this] at h

/-- A row-cursor loop over `n` consecutive positions visits what a read of the range gives,
when at least `n` iterations are allowed. -/
theorem rowLoop_range (a : List T) : ∀ (n : Nat) (p : Int) (l : List T),
    readRange a n p = some l → ∀ fuel : Nat, n ≤ fuel →
    rowLoop a fuel { p_iter := some p } { p_iter := some (p + n) } = some (.ok l) := by
  intro n
  induction n with
  | zero =>
    intro p l h fuel _
    simp only [readRange, Option.some.injEq] at h
    subst h
    cases fuel <;> simp [rowLoop, ForwardRowIterator.ne]
  | succ n ih =>
    intro p l h fuel hf
    simp only [readRange] at h
    cases hy : load a p with
    | none => rw [hy] at h; cases h
    | some y =>
      rw [hy] at h
      cases hr : readRange a n (p + 1) with
      | none => rw [hr] at h; cases h
      | some ys =>
        rw [hr] at h
        simp only [Option.some.injEq] at h
        subst h
        cases fuel with
        | zero => omega
        | succ f =>
          have hne : ¬ p = p + ((n + 1 : Nat) : Int) := by omega
          have hrec := ih (p + 1) ys hr f (by omega)
          have e : p + 1 + (n : Int) = p + ((n + 1 : Nat) : Int) := by push_cast; ring
          rw [e] at hrec
          simp only [rowLoop, ForwardRowIterator.ne, ForwardRowIterator.deref,
            ForwardRowIterator.pre_increment, Option.some.injEq, ne_eq, hne, not_false_eq_true,
            decide_True, if_true, hy, Option.map_some', hrec]

/-- A row-cursor loop over `n` readable positions has not met its end after fewer than `n`
iterations. -/
theorem rowLoop_short (a : List T) : ∀ (fuel n : Nat) (p : Int) (l : List T),
    readRange a n p = some l → fuel < n →
    rowLoop a fuel { p_iter := some p } { p_iter := some (p + n) } = none := by
  intro fuel
  induction fuel with
  | zero =>
    intro n p l _ hf
    have hne : ¬ p = p + (n : Int) := by omega
    simp [rowLoop, ForwardRowIterator.ne, hne]
  | succ f ih =>
    intro n p l h hf
    cases n with
    | zero => omega
    | succ n =>
      simp only [readRange] at h
      cases hy : load a p with
      | none => rw [hy] at h; cases h
      | some y =>
        rw [hy] at h
        cases hr : readRange a n (p + 1) with
        | none => rw [hr] at h; cases h
        | some ys =>
          have hne : ¬ p = p + ((n + 1 : Nat) : Int) := by omega
          have hrec := ih n (p + 1) ys hr (by omega)
          have e : p + 1 + (n : Int) = p + ((n + 1 : Nat) : Int) := by push_cast; ring
          rw [e] at hrec
          simp only [rowLoop, ForwardRowIterator.ne, ForwardRowIterator.deref,
            ForwardRowIterator.pre_increment, Option.some.injEq, ne_eq, hne, not_false_eq_true,
            decide_True, if_true, hy, Option.map_some', hrec]

/-- The two loop facts for cursors made from the pointer of an object. -/
theorem rowLoop_ptr (m : Matrix T) (n : Nat) (p : Int) (l : List T)
    (h : readRange m.arr n p = some l) :
    (∀ fuel : Nat, n ≤ fuel →
      rowLoop m.arr fuel { p_iter := m.ptr p } { p_iter := m.ptr (p + n) } = some (.ok l)) ∧
    (∀ fuel : Nat, fuel < n →
      rowLoop m.arr fuel { p_iter := m.ptr p } { p_iter := m.ptr (p + n) } = none) := by
  cases hp : m.p_data with
  | none =>
    have harr : m.arr = [] := by simp [arr, hp]
    rw [harr] at h
    obtain ⟨hn, hl⟩ := readRange_nil h
    subst hn; subst hl
    refine ⟨fun fuel _ => ?_, fun fuel hf => absurd hf (Nat.not_lt_zero fuel)⟩
    cases fuel <;> simp [rowLoop, ForwardRowIterator.ne, ptr, hp]
  | some b =>
    simp only [ptr, hp, Option.map_some']
    exact ⟨rowLoop_range m.arr n p l h, fun fuel hf => rowLoop_short m.arr fuel n p l h hf⟩

/-- A column-cursor loop with stride `c > 0` over `n` readable positions visits them in order
and ends after exactly `n` steps. -/
theorem colLoop_stride (a : List T) (c : Int) (hc : 0 < c) : ∀ (n : Nat) (p : Int),
    (∀ i : Nat, i < n → ∃ x, load a (p + i * c) = some x) →
    ∃ l : List T, l.length = n ∧ (∀ i : Nat, i < n → l[i]? = load a (p + i * c)) ∧
      (∀ fuel : Nat, n ≤ fuel →
        colLoop a fuel { p_iter := some p, m_cols := c } { p_iter := some (p + n * c), m_cols := c }
          = some (.ok l)) ∧
      (∀ fuel : Nat, fuel < n →
        colLoop a fuel { p_iter := some p, m_cols := c } { p_iter := some (p + n * c), m_cols := c }
          = none) := by
  intro n
  induction n with
  | zero =>
    intro p _
    refine ⟨[], rfl, fun i hi => absurd hi (Nat.not_lt_zero i), fun fuel _ => ?_,
      fun fuel hf => absurd hf (Nat.not_lt_zero fuel)⟩
    cases fuel <;> simp [colLoop, ForwardColumnIterator.ne]
  | succ n ih =>
    intro p h
    obtain ⟨x, hx⟩ := h 0 (by omega)
    simp only [Nat.cast_zero, zero_mul, add_zero] at hx
    have hshift : ∀ i : Nat, p + c + (i : Int) * c = p + ((i + 1 : Nat) : Int) * c := by
      intro i; push_cast; ring
    obtain ⟨l, hlen, hget, hge, hlt⟩ := ih (p + c) (fun i hi => by
      rw [hshift i]; exact h (i + 1) (by omega))
    have hpos : 0 < ((n + 1 : Nat) : Int) * c := mul_pos (by push_cast; omega) hc
    have hne : ¬ p = p + ((n + 1 : Nat) : Int) * c := by omega
    have elast : p + c + (n : Int) * c = p + ((n + 1 : Nat) : Int) * c := hshift n
    rw [elast] at hge hlt
    refine ⟨x :: l, by simp [hlen], ?_, ?_, ?_⟩
    · intro i hi
      cases i with
      | zero => simp [hx]
      | succ i =>
        rw [List.getElem?_cons_succ, hget i (by omega), hshift i]
    · intro fuel hf
      cases fuel with
      | zero => omega
      | succ f =>
        have hrec := hge f (by omega)
        simp only [colLoop, ForwardColumnIterator.ne, ForwardColumnIterator.deref,
          ForwardColumnIterator.pre_increment, Option.some.injEq, ne_eq, hne,
          not_false_eq_true, decide_True, if_true, hx, Option.map_some', hrec]
    · intro fuel hf
      cases fuel with
      | zero =>
        simp only [colLoop, ForwardColumnIterator.ne, Option.some.injEq, ne_eq, hne,
          not_false_eq_true, decide_True, if_true]
      | succ f =>
        have hrec := hlt f (by omega)
        simp only [colLoop, ForwardColumnIterator.ne, ForwardColumnIterator.deref,
          ForwardColumnIterator.pre_increment, Option.some.injEq, ne_eq, hne,
          not_false_eq_true, decide_True, if_true, hx, Option.map_some', hrec]

theorem stdFind_absent [DecidableEq T] (x : T) (a : List T) : ∀ (n : Nat) (p : Int),
    (∀ j, p ≤ j → j < p + n → ∃ y, load a j = some y ∧ y ≠ x) →
    stdFind x a n p = some (p + n) := by
  intro n
  induction n with
  | zero => intro p _; simp [stdFind]
  | succ n ih =>
    intro p h
    obtain ⟨y, hy, hne⟩ := h p (le_refl p) (by push_cast; omega)
    simp only [stdFind, hy, if_neg hne]
    rw [ih (p + 1) (fun j hj1 hj2 => h j (by omega) (by push_cast; omega))]
    congr 1
    push_cast
    ring

/-- The value of `find(x)` when the first position of the array holding `x` is `i`. -/
theorem find_at_first [DecidableEq T] (m : Matrix T) (hw : m.WellFormed) (hi : m.Bookkeeping)
    (hc : 0 < m.cols) (h32r : m.rows ≤ 2 ^ 31) (h32c : m.cols ≤ 2 ^ 31) (x : T) (i : Int)
    (hi0 : 0 ≤ i) (hi1 : i < m.capacity) (hix : load m.arr i = some x)
    (hmin : ∀ j : Int, 0 ≤ j → j < i → load m.arr j ≠ some x) :
    m.find x = .ok (i / m.cols, i % m.cols) ∧ 0 ≤ i / m.cols ∧ i / m.cols < m.rows ∧
      0 ≤ i % m.cols ∧ i % m.cols < m.cols ∧ i / m.cols * m.cols + i % m.cols = i := by
  obtain ⟨w1, w2, w3, w4, w5, w6⟩ := hw
  obtain ⟨i1, i2, i3, i4, i5, i6⟩ := hi
  simp only [Matrix.capacity, Matrix.rows, Matrix.cols, Matrix.size, Matrix.numRows,
    isInt64] at *
  have hcne : m.m_cols ≠ 0 := by omega
  have hdm : m.m_cols * (i / m.m_cols) + i % m.m_cols = i := Int.ediv_add_emod i m.m_cols
  have hmod0 : 0 ≤ i % m.m_cols := Int.emod_nonneg i hcne
  have hmod1 : i % m.m_cols < m.m_cols := Int.emod_lt_of_pos i hc
  have hdiv0 : 0 ≤ i / m.m_cols := Int.ediv_nonneg hi0 (le_of_lt hc)
  have hdiv1 : i / m.m_cols < m.m_rows := by
    apply Int.ediv_lt_of_lt_mul hc
    rw [← i1]; exact hi1
  have hlin : i / m.m_cols * m.m_cols + i % m.m_cols = i := by
    rw [mul_comm]; exact hdm
  have t1 : tripCount 0 m.m_capacity = some m.m_capacity.toNat := by
    have : 0 ≤ m.m_capacity := by omega
    simp [tripCount, this]
  have hscan : stdFind x m.arr m.m_capacity.toNat 0 = some i := by
    apply stdFind_first x m.arr m.m_capacity.toNat 0 i hi0 (by omega) hix
    intro j hj0 hj1
    obtain ⟨y, hy⟩ := load_isSome (a := m.arr) hj0 (by omega)
    refine ⟨y, hy, ?_⟩
    intro hyx
    subst hyx
    exact hmin j hj0 hj1 hy
  refine ⟨?_, hdiv0, hdiv1, hmod0, hmod1, hlin⟩
  simp only [find, Matrix.capacity, t1, hscan, hcne, if_false]
  rw [Int.tdiv_eq_ediv hi0 (le_of_lt hc), Int.tmod_eq_emod hi0 (le_of_lt hc),
    wrap32_eq (by omega) (by omega), wrap32_eq (by omega) (by omega)]

theorem append_full (m : Matrix T) (d : List T) (h : m.size ≥ m.capacity) :
    m.append d = (.error .length_error, m) := by
  have h1 : m.m_size ≥ m.m_capacity := h
  simp [append, checkAtCapacity, h1]

/-- Objects with the same counters whose arrays agree below `size` compare equal. -/
theorem eq_of_agree [DecidableEq T] (a b : Matrix T) (h1 : a.m_rows = b.m_rows)
    (h2 : a.m_cols = b.m_cols) (h3 : a.m_capacity = b.m_capacity)
    (h4 : a.m_numRows = b.m_numRows) (h5 : a.m_size = b.m_size)
    (h : ∀ i : Int, 0 ≤ i → i < a.m_size →
      ∃ x, load a.arr i = some x ∧ load b.arr i = some x) :
    a.eq b = .ok true := by
  have key := (eqLoop_true a.arr b.arr a.m_size.toNat 0).2
    (fun k hk0 hk1 => h k hk0 (by omega))
  simp only [Matrix.eq, h1, h2, h3, h4, h5, ne_eq, not_true_eq_false, if_false, Matrix.size]
  rw [← h5, key]

/-- Two objects in step: same counters, both well formed, arrays agreeing below `size`. -/
theorem appendTrace_agree (ds : List (List T)) : ∀ (a b : Matrix T),
    a.WellFormed → a.Bookkeeping → b.WellFormed → b.Bookkeeping →
    a.m_rows = b.m_rows → a.m_cols = b.m_cols → a.m_capacity = b.m_capacity →
    a.m_numRows = b.m_numRows → a.m_size = b.m_size →
    (∀ i : Int, 0 ≤ i → i < a.m_size → load a.arr i = load b.arr i) →
    (∀ d ∈ ds, (d.length : Int) = a.cols) →
    (a.appendTrace ds).1 = (b.appendTrace ds).1 ∧
    ((a.appendTrace ds).2.WellFormed ∧ (a.appendTrace ds).2.Bookkeeping) ∧
    (a.appendTrace ds).2.m_rows = (b.appendTrace ds).2.m_rows ∧
    (a.appendTrace ds).2.m_cols = (b.appendTrace ds).2.m_cols ∧
    (a.appendTrace ds).2.m_capacity = (b.appendTrace ds).2.m_capacity ∧
    (a.appendTrace ds).2.m_numRows = (b.appendTrace ds).2.m_numRows ∧
    (a.appendTrace ds).2.m_size = (b.appendTrace ds).2.m_size ∧
    (∀ i : Int, 0 ≤ i → i < (a.appendTrace ds).2.m_size →
      load (a.appendTrace ds).2.arr i = load (b.appendTrace ds).2.arr i) := by
  induction ds with
  | nil =>
    intro a b hwa hia _ _ h1 h2 h3 h4 h5 hag _
    exact ⟨rfl, ⟨hwa, hia⟩, h1, h2, h3, h4, h5, hag⟩
  | cons d ds ih =>
    intro a b hwa hia hwb hib h1 h2 h3 h4 h5 hag hd
    have hda : (d.length : Int) = a.cols := hd d (by simp)
    have hdb : (d.length : Int) = b.cols := by rw [hda]; exact h2
    have hga := good_append hwa hia d hda
    have hgb := good_append hwb hib d hdb
    by_cases hs : a.size < a.capacity
    · have hsb : b.size < b.capacity := by
        simp only [Matrix.size, Matrix.capacity] at hs ⊢
        omega
      obtain ⟨x, hx, hea⟩ := append_result hwa hia hs d hda
      obtain ⟨y, hy, heb⟩ := append_result hwb hib hsb d hdb
      obtain ⟨hlx, hloadx⟩ := stdCopy_spec _ _ _ _ hx
      obtain ⟨hly, hloady⟩ := stdCopy_spec _ _ _ _ hy
      have harrx : (a.setArr x).arr = x := arr_setArr a x hlx
      have harry : (b.setArr y).arr = y := arr_setArr b y hly
      rw [hea] at hga
      rw [heb] at hgb
      have hA : Matrix.arr ({ a.setArr x with
          m_numRows := a.m_numRows + 1, m_size := a.m_size + a.m_cols } : Matrix T) = x := harrx
      have hB : Matrix.arr ({ b.setArr y with
          m_numRows := b.m_numRows + 1, m_size := b.m_size + b.m_cols } : Matrix T) = y := harry
      have hrec := ih
        { a.setArr x with m_numRows := a.m_numRows + 1, m_size := a.m_size + a.m_cols }
        { b.setArr y with m_numRows := b.m_numRows + 1, m_size := b.m_size + b.m_cols }
        hga.1 hga.2 hgb.1 hgb.2 (by exact h1) (by exact h2) (by exact h3)
        (by show a.m_numRows + 1 = b.m_numRows + 1; rw [h4])
        (by show a.m_size + a.m_cols = b.m_size + b.m_cols; rw [h5, h2])
        (by
          intro i hi0 hi1
          have hi1' : i < a.m_size + a.m_cols := hi1
          have hda' : (d.length : Int) = a.m_cols := hda
          have hxy : load x i = load y i := by
            rw [hloadx, hloady, h5]
            by_cases hc : b.m_size ≤ i ∧ i < b.m_size + (d.length : Int)
            · rw [if_pos hc, if_pos hc]
            · rw [if_neg hc, if_neg hc]
              exact hag i hi0 (by omega)
          exact (congrArg (fun l => load l i) hA).trans (hxy.trans
            (congrArg (fun l => load l i) hB).symm))
        (fun z hz => by rw [hd z (by simp [hz])]; rfl)
      simp only [appendTrace, hea, heb]
      refine ⟨?_, hrec.2⟩
      rw [hrec.1]
      have e1 : a.m_numRows + 1 = b.m_numRows + 1 := by rw [h4]
      have e2 : a.m_size + a.m_cols = b.m_size + b.m_cols := by rw [h5, h2]
      simp only [Matrix.numRows, Matrix.size, e1, e2]
    · have hsa : a.size ≥ a.capacity := by
        simp only [Matrix.size, Matrix.capacity] at hs ⊢
        omega
      have hsb : b.size ≥ b.capacity := by
        simp only [Matrix.size, Matrix.capacity] at hsa ⊢
        omega
      have hea := append_full a d hsa
      have heb := append_full b d hsb
      have hrec := ih a b hwa hia hwb hib h1 h2 h3 h4 h5 hag
        (fun z hz => hd z (by simp [hz]))
      simp only [appendTrace, hea, heb]
      refine ⟨?_, hrec.2⟩
      rw [hrec.1]
      simp only [Matrix.numRows, Matrix.size, h4, h5]

theorem stdCopy_full (a b : List T) (h : b.length = a.length) : stdCopy a 0 b = some a := by
  obtain ⟨a1, h1⟩ := stdCopy_ok a 0 b (le_refl 0) (by omega)
  rw [h1]
  obtain ⟨hl, hj⟩ := stdCopy_spec _ _ _ _ h1
  congr 1
  apply list_eq_of_load
  intro j
  rw [hj j]
  by_cases hc : 0 ≤ j ∧ j < 0 + (a.length : Int)
  · rw [if_pos hc]
    have : ¬ j < 0 := by omega
    simp only [load, this, if_false, sub_zero]
  · rw [if_neg hc]
    simp only [load]
    by_cases hj0 : j < 0
    · simp [hj0]
    · have h2 : a.length ≤ j.toNat := by omega
      simp only [hj0, if_false]
      rw [List.getElem?_eq_none h2, List.getElem?_eq_none (by omega)]

/-- The value built by the copy constructor from a well-formed object. -/
theorem copy_construct_value (m : Matrix T) (hw : m.WellFormed) (fresh : Nat → T) :
    m.copy_construct fresh = .ok { m with p_data := some m.arr } := by
  have w6 := hw.2.2.2.2.2
  have hcap : ¬ m.m_capacity < 0 := by omega
  have t1 : tripCount 0 m.m_capacity = some m.arr.length := by
    have h0 : 0 ≤ m.m_capacity := by omega
    have : m.m_capacity.toNat = m.arr.length := by omega
    simp [tripCount, h0, this]
  have hcopy : stdCopy m.arr 0 ((List.range m.m_capacity.toNat).map fresh) = some m.arr :=
    stdCopy_full _ _ (by simp; omega)
  simp only [copy_construct, hcap, if_false, Matrix.capacity, t1, readRange_full, arr,
    Option.getD_some, setArr, Option.map_some']
  simp only [arr] at hcopy
  rw [hcopy]

/-- The value left by copy assignment from a well-formed object. -/
theorem copy_assign_value (x m : Matrix T) (hw : m.WellFormed) (fresh : Nat → T) :
    x.copy_assign m fresh = (.ok (), { m with p_data := some m.arr }) := by
  have w6 := hw.2.2.2.2.2
  have hcap : ¬ m.m_capacity < 0 := by omega
  have t1 : tripCount 0 m.m_capacity = some m.arr.length := by
    have h0 : 0 ≤ m.m_capacity := by omega
    have : m.m_capacity.toNat = m.arr.length := by omega
    simp [tripCount, h0, this]
  have hcopy : stdCopy m.arr 0 ((List.range m.m_capacity.toNat).map fresh) = some m.arr :=
    stdCopy_full _ _ (by simp; omega)
  simp only [copy_assign, hcap, if_false, Matrix.capacity, t1, readRange_full, arr,
    Option.getD_some, setArr, Option.map_some']
  simp only [arr] at hcopy
  rw [hcopy]

/-- An object sees the same value through free stores that agree at its address. -/
theorem view_congr (m : Object) (h h1 : Heap T)
    (hag : ∀ b, m.p_data = some b → h1 b = h b) : m.view h1 = m.view h := by
  unfold Object.view
  cases hp : m.p_data with
  | none => rfl
  | some b => simp only [Option.some_bind, hag b hp]

theorem writeAt_other (h : Heap T) (p : Option Nat) (x : Option (List T)) (b : Nat)
    (hne : p ≠ some b) : Object.writeAt h p x b = h b := by
  unfold Object.writeAt
  cases p with
  | none => rfl
  | some a =>
    have : b ≠ a := fun e => hne (by rw [e])
    simp only [this, if_false]

theorem writeAt_same (h : Heap T) (a : Nat) (x : Option (List T)) :
    Object.writeAt h (some a) x a = x := by
  simp [Object.writeAt]

/-- A sequence of calls on an object keeps its address and leaves every other address of the
free store as it was. -/
theorem mutateAll_frame (us : List (Mutation T)) : ∀ (o : Object) (h : Heap T),
    (o.mutateAll h us).1.p_data = o.p_data ∧
    ∀ b, o.p_data ≠ some b → (o.mutateAll h us).2 b = h b := by
  induction us with
  | nil => intro o h; exact ⟨rfl, fun _ _ => rfl⟩
  | cons u us ih =>
    intro o h
    obtain ⟨h1, h2⟩ := ih (o.mutate h u).2.1 (o.mutate h u).2.2
    have hp : (o.mutate h u).2.1.p_data = o.p_data := rfl
    refine ⟨by simp only [Object.mutateAll]; rw [h1, hp], fun b hb => ?_⟩
    simp only [Object.mutateAll]
    rw [h2 b (by rw [hp]; exact hb)]
    exact writeAt_other h o.p_data _ b hb

theorem arrAt_view (m : Object) (h : Heap T) : Object.arrAt h m.p_data = (m.view h).arr := rfl

/-- What a copy holding the address `a`, not the address held by `m`, looks like once the
elements of `m` lie at `a`: the copy has the counters of `m` and an array of its own with the
elements of `m`, `m` is seen as before, and calls on the copy leave `m` as it is. -/
theorem copy_at_fresh (m : Object) (h h0 : Heap T) (a : Nat)
    (hne : m.p_data ≠ some a)
    (h0m : ∀ b, m.p_data = some b → h0 b = h b) :
    ({ m with p_data := some a } : Object).view
        (Object.writeAt h0 (some a) (some (m.view h).arr))
      = { m.view h with p_data := some (m.view h).arr } ∧
    m.view (Object.writeAt h0 (some a) (some (m.view h).arr)) = m.view h ∧
    ∀ us : List (Mutation T),
      m.view (({ m with p_data := some a } : Object).mutateAll
        (Object.writeAt h0 (some a) (some (m.view h).arr)) us).2
        = m.view h := by
  have hkeep : m.view (Object.writeAt h0 (some a) (some (m.view h).arr)) = m.view h := by
    apply view_congr
    intro b hb
    rw [writeAt_other h0 (some a) _ b (by intro e; exact hne (by rw [hb, Option.some.inj e])),
      h0m b hb]
  refine ⟨?_, hkeep, fun us => ?_⟩
  · simp only [Object.view, Option.some_bind, writeAt_same]
  · obtain ⟨_, hframe⟩ := mutateAll_frame us
      ({ m with p_data := some a } : Object)
      (Object.writeAt h0 (some a) (some (m.view h).arr))
    refine Eq.trans ?_ hkeep
    apply view_congr
    intro b hb
    exact hframe b (by
      show some a ≠ some b
      intro e
      exact hne (by rw [hb, Option.some.inj e]))

/-- The copy relation for a copy holding an address of its own. -/
theorem copyOf_at_fresh [DecidableEq T] (m : Object) (h h0 : Heap T) (a : Nat)
    (hw : (m.view h).WellFormed) (hi : (m.view h).Bookkeeping)
    (hne : m.p_data ≠ some a)
    (h0m : ∀ b, m.p_data = some b → h0 b = h b) :
    Object.CopyOf m h ({ m with p_data := some a } : Object)
      (Object.writeAt h0 (some a) (some (m.view h).arr)) := by
  obtain ⟨hv, hkeep, hmut⟩ := copy_at_fresh m h h0 a hne h0m
  have hlen := hw.2.2.2.2.2
  have hsz := hi.2.2.2.2.2
  simp only [Matrix.size, Matrix.capacity] at hsz
  have hread : ∀ i : Int, 0 ≤ i → i < (m.view h).m_size →
      ∃ x, load (m.view h).arr i = some x := fun i h0 h1 =>
    load_isSome h0 (by omega)
  unfold Object.CopyOf
  rw [hv, hkeep]
  refine ⟨rfl, rfl, rfl, rfl, rfl, ?_, ?_, rfl, hmut⟩
  · intro i h0 h1
    obtain ⟨x, hx⟩ := hread i h0 h1
    exact ⟨x, hx, hx⟩
  · refine eq_of_agree _ (m.view h) (by rfl) (by rfl) (by rfl) (by rfl) (by rfl) ?_
    intro i h0 h1
    obtain ⟨x, hx⟩ := hread i h0 h1
    exact ⟨x, hx, hx⟩

/-- A row argument of `2^31` reaches `set` as the `int32_t` value `-2^31`, which the checked
build rejects. -/
theorem set_narrowed_checked (m : Matrix T) (d : List T) :
    m.set true (2 ^ 31) d = (.error .out_of_range, m) := by
  have h32 : wrap32 (2 ^ 31) = -2 ^ 31 := by decide
  have hc : (-2 ^ 31 : Int) ≥ m.m_rows ∨ (-2 ^ 31 : Int) < 0 := Or.inr (by decide)
  simp only [Matrix.set, h32, rowBegin, at_row, hc, and_self, if_true]

/-- A row argument of `2^31` reaches `set` as the `int32_t` value `-2^31`; with one column
the unchecked build writes at offset `-2^31`, before the array. -/
theorem set_narrowed_unchecked (m : Matrix T) (x : T) (hc : m.m_cols = 1) :
    m.set false (2 ^ 31) [x] = (.error .undefined, m) := by
  have h32 : wrap32 (2 ^ 31) = -2 ^ 31 := by decide
  have hneg : wrap64 (-2 ^ 31 * 1) = -2 ^ 31 := by decide
  have hst : store m.arr (-2 ^ 31) x = none := by
    have : ¬ ((0 : Int) ≤ -2 ^ 31 ∧ (-2 ^ 31 : Int) < m.arr.length) := by omega
    simp only [store, this, if_false]
  have hd : ¬ (false = true ∧ ((-2 ^ 31 : Int) ≥ m.m_rows ∨ (-2 ^ 31 : Int) < 0)) := by
    intro h; cases h.1
  simp only [Matrix.set, h32, rowBegin, at_row, hd, if_false, hc, hneg, stdCopy, hst]

/-- The object built by the sized constructor with `autoResize`, without its layout: it is
well formed, satisfies the invariant, has the requested dimensions and holds `fillVal` at
every index of the array. -/
theorem construct_filled (rows cols : Int) (hr : isInt64 rows) (hc : isInt64 cols)
    (h0r : 0 ≤ rows) (h0c : 0 ≤ cols) (hp : isInt64 (rows * cols)) (fillVal : T)
    (fresh : Nat → T) :
    ∃ m, construct rows cols true fillVal fresh = .ok m ∧ m.WellFormed ∧ m.Bookkeeping ∧
      m.m_rows = rows ∧ m.m_cols = cols ∧
      ∀ i : Int, 0 ≤ i → i < rows * cols → load m.arr i = some fillVal := by
  have hcon := construct_result rows cols h0r h0c hp.2 true fillVal fresh
  have hg := good_construct hr hc h0r h0c hp hcon
  refine ⟨_, hcon, hg.1, hg.2, rfl, rfl, fun i h0 h1 => ?_⟩
  exact load_replicate _ _ _ h0 (by omega)

/-- The value of `extractRow(r)` on an object with one column. -/
theorem extractRow_single (DEBUG : Bool) (m : Matrix T) (r : Int) (x : T) (hr0 : 0 ≤ r)
    (hr : r < m.m_rows) (hc : m.m_cols = 1) (hwr : wrap64 (r * 1) = r * 1)
    (hl : load m.arr r = some x) : m.extractRow DEBUG r = .ok [x] := by
  apply extractRow_of_range DEBUG m r hr0 hr (by omega) (by rw [hc]; exact hwr)
  rw [hc]
  have e : r * 1 = r := by ring
  have t : (1 : Int).toNat = 1 := rfl
  rw [e, t]
  simp only [readRange, hl]

/-- The outcome of the sized constructor for non-negative dimensions, in terms of the outcome
of `new T[m_capacity]`. -/
theorem construct_with_nonneg (new_array : Int → Option Error)
    (hneg : ∀ n, n < 0 → new_array n ≠ none) (rows cols : Int) (h0r : 0 ≤ rows)
    (h0c : 0 ≤ cols) (autoResize : Bool) (fillVal : T) (fresh : Nat → T) :
    construct_with new_array rows cols autoResize fillVal fresh =
      match new_array (wrap64 (rows * cols)) with
      | some e => .error e
      | none => .ok
        { m_rows := rows, m_cols := cols, m_capacity := wrap64 (rows * cols),
          m_numRows := if autoResize then rows else 0,
          m_size := if autoResize then wrap64 (rows * cols) else 0,
          p_data := some (if autoResize then List.replicate (wrap64 (rows * cols)).toNat fillVal
                          else (List.range (wrap64 (rows * cols)).toNat).map fresh) } := by
  have v1 : ¬ rows < 0 := by omega
  have v2 : ¬ cols < 0 := by omega
  cases hn : new_array (wrap64 (rows * cols)) with
  | some e =>
    simp [construct_with, validateDimensions, validateRows, validateCols, allocate_with, v1, v2,
      hn]
  | none =>
    have hnn : 0 ≤ wrap64 (rows * cols) := by
      by_contra hlt
      exact hneg _ (not_le.mp hlt) hn
    cases autoResize with
    | false =>
      simp [construct_with, validateDimensions, validateRows, validateCols, allocate_with, v1,
        v2, hn]
    | true =>
      have r1 : ¬ (rows < 0 ∨ rows > rows) := by omega
      have t1 : tripCount 0 (wrap64 (rows * cols)) = some (wrap64 (rows * cols)).toNat := by
        simp [tripCount, hnn]
      simp [construct_with, validateDimensions, validateRows, validateCols, allocate_with, v1,
        v2, hn, resize, r1, fill, capacity, t1, arr, stdFill_fresh, setArr]

/-- The constructor in a store that serves every non-negative length. -/
theorem construct_with_served (rows cols : Int) (autoResize : Bool) (fillVal : T)
    (fresh : Nat → T) :
    construct_with servedNew rows cols autoResize fillVal fresh
      = construct rows cols autoResize fillVal fresh := by
  unfold construct_with construct
  simp only
  cases validateDimensions
      ({ m_rows := rows, m_cols := cols, m_capacity := wrap64 (rows * cols),
         m_numRows := 0, m_size := 0, p_data := none } : Matrix T) with
  | error e => rfl
  | ok u =>
    simp only [allocate_with, allocate, servedNew]
    by_cases hc : wrap64 (rows * cols) < 0
    · simp [hc]
    · simp [hc]

theorem sampleNew_kinds (n : Int) (e : Error) (h : sampleNew n = some e) :
    e = .bad_array_new_length ∨ e = .bad_alloc := by
  unfold sampleNew at h
  split at h
  · exact Or.inl (Option.some.inj h).symm
  · split at h
    · cases h
    · exact Or.inr (Option.some.inj h).symm

theorem sampleNew_negative (n : Int) (h : n < 0) : sampleNew n ≠ none := by
  simp [sampleNew, h]

/-- The copy constructor on objects in the free store gives, seen through the copy's pointer,
the value the copy constructor gives on values. -/
theorem copy_construct_view (other : Object) (h : Heap T) (a : Nat) (fresh : Nat → T)
    (hne : other.p_data ≠ some a) :
    (match other.copy_construct h a fresh with
      | .error e => .error e
      | .ok (c, h1) => .ok (c.view h1)) = (other.view h).copy_construct fresh := by
  have hsrc : Object.arrAt (Object.writeAt h (some a)
      (some ((List.range other.m_capacity.toNat).map fresh))) other.p_data
        = (other.view h).arr := by
    rw [arrAt_view]
    exact congrArg Matrix.arr (view_congr other h _ (fun b hb =>
      writeAt_other h (some a) _ b (by intro e; exact hne (by rw [hb, Option.some.inj e]))))
  have hdst : ∀ (h0 : Heap T) (x : List T),
      Object.arrAt (Object.writeAt h0 (some a) (some x)) (some a) = x := by
    intro h0 x
    simp [Object.arrAt, writeAt_same]
  have hc : (other.view h).m_capacity = other.m_capacity := rfl
  unfold Object.copy_construct Matrix.copy_construct
  simp only [hc, Matrix.capacity, hsrc, hdst]
  by_cases hcap : other.m_capacity < 0
  · simp only [hcap, if_true]
  · simp only [hcap, if_false]
    cases tripCount 0 other.m_capacity with
    | none => rfl
    | some n =>
      simp only []
      cases readRange (other.view h).arr n 0 with
      | none => rfl
      | some src =>
        simp only [Matrix.arr, Option.getD_some]
        cases stdCopy src 0 ((List.range other.m_capacity.toNat).map fresh) with
        | none => rfl
        | some x =>
          simp only [Object.view, Option.some_bind, writeAt_same, setArr, Option.map_some']

/-- Copy assignment on objects in the free store gives, seen through the pointer of the
assigned object, the outcome and the value copy assignment gives on values. -/
theorem copy_assign_view (o rhs : Object) (h : Heap T) (a : Nat) (fresh : Nat → T)
    (hdist : ∀ b, o.p_data = some b → rhs.p_data ≠ some b)
    (hne : rhs.p_data ≠ some a) :
    (o.copy_assign rhs h a fresh).1 = ((o.view h).copy_assign (rhs.view h) fresh).1 ∧
    ((o.copy_assign rhs h a fresh).1 = .ok () →
      (o.copy_assign rhs h a fresh).2.1.view (o.copy_assign rhs h a fresh).2.2
        = ((o.view h).copy_assign (rhs.view h) fresh).2) := by
  have h1m : ∀ b, rhs.p_data = some b → Object.writeAt h o.p_data none b = h b := by
    intro b hb
    exact writeAt_other h o.p_data none b (fun e => hdist b e hb)
  have hsrc : Object.arrAt (Object.writeAt (Object.writeAt h o.p_data none) (some a)
      (some ((List.range rhs.m_capacity.toNat).map fresh))) rhs.p_data
        = (rhs.view h).arr := by
    rw [arrAt_view]
    exact congrArg Matrix.arr (view_congr rhs h _ (fun b hb => by
      rw [writeAt_other _ (some a) _ b (by intro e; exact hne (by rw [hb, Option.some.inj e]))]
      exact h1m b hb))
  have hdst : ∀ (h0 : Heap T) (x : List T),
      Object.arrAt (Object.writeAt h0 (some a) (some x)) (some a) = x := by
    intro h0 x
    simp [Object.arrAt, writeAt_same]
  have hc : (rhs.view h).m_capacity = rhs.m_capacity := rfl
  unfold Object.copy_assign Matrix.copy_assign
  simp only [hc, Matrix.capacity, hsrc, hdst]
  by_cases hcap : rhs.m_capacity < 0
  · simp only [hcap, if_true]
    exact ⟨trivial, fun hx => by cases hx⟩
  · simp only [hcap, if_false]
    cases tripCount 0 rhs.m_capacity with
    | none => exact ⟨rfl, fun hx => by cases hx⟩
    | some n =>
      simp only []
      cases readRange (rhs.view h).arr n 0 with
      | none => exact ⟨rfl, fun hx => by cases hx⟩
      | some src =>
        simp only [Matrix.arr, Option.getD_some]
        cases stdCopy src 0 ((List.range rhs.m_capacity.toNat).map fresh) with
        | none => exact ⟨rfl, fun hx => by cases hx⟩
        | some x =>
          refine ⟨rfl, fun _ => ?_⟩
          simp only [Object.view, Option.some_bind, writeAt_same, setArr, Option.map_some']

end OperationLemmas

end Matrix

/-! ## Properties of the specification -/

namespace Matrix

section Claims

variable {T : Type}

/-- C1. Every object obtained from default construction or from a successful sized
construction with `rows >= 0`, `cols >= 0` and `rows * cols` within `int64_t`, followed by any
finite sequence of `append` (with `cols` elements), `set`, `resize`, `fill`, `clear`, copy and
move calls, each succeeding or failing, satisfies `capacity == rows * cols`,
`size == numRows * cols`, `0 <= numRows <= rows` and `0 <= size <= capacity`. -/
theorem bookkeeping_invariant (m : Matrix T) (h : Reachable m) :
    m.capacity = m.rows * m.cols ∧ m.size = m.numRows * m.cols ∧
    0 ≤ m.numRows ∧ m.numRows ≤ m.rows ∧ 0 ≤ m.size ∧ m.size ≤ m.capacity :=
  (good_of_reachable h).2

theorem bookkeeping_invariant_witness :
    Reachable (((sample32.append [1, 2]).2.resize 7).2.set true 1 [5, 5]).2 ∧
    ((((sample32.append [1, 2]).2.resize 7).2.set true 1 [5, 5]).2.size = 2 ∧
     (((sample32.append [1, 2]).2.resize 7).2.set true 1 [5, 5]).2.capacity = 6) ∧
    ((((sample32.append [1, 2]).2.resize 7).2.set true 1 [5, 5]).2.capacity =
        (((sample32.append [1, 2]).2.resize 7).2.set true 1 [5, 5]).2.rows *
        (((sample32.append [1, 2]).2.resize 7).2.set true 1 [5, 5]).2.cols ∧
     (((sample32.append [1, 2]).2.resize 7).2.set true 1 [5, 5]).2.size =
        (((sample32.append [1, 2]).2.resize 7).2.set true 1 [5, 5]).2.numRows *
        (((sample32.append [1, 2]).2.resize 7).2.set true 1 [5, 5]).2.cols ∧
     0 ≤ (((sample32.append [1, 2]).2.resize 7).2.set true 1 [5, 5]).2.numRows ∧
     (((sample32.append [1, 2]).2.resize 7).2.set true 1 [5, 5]).2.numRows ≤
        (((sample32.append [1, 2]).2.resize 7).2.set true 1 [5, 5]).2.rows ∧
     0 ≤ (((sample32.append [1, 2]).2.resize 7).2.set true 1 [5, 5]).2.size ∧
     (((sample32.append [1, 2]).2.resize 7).2.set true 1 [5, 5]).2.size ≤
        (((sample32.append [1, 2]).2.resize 7).2.set true 1 [5, 5]).2.capacity) :=
  have hr : Reachable (((sample32.append [1, 2]).2.resize 7).2.set true 1 [5, 5]).2 :=
    Reachable.set true _ 1 [5, 5]
      (Reachable.resize _ 7
        (Reachable.append sample32 [1, 2]
          (Reachable.construct 3 2 false 0 (fun _ => 0) sample32 (by decide) (by decide)
            (by decide) (by decide) (by decide) rfl)
          (by decide)))
  ⟨hr, by decide, bookkeeping_invariant _ hr⟩

/-- C2, as amended. For every `rows >= 0` and `cols >= 0` whose product `rows * cols` is
within `int64_t`, `Matrix(rows, cols, autoPopulate, fillValue)` is constructed with
`capacity() == rows * cols`; with `autoPopulate` false it has `numRows() == 0` and
`size() == 0`; with `autoPopulate` true it has `numRows() == rows`, `size() == capacity()` and
every `at(r, c)` with `0 <= r < rows`, `0 <= c < cols` equals `fillValue`. -/
theorem construct_state (rows cols : Int) (h0r : 0 ≤ rows) (h0c : 0 ≤ cols)
    (hp : rows * cols < 2 ^ 63) (fillVal : T) (fresh : Nat → T) :
    (∃ m, construct rows cols false fillVal fresh = .ok m ∧
      m.capacity = rows * cols ∧ m.numRows = 0 ∧ m.size = 0) ∧
    (∃ m, construct rows cols true fillVal fresh = .ok m ∧
      m.capacity = rows * cols ∧ m.numRows = rows ∧ m.size = m.capacity ∧
      ∀ (DEBUG : Bool) (r c : Int), 0 ≤ r → r < rows → 0 ≤ c → c < cols →
        m.at DEBUG r c = .ok fillVal) := by
  have hnn : 0 ≤ rows * cols := mul_nonneg h0r h0c
  refine ⟨⟨_, construct_result rows cols h0r h0c hp false fillVal fresh, rfl, rfl, rfl⟩,
    ⟨_, construct_result rows cols h0r h0c hp true fillVal fresh, rfl, rfl, rfl, ?_⟩⟩
  intro DEBUG r c hr0 hr hc0 hc
  obtain ⟨b1, b2⟩ := cell_bounds hr0 hr hc0 hc
  have hw : wrap64 (r * cols) = r * cols := wrap64_eq (by omega) (by omega)
  have d1 : ¬ (DEBUG = true ∧ (c ≥ cols ∨ c < 0)) := by
    intro h; omega
  have d2 : ¬ (DEBUG = true ∧ (r ≥ rows ∨ r < 0)) := by
    intro h; omega
  have hl : load (List.replicate (rows * cols).toNat fillVal) (r * cols + c) = some fillVal :=
    load_replicate _ _ _ (by omega) (by omega)
  simp only [«at», at_row, d1, d2, if_false, hw, arr, if_true, Option.getD_some, hl]

theorem construct_state_witness :
    (∃ m, construct 3 2 false (7 : Int) (fun _ => 0) = .ok m ∧
      m.capacity = 3 * 2 ∧ m.numRows = 0 ∧ m.size = 0) ∧
    (∃ m, construct 3 2 true (7 : Int) (fun _ => 0) = .ok m ∧
      m.capacity = 3 * 2 ∧ m.numRows = 3 ∧ m.size = m.capacity ∧
      ∀ (DEBUG : Bool) (r c : Int), 0 ≤ r → r < 3 → 0 ≤ c → c < 2 →
        m.at DEBUG r c = .ok 7) :=
  construct_state 3 2 (by decide) (by decide) (by decide) 7 (fun _ => 0)

/-- C2 fails as stated: `Matrix(2^32, 2^32, true, 7)` has non-negative dimensions, its
`int64_t` product is 0, the object is constructed with `capacity() == 0`, which is not
`2^32 * 2^32`, and the slot `at(0, 0)` is outside the empty array. -/
theorem construct_state_overflow :
    (0 : Int) ≤ 2 ^ 32 ∧ isInt64 (2 ^ 32) ∧
    ∃ m, construct (2 ^ 32) (2 ^ 32) true (7 : Int) (fun _ => 0) = .ok m ∧
      m.capacity = 0 ∧ m.capacity ≠ 2 ^ 32 * 2 ^ 32 ∧
      m.at false 0 0 = .error .undefined ∧ m.at true 0 0 = .error .undefined :=
  ⟨by decide, by decide, _, rfl, by decide, by decide, by decide, by decide⟩

/-- C3, as amended. Whatever `new T[m_capacity]` does in the environment, the sized
constructor fails with the length error if and only if `rows < 0` or `cols < 0`, for either
value of `autoPopulate`.  For `rows >= 0` and `cols >= 0` it succeeds if and only if the
allocation of `m_capacity` elements, the `int64_t` product `rows * cols`, is served; otherwise
it ends with the exception of that allocation, `std::bad_array_new_length` or
`std::bad_alloc`, which is so whenever the product has wrapped to a negative value. -/
theorem construct_outcome (new_array : Int → Option Error)
    (hkinds : ∀ n e, new_array n = some e → e = .bad_array_new_length ∨ e = .bad_alloc)
    (hneg : ∀ n, n < 0 → new_array n ≠ none) (rows cols : Int) (autoResize : Bool)
    (fillVal : T) (fresh : Nat → T) :
    (construct_with new_array rows cols autoResize fillVal fresh = .error .length_error ↔
      (rows < 0 ∨ cols < 0)) ∧
    (0 ≤ rows → 0 ≤ cols →
      ((∃ m, construct_with new_array rows cols autoResize fillVal fresh = .ok m) ↔
        new_array (wrap64 (rows * cols)) = none)) ∧
    (0 ≤ rows → 0 ≤ cols →
      ∀ e, construct_with new_array rows cols autoResize fillVal fresh = .error e →
        new_array (wrap64 (rows * cols)) = some e ∧
        (e = .bad_array_new_length ∨ e = .bad_alloc)) ∧
    (0 ≤ rows → 0 ≤ cols → wrap64 (rows * cols) < 0 →
      ∃ e, construct_with new_array rows cols autoResize fillVal fresh = .error e ∧
        (e = .bad_array_new_length ∨ e = .bad_alloc)) := by
  have key : 0 ≤ rows → 0 ≤ cols →
      ∀ e, construct_with new_array rows cols autoResize fillVal fresh = .error e →
        new_array (wrap64 (rows * cols)) = some e ∧
        (e = .bad_array_new_length ∨ e = .bad_alloc) := by
    intro h0r h0c e he
    rw [construct_with_nonneg new_array hneg rows cols h0r h0c] at he
    cases hn : new_array (wrap64 (rows * cols)) with
    | none => rw [hn] at he; cases he
    | some e1 =>
      rw [hn] at he
      simp only [Except.error.injEq] at he
      subst he
      exact ⟨rfl, hkinds _ _ hn⟩
  refine ⟨⟨?_, ?_⟩, ?_, key, ?_⟩
  · intro h
    by_contra hn
    have hk := (key (by omega) (by omega) _ h).2
    rcases hk with hk | hk <;> cases hk
  · intro h
    rcases h with h | h
    · simp [construct_with, validateDimensions, validateRows, h]
    · by_cases hr : rows < 0
      · simp [construct_with, validateDimensions, validateRows, hr]
      · simp [construct_with, validateDimensions, validateRows, validateCols, hr, h]
  · intro h0r h0c
    rw [construct_with_nonneg new_array hneg rows cols h0r h0c]
    cases hn : new_array (wrap64 (rows * cols)) with
    | none => simp
    | some e1 => simp
  · intro h0r h0c hlt
    rw [construct_with_nonneg new_array hneg rows cols h0r h0c]
    cases hn : new_array (wrap64 (rows * cols)) with
    | none => exact absurd hn (hneg _ hlt)
    | some e1 => exact ⟨e1, rfl, hkinds _ _ hn⟩

theorem construct_outcome_witness :
    (construct_with sampleNew (-1) 2 true (0 : Int) (fun _ => 0) = .error .length_error) ∧
    (∃ m, construct_with sampleNew 3 2 true (0 : Int) (fun _ => 0) = .ok m) ∧
    (∀ e, construct_with sampleNew (2 ^ 31) (2 ^ 31) false (0 : Int) (fun _ => 0) = .error e →
      sampleNew (wrap64 (2 ^ 31 * 2 ^ 31)) = some e ∧
      (e = .bad_array_new_length ∨ e = .bad_alloc)) ∧
    (∃ e, construct_with sampleNew (2 ^ 32) (2 ^ 31) false (0 : Int) (fun _ => 0) = .error e ∧
      (e = .bad_array_new_length ∨ e = .bad_alloc)) :=
  ⟨(construct_outcome sampleNew sampleNew_kinds sampleNew_negative (-1) 2 true (0 : Int)
      (fun _ => 0)).1.2 (by decide),
   ((construct_outcome sampleNew sampleNew_kinds sampleNew_negative 3 2 true (0 : Int)
      (fun _ => 0)).2.1 (by decide) (by decide)).2 (by decide),
   (construct_outcome sampleNew sampleNew_kinds sampleNew_negative (2 ^ 31) (2 ^ 31) false
      (0 : Int) (fun _ => 0)).2.2.1 (by decide) (by decide),
   (construct_outcome sampleNew sampleNew_kinds sampleNew_negative (2 ^ 32) (2 ^ 31) false
      (0 : Int) (fun _ => 0)).2.2.2 (by decide) (by decide) (by decide)⟩

/-- C3 fails as stated: `rows = 2^32` and `cols = 2^31` are non-negative `int64_t` values, yet
the constructor neither succeeds nor raises the length error; the `int64_t` product is
negative and `new T[m_capacity]` fails, for either value of `autoPopulate` and whatever the
environment.  Nor is a product within `int64_t` enough: in the sample store
`Matrix(2^31, 2^31)` ends with `std::bad_array_new_length`. -/
theorem construct_outcome_overflow :
    isInt64 (2 ^ 32) ∧ isInt64 (2 ^ 31) ∧ (0 : Int) ≤ 2 ^ 32 ∧ (0 : Int) ≤ 2 ^ 31 ∧
    construct (2 ^ 32) (2 ^ 31) false (0 : Int) (fun _ => 0) = .error .bad_array_new_length ∧
    construct (2 ^ 32) (2 ^ 31) true (0 : Int) (fun _ => 0) = .error .bad_array_new_length ∧
    (∀ new_array : Int → Option Error,
      (∀ n e, new_array n = some e → e = .bad_array_new_length ∨ e = .bad_alloc) →
      (∀ n, n < 0 → new_array n ≠ none) → ∀ autoResize : Bool,
      (¬ ∃ m, construct_with new_array (2 ^ 32) (2 ^ 31) autoResize (0 : Int) (fun _ => 0)
          = .ok m) ∧
      construct_with new_array (2 ^ 32) (2 ^ 31) autoResize (0 : Int) (fun _ => 0)
        ≠ .error .length_error) ∧
    construct_with sampleNew (2 ^ 31) (2 ^ 31) false (0 : Int) (fun _ => 0)
      = .error .bad_array_new_length := by
  refine ⟨by decide, by decide, by decide, by decide, by decide, by decide, ?_, by decide⟩
  intro new_array hkinds hneg autoResize
  have hw : wrap64 (2 ^ 32 * 2 ^ 31) < 0 := by decide
  rw [construct_with_nonneg new_array hneg (2 ^ 32) (2 ^ 31) (by decide) (by decide)]
  cases hn : new_array (wrap64 (2 ^ 32 * 2 ^ 31)) with
  | none => exact absurd hn (hneg _ hw)
  | some e1 =>
    refine ⟨fun hex => ?_, fun h => ?_⟩
    · obtain ⟨m, hm⟩ := hex
      cases hm
    simp only [Except.error.injEq] at h
    subst h
    rcases hkinds _ _ hn with hk | hk <;> cases hk

/-- C4. For each of the three `append` overloads: the call fails with the length error of
`checkAtCapacity` if and only if `size >= capacity` beforehand, and a failed call leaves
`rows`, `cols`, `capacity`, `numRows`, `size` and the array exactly as they were. -/
theorem append_capacity_error (m : Matrix T) (d : List T) :
    (((m.append d).1 = .error .length_error ↔ m.size ≥ m.capacity) ∧
     ((m.append_rvalue d).1 = .error .length_error ↔ m.size ≥ m.capacity) ∧
     ((m.append_range d).1 = .error .length_error ↔ m.size ≥ m.capacity)) ∧
    (∀ e, (m.append d).1 = .error e → (m.append d).2 = m) ∧
    (∀ e, (m.append_rvalue d).1 = .error e → (m.append_rvalue d).2 = m) ∧
    (∀ e, (m.append_range d).1 = .error e → (m.append_range d).2 = m) := by
  rw [append_rvalue_eq, append_range_eq]
  exact ⟨⟨append_error_iff m d, append_error_iff m d, append_error_iff m d⟩,
    append_error_state m d, append_error_state m d, append_error_state m d⟩

theorem append_capacity_error_witness :
    ((sample32b.resize 3).2.append [5, 6]).1 = .error .length_error ∧
    ((sample32b.resize 3).2.append [5, 6]).2 = (sample32b.resize 3).2 ∧
    ((sample32b.resize 3).2.append_range [5, 6]).2 = (sample32b.resize 3).2 :=
  ⟨(append_capacity_error (sample32b.resize 3).2 [5, 6]).1.1.2 (by decide),
   (append_capacity_error (sample32b.resize 3).2 [5, 6]).2.1 .length_error (by decide),
   (append_capacity_error (sample32b.resize 3).2 [5, 6]).2.2.2 .length_error (by decide)⟩

/-- C5. For an object satisfying the bookkeeping invariant with `size < capacity` and a row of
exactly `cols` elements, `append` (each overload) succeeds, writes `data[j]` at offset
`old size + j`, leaves every other element unchanged, increases `numRows` by 1 and `size` by
`cols`, keeps `rows`, `cols` and `capacity`; afterwards `extractRow(old numRows)` is the data
and every previously occupied row reads as before. -/
theorem append_effect (m : Matrix T) (hw : m.WellFormed) (hi : m.Bookkeeping)
    (hs : m.size < m.capacity) (d : List T) (hd : (d.length : Int) = m.cols) :
    ∃ m1, m.append d = (.ok (), m1) ∧ m.append_rvalue d = (.ok (), m1) ∧
      m.append_range d = (.ok (), m1) ∧
      (∀ j : Nat, j < d.length → load m1.arr (m.size + j) = d[j]?) ∧
      (∀ i : Int, ¬ (m.size ≤ i ∧ i < m.size + m.cols) → load m1.arr i = load m.arr i) ∧
      m1.numRows = m.numRows + 1 ∧ m1.size = m.size + m.cols ∧
      m1.rows = m.rows ∧ m1.cols = m.cols ∧ m1.capacity = m.capacity ∧
      (∀ DEBUG : Bool, m1.extractRow DEBUG m.numRows = .ok d) ∧
      (∀ (DEBUG : Bool) (r : Int), 0 ≤ r → r < m.numRows →
        ∃ v, m.extractRow DEBUG r = .ok v ∧ m1.extractRow DEBUG r = .ok v) := by
  obtain ⟨a, ha, he⟩ := append_result hw hi hs d hd
  obtain ⟨hl, hload⟩ := stdCopy_spec _ _ _ _ ha
  have harr : (m.setArr a).arr = a := arr_setArr m a hl
  obtain ⟨w1, w2, w3, w4, w5, w6⟩ := hw
  obtain ⟨i1, i2, i3, i4, i5, i6⟩ := hi
  simp only [Matrix.capacity, Matrix.rows, Matrix.cols, Matrix.size, Matrix.numRows,
    isInt64] at *
  have hroom := mul_room i4 (by rw [← i2, ← i1]; exact hs)
  refine ⟨_, he, by rw [append_rvalue_eq]; exact he, by rw [append_range_eq]; exact he,
    ?_, ?_, rfl, rfl, rfl, rfl, rfl, ?_, ?_⟩
  · intro j hj
    rw [arr_update, harr, hload]
    have c : m.m_size ≤ m.m_size + (j : Int) ∧ m.m_size + (j : Int) < m.m_size + d.length := by
      omega
    rw [if_pos c]
    congr 1
    omega
  · intro i hi
    rw [arr_update, harr, hload]
    rw [hd]
    rw [if_neg hi]
  · intro DEBUG
    apply extractRow_of_range DEBUG _ m.m_numRows i3 (by exact hroom.1)
      (by exact le_of_lt hroom.2.1)
    · show wrap64 (m.m_numRows * m.m_cols) = m.m_numRows * m.m_cols
      exact wrap64_eq (by omega) (by omega)
    · show readRange (Matrix.arr _) m.m_cols.toNat (m.m_numRows * m.m_cols) = some d
      rw [arr_update, harr]
      have hn : m.m_cols.toNat = d.length := by omega
      rw [hn, ← i2]
      apply readRange_of_load
      intro k hk
      rw [hload]
      have c : m.m_size ≤ m.m_size + (k : Int) ∧ m.m_size + (k : Int) < m.m_size + d.length := by
        omega
      rw [if_pos c]
      congr 1
      omega
  · intro DEBUG r hr0 hr
    have hrr : r < m.m_rows := by omega
    have hcell : (r + 1) * m.m_cols ≤ m.m_numRows * m.m_cols :=
      mul_le_mul_of_nonneg_right (by omega) (le_of_lt hroom.2.1)
    have e1 : (r + 1) * m.m_cols = r * m.m_cols + m.m_cols := by ring
    have hr1 : 0 ≤ r * m.m_cols := mul_nonneg hr0 (le_of_lt hroom.2.1)
    have hwr : wrap64 (r * m.m_cols) = r * m.m_cols := wrap64_eq (by omega) (by omega)
    obtain ⟨v, hv⟩ := readRange_ok m.arr m.m_cols.toNat (r * m.m_cols) hr1 (by omega)
    obtain ⟨hvl, hvk⟩ := readRange_spec _ _ _ _ hv
    refine ⟨v, extractRow_of_range DEBUG m r hr0 hrr (le_of_lt hroom.2.1) hwr v hv, ?_⟩
    apply extractRow_of_range DEBUG _ r hr0 (by exact hrr) (by exact le_of_lt hroom.2.1)
      (by exact hwr)
    show readRange (Matrix.arr _) m.m_cols.toNat (r * m.m_cols) = some v
    rw [arr_update, harr, ← hvl]
    apply readRange_of_load
    intro k hk
    rw [hload, ← hvk k (by omega)]
    have c : ¬ (m.m_size ≤ r * m.m_cols + (k : Int) ∧
        r * m.m_cols + (k : Int) < m.m_size + d.length) := by
      omega
    rw [if_neg c]

theorem append_effect_witness :
    ∃ m1, sample32b.append [5, 6] = (.ok (), m1) ∧ sample32b.append_rvalue [5, 6] = (.ok (), m1) ∧
      sample32b.append_range [5, 6] = (.ok (), m1) ∧
      (∀ j : Nat, j < [5, 6].length → load m1.arr (sample32b.size + j) = [5, 6][j]?) ∧
      (∀ i : Int, ¬ (sample32b.size ≤ i ∧ i < sample32b.size + sample32b.cols) →
        load m1.arr i = load sample32b.arr i) ∧
      m1.numRows = sample32b.numRows + 1 ∧ m1.size = sample32b.size + sample32b.cols ∧
      m1.rows = sample32b.rows ∧ m1.cols = sample32b.cols ∧
      m1.capacity = sample32b.capacity ∧
      (∀ DEBUG : Bool, m1.extractRow DEBUG sample32b.numRows = .ok [5, 6]) ∧
      (∀ (DEBUG : Bool) (r : Int), 0 ≤ r → r < sample32b.numRows →
        ∃ v, sample32b.extractRow DEBUG r = .ok v ∧ m1.extractRow DEBUG r = .ok v) :=
  append_effect sample32b (by decide) (by decide) (by decide) [5, 6] (by decide)

/-- C6, as amended. For every `rows >= 0` and `cols > 0` with `rows * cols` within `int64_t`
and every `k <= rows`: from `Matrix(rows, cols, false)`, appending a row of `cols` elements
`k` times succeeds each time and gives `numRows() == k` and `size() == k * cols`; when
`k == rows` the next `append` fails with the length error of `checkAtCapacity`. -/
theorem append_k_rows (rows cols : Int) (hr : isInt64 rows) (hc : isInt64 cols)
    (h0r : 0 ≤ rows) (h0c : 0 < cols) (hp : rows * cols < 2 ^ 63) (fillVal : T)
    (fresh : Nat → T) (ds : List (List T)) (hd : ∀ d ∈ ds, (d.length : Int) = cols)
    (hk : (ds.length : Int) ≤ rows) :
    ∃ m0 mk, construct rows cols false fillVal fresh = .ok m0 ∧
      m0.appendAll ds = (.ok (), mk) ∧ mk.numRows = ds.length ∧
      mk.size = ds.length * cols ∧
      ((ds.length : Int) = rows → ∀ d : List T,
        (mk.append d).1 = .error .length_error ∧ (mk.append_rvalue d).1 = .error .length_error ∧
        (mk.append_range d).1 = .error .length_error) := by
  have hnn : 0 ≤ rows * cols := mul_nonneg h0r (le_of_lt h0c)
  have hcon := construct_result rows cols h0r (le_of_lt h0c) hp false fillVal fresh
  have hg := good_construct hr hc h0r (le_of_lt h0c) ⟨by omega, hp⟩ hcon
  obtain ⟨mk, h1, h2, h3, h4, h5, h6⟩ := appendAll_ok ds _ hg.1 hg.2 (by exact h0c)
    (by exact hd) (by show (0 : Int) + (ds.length : Int) ≤ rows; omega)
  have h4 : mk.numRows = ds.length := by
    rw [h4]; show (0 : Int) + (ds.length : Int) = ds.length; omega
  have h5 : mk.rows = rows := h5
  have h6 : mk.cols = cols := h6
  have hsz : mk.size = ds.length * cols := by rw [h3.2.1, h4, h6]
  refine ⟨_, mk, hcon, h1, h4, hsz, ?_⟩
  intro hfull d
  have hge : mk.size ≥ mk.capacity := by
    rw [h3.1, hsz, h5, h6, hfull]
  rw [append_rvalue_eq, append_range_eq]
  exact ⟨(append_error_iff mk d).2 hge, (append_error_iff mk d).2 hge,
    (append_error_iff mk d).2 hge⟩

theorem append_k_rows_witness :
    ∃ m0 mk, construct 2 2 false (0 : Int) (fun _ => 0) = .ok m0 ∧
      m0.appendAll [[1, 2], [3, 4]] = (.ok (), mk) ∧
      mk.numRows = ([[1, 2], [3, 4]] : List (List Int)).length ∧
      mk.size = ([[1, 2], [3, 4]] : List (List Int)).length * 2 ∧
      ((([[1, 2], [3, 4]] : List (List Int)).length : Int) = 2 → ∀ d : List Int,
        (mk.append d).1 = .error .length_error ∧ (mk.append_rvalue d).1 = .error .length_error ∧
        (mk.append_range d).1 = .error .length_error) :=
  append_k_rows 2 2 (by decide) (by decide) (by decide) (by decide) (by decide) 0 (fun _ => 0)
    [[1, 2], [3, 4]] (by decide) (by decide)

/-- C6 fails as stated. With `rows = 1`, `cols = 0` and `k = 1 <= rows`, the first `append`
of a row of `cols = 0` elements into `Matrix(1, 0, false)` already fails with the length error,
since `size >= capacity` (`0 >= 0`). With `rows = cols = 2^32` the `int64_t` product is 0 and
every `append` into `Matrix(2^32, 2^32, false)` fails likewise. -/
theorem append_k_rows_zero_cols :
    (∃ m0, construct 1 0 false (0 : Int) (fun _ => 0) = .ok m0 ∧
      (([] : List Int).length : Int) = m0.cols ∧
      (m0.append []).1 = .error .length_error ∧
      (m0.appendAll [[]]).1 = .error .length_error) ∧
    (∃ m0, construct (2 ^ 32) (2 ^ 32) false (0 : Int) (fun _ => 0) = .ok m0 ∧
      ∀ d : List Int, (m0.append d).1 = .error .length_error) := by
  refine ⟨⟨_, rfl, by decide, by decide, by decide⟩, ⟨_, rfl, fun d => ?_⟩⟩
  exact (append_error_iff _ d).2 (by decide)

/-- C7, as amended. For an object satisfying the bookkeeping invariant and every `n`:
`resize(n)` fails with the length error if and only if `n < 0` or `n > rows`, and then leaves
the object unchanged; otherwise it succeeds with `numRows == n` and `size == n * cols`,
keeping `rows`, `cols`, `capacity` and the array.  Only the declared `rows` decides, not the
rows populated so far. -/
theorem resize_spec (m : Matrix T) (hw : m.WellFormed) (hi : m.Bookkeeping) (n : Int) :
    ((m.resize n).1 = .error .length_error ↔ (n < 0 ∨ n > m.rows)) ∧
    ((n < 0 ∨ n > m.rows) → (m.resize n).2 = m) ∧
    (0 ≤ n → n ≤ m.rows →
      (m.resize n).1 = .ok () ∧ (m.resize n).2.numRows = n ∧
      (m.resize n).2.size = n * m.cols ∧ (m.resize n).2.rows = m.rows ∧
      (m.resize n).2.cols = m.cols ∧ (m.resize n).2.capacity = m.capacity ∧
      (m.resize n).2.p_data = m.p_data) := by
  refine ⟨?_, ?_, ?_⟩
  · unfold resize
    by_cases h : n < 0 ∨ n > m.m_rows
    · simp [h, Matrix.rows]
    · simp [h, Matrix.rows]
  · intro h
    have h1 : n < 0 ∨ n > m.m_rows := h
    simp [resize, h1]
  · intro h0 h1
    have hn : ¬ (n < 0 ∨ n > m.m_rows) := by
      simp only [Matrix.rows] at h1; omega
    obtain ⟨w1, w2, w3, w4, w5, w6⟩ := hw
    obtain ⟨i1, i2, i3, i4, i5, i6⟩ := hi
    simp only [Matrix.capacity, Matrix.rows, Matrix.cols, Matrix.size, Matrix.numRows,
      isInt64] at *
    have hb := mul_within (R := m.m_rows) (C := m.m_cols) (n := n) (by rw [← i1]; omega)
      h0 h1
    have e : wrap64 (n * m.m_cols) = n * m.m_cols := wrap64_eq (by omega) (by omega)
    simp only [resize, hn, if_false, e, and_self]

theorem resize_spec_witness :
    ((sample32b.resize 3).1 = .error .length_error ↔ ((3 : Int) < 0 ∨ 3 > sample32b.rows)) ∧
    (((3 : Int) < 0 ∨ 3 > sample32b.rows) → (sample32b.resize 3).2 = sample32b) ∧
    ((0 : Int) ≤ 3 → 3 ≤ sample32b.rows →
      (sample32b.resize 3).1 = .ok () ∧ (sample32b.resize 3).2.numRows = 3 ∧
      (sample32b.resize 3).2.size = 3 * sample32b.cols ∧
      (sample32b.resize 3).2.rows = sample32b.rows ∧
      (sample32b.resize 3).2.cols = sample32b.cols ∧
      (sample32b.resize 3).2.capacity = sample32b.capacity ∧
      (sample32b.resize 3).2.p_data = sample32b.p_data) :=
  resize_spec sample32b (by decide) (by decide) 3

/-- C7 fails as stated. `Matrix<int>(2^32, 2^32, false)` is constructed with
`capacity() == 0`, since the `int64_t` product wraps, so it does not satisfy the bookkeeping
invariant; `resize(2^31)` on it succeeds, `n` being within `[0, rows]`, and stores the wrapped
product `-2^63` in `size`, which is not `n * cols`. -/
theorem resize_overflow_object :
    ∃ m : Matrix Int, construct (2 ^ 32) (2 ^ 32) false 0 (fun _ => 0) = .ok m ∧
      m.WellFormed ∧ ¬ m.Bookkeeping ∧ ¬ ((2 ^ 31 : Int) < 0 ∨ 2 ^ 31 > m.rows) ∧
      (m.resize (2 ^ 31)).1 = .ok () ∧ (m.resize (2 ^ 31)).2.numRows = 2 ^ 31 ∧
      (m.resize (2 ^ 31)).2.size = -2 ^ 63 ∧ (m.resize (2 ^ 31)).2.size ≠ 2 ^ 31 * m.cols :=
  ⟨_, rfl, by decide, by decide, by decide, by decide, by decide, by decide, by decide⟩

/-- C8, as amended. `fill(v)` succeeds and afterwards every element at a linear index in
`[0, capacity)` equals `v`: the logical range `[0, size)` and the unoccupied reserved
capacity `[size, capacity)` alike; `rows`, `cols`, `capacity`, `numRows` and `size` are
unchanged. -/
theorem fill_effect (m : Matrix T) (hw : m.WellFormed) (hi : m.Bookkeeping) (v : T) :
    ∃ m1, m.fill v = (.ok (), m1) ∧
      (∀ i : Int, 0 ≤ i → i < m.size → load m1.arr i = some v) ∧
      (∀ i : Int, m.size ≤ i → i < m.capacity → load m1.arr i = some v) ∧
      m1.rows = m.rows ∧ m1.cols = m.cols ∧ m1.capacity = m.capacity ∧
      m1.numRows = m.numRows ∧ m1.size = m.size := by
  obtain ⟨w1, w2, w3, w4, w5, w6⟩ := hw
  obtain ⟨i1, i2, i3, i4, i5, i6⟩ := hi
  simp only [Matrix.capacity, Matrix.rows, Matrix.cols, Matrix.size, Matrix.numRows] at *
  have hcap : 0 ≤ m.m_capacity := by omega
  have t1 : tripCount 0 m.m_capacity = some m.arr.length := by
    have : m.m_capacity.toNat = m.arr.length := by omega
    simp [tripCount, hcap, this]
  have hf := stdFill_full v m.arr
  have harr : (m.setArr (List.replicate m.arr.length v)).arr = List.replicate m.arr.length v :=
    arr_setArr m _ (by simp)
  refine ⟨m.setArr (List.replicate m.arr.length v), ?_, ?_, ?_, rfl, rfl, rfl, rfl, rfl⟩
  · simp only [fill, Matrix.capacity, t1, hf]
  · intro i h0 h1
    rw [harr]
    exact load_replicate _ _ _ h0 (by omega)
  · intro i h0 h1
    rw [harr]
    exact load_replicate _ _ _ (by omega) (by omega)

theorem fill_effect_witness :
    ∃ m1, sample32b.fill 9 = (.ok (), m1) ∧
      (∀ i : Int, 0 ≤ i → i < sample32b.size → load m1.arr i = some 9) ∧
      (∀ i : Int, sample32b.size ≤ i → i < sample32b.capacity → load m1.arr i = some 9) ∧
      m1.rows = sample32b.rows ∧ m1.cols = sample32b.cols ∧
      m1.capacity = sample32b.capacity ∧
      m1.numRows = sample32b.numRows ∧ m1.size = sample32b.size :=
  fill_effect sample32b (by decide) (by decide) 9

/-- C8 fails as stated. `Matrix<int>(2, 1, true, 7)` followed by `resize(1)` has `size == 1`
and `capacity == 2` with 7 at linear index 1; `fill(5)` then stores 5 at index 1, which lies in
the unoccupied reserved range `[size, capacity)`. -/
theorem fill_overwrites_reserved :
    ∃ m0 m1 m2, construct 2 1 true (7 : Int) (fun _ => 0) = .ok m0 ∧
      m0.resize 1 = (.ok (), m1) ∧ m1.fill 5 = (.ok (), m2) ∧
      m1.size ≤ 1 ∧ 1 < m1.capacity ∧ m2.size = m1.size ∧ m2.capacity = m1.capacity ∧
      load m1.arr 1 = some 7 ∧ load m2.arr 1 = some 5 :=
  ⟨_, _, _, rfl, rfl, rfl, by decide, by decide, by decide, by decide, by decide, by decide⟩

/-- C9. `a == b` returns true if and only if `rows`, `cols`, `capacity`, `numRows` and `size`
agree and `a.p_data[i]` equals `b.p_data[i]` for every `i` in `[0, size)`; objects that differ
in `capacity` are not equal, whatever their content, and elements at indices `>= size` play no
part; on well-formed objects the comparison always returns, and `operator!=` returns its
negation. -/
theorem eq_spec [DecidableEq T] (a b : Matrix T) :
    (a.eq b = .ok true ↔
      (a.rows = b.rows ∧ a.cols = b.cols ∧ a.capacity = b.capacity ∧
       a.numRows = b.numRows ∧ a.size = b.size ∧
       ∀ i : Int, 0 ≤ i → i < a.size → ∃ x, load a.arr i = some x ∧ load b.arr i = some x)) ∧
    (a.capacity ≠ b.capacity → a.eq b = .ok false) ∧
    (a.WellFormed → a.Bookkeeping → b.WellFormed → b.Bookkeeping →
      ∃ r, a.eq b = .ok r ∧ a.ne b = .ok (!r)) ∧
    (∀ r, a.eq b = .ok r → a.ne b = .ok (!r)) := by
  have hne : ∀ r, a.eq b = .ok r → a.ne b = .ok (!r) := by
    intro r h
    simp only [Matrix.ne, h]
  refine ⟨?_, ?_, ?_, hne⟩
  · simp only [Matrix.rows, Matrix.cols, Matrix.capacity, Matrix.numRows, Matrix.size]
    unfold Matrix.eq
    by_cases h1 : a.m_rows = b.m_rows
    swap
    · simp [h1]
    by_cases h2 : a.m_cols = b.m_cols
    swap
    · simp [h1, h2]
    by_cases h3 : a.m_capacity = b.m_capacity
    swap
    · simp [h1, h2, h3]
    by_cases h4 : a.m_numRows = b.m_numRows
    swap
    · simp [h1, h2, h3, h4]
    by_cases h5 : a.m_size = b.m_size
    swap
    · simp [h1, h2, h3, h4, h5]
    simp only [h1, h2, h3, h4, h5, ne_eq, not_true_eq_false, if_false, true_and, Matrix.size]
    have key := eqLoop_true a.arr b.arr b.m_size.toNat 0
    constructor
    · intro h
      cases hl : eqLoop a.arr b.arr b.m_size.toNat 0 with
      | none => rw [hl] at h; cases h
      | some r =>
        rw [hl] at h
        simp only [Except.ok.injEq] at h
        subst h
        intro i hi0 hi1
        exact key.1 hl i hi0 (by omega)
    · intro h
      have := key.2 (fun k hk0 hk1 => h k hk0 (by omega))
      rw [this]
  · intro h
    have h3 : a.m_capacity ≠ b.m_capacity := h
    unfold Matrix.eq
    by_cases h1 : a.m_rows = b.m_rows
    swap
    · simp [h1]
    by_cases h2 : a.m_cols = b.m_cols
    swap
    · simp [h1, h2]
    simp [h1, h2, h3]
  · intro hwa hia hwb hib
    have hex : ∃ r, a.eq b = .ok r := by
      unfold Matrix.eq
      by_cases h1 : a.m_rows = b.m_rows
      swap
      · exact ⟨false, by simp [h1]⟩
      by_cases h2 : a.m_cols = b.m_cols
      swap
      · exact ⟨false, by simp [h1, h2]⟩
      by_cases h3 : a.m_capacity = b.m_capacity
      swap
      · exact ⟨false, by simp [h1, h2, h3]⟩
      by_cases h4 : a.m_numRows = b.m_numRows
      swap
      · exact ⟨false, by simp [h1, h2, h3, h4]⟩
      by_cases h5 : a.m_size = b.m_size
      swap
      · exact ⟨false, by simp [h1, h2, h3, h4, h5]⟩
      have ha6 := hwa.2.2.2.2.2
      have hb6 := hwb.2.2.2.2.2
      have ha5 := hia.2.2.2.2
      simp only [Matrix.size, Matrix.capacity] at ha5
      obtain ⟨r, hr⟩ := eqLoop_ok a.arr b.arr a.m_size.toNat 0 (le_refl 0) (by omega) (by omega)
      refine ⟨r, ?_⟩
      simp only [h1, h2, h3, h4, h5, ne_eq, not_true_eq_false, if_false, Matrix.size]
      rw [← h5, hr]
    obtain ⟨r, hr⟩ := hex
    exact ⟨r, hr, hne r hr⟩

theorem eq_spec_witness :
    sample32b.eq { sample32b with p_data := some [1, 2, 3, 4, 8, 9] } = .ok true ∧
    sample32b.eq { sample32b with m_rows := 2, m_capacity := 4, p_data := some [1, 2, 3, 4] }
      = .ok false ∧
    (∃ r, sample32b.eq sample32 = .ok r ∧ sample32b.ne sample32 = .ok (!r)) ∧
    sample32b.ne { sample32b with p_data := some [1, 2, 3, 4, 8, 9] } = .ok false :=
  ⟨(eq_spec sample32b { sample32b with p_data := some [1, 2, 3, 4, 8, 9] }).1.2 (by decide),
   (eq_spec sample32b
      { sample32b with m_rows := 2, m_capacity := 4, p_data := some [1, 2, 3, 4] }).2.1
      (by decide),
   (eq_spec sample32b sample32).2.2.1 (by decide) (by decide) (by decide) (by decide),
   (eq_spec sample32b { sample32b with p_data := some [1, 2, 3, 4, 8, 9] }).2.2.2 true
      (by decide)⟩

/-- C10. For an object satisfying the bookkeeping invariant with `cols > 0` and coordinates
within `int32_t`, and an element `x` that occurs in the logical range `[0, size)`, `find(x)`
returns the pair `(r, c)` for which `r * cols + c` is the smallest linear index holding `x`;
hence `0 <= r < numRows`, `0 <= c < cols`, `at(r, c) == x`, and no earlier element in
row-major order equals `x`. -/
theorem find_first [DecidableEq T] (m : Matrix T) (hw : m.WellFormed) (hi : m.Bookkeeping)
    (hc : 0 < m.cols) (h32r : m.numRows ≤ 2 ^ 31) (h32c : m.cols ≤ 2 ^ 31) (x : T)
    (hx : ∃ k : Int, 0 ≤ k ∧ k < m.size ∧ load m.arr k = some x) :
    ∃ r c : Int, m.find x = .ok (r, c) ∧
      load m.arr (r * m.cols + c) = some x ∧
      (∀ j : Int, 0 ≤ j → j < r * m.cols + c → load m.arr j ≠ some x) ∧
      0 ≤ r ∧ r < m.numRows ∧ 0 ≤ c ∧ c < m.cols ∧
      ∀ DEBUG : Bool, m.at DEBUG r c = .ok x := by
  obtain ⟨k, hk0, hk1, hk⟩ := hx
  obtain ⟨i, hi0, hik, hix, hmin⟩ := exists_first m.arr x k hk0 hk
  obtain ⟨w1, w2, w3, w4, w5, w6⟩ := hw
  obtain ⟨i1, i2, i3, i4, i5, i6⟩ := hi
  simp only [Matrix.capacity, Matrix.rows, Matrix.cols, Matrix.size, Matrix.numRows,
    isInt64] at *
  have hcne : m.m_cols ≠ 0 := by omega
  have hisz : i < m.m_size := by omega
  -- the coordinates of the first occurrence
  have hdm : m.m_cols * (i / m.m_cols) + i % m.m_cols = i := Int.ediv_add_emod i m.m_cols
  have hmod0 : 0 ≤ i % m.m_cols := Int.emod_nonneg i hcne
  have hmod1 : i % m.m_cols < m.m_cols := Int.emod_lt_of_pos i hc
  have hdiv0 : 0 ≤ i / m.m_cols := Int.ediv_nonneg hi0 (le_of_lt hc)
  have hdiv1 : i / m.m_cols < m.m_numRows := by
    apply Int.ediv_lt_of_lt_mul hc
    rw [← i2]; exact hisz
  have hlin : i / m.m_cols * m.m_cols + i % m.m_cols = i := by
    rw [mul_comm]; exact hdm
  have hrow0 : 0 ≤ i / m.m_cols * m.m_cols := mul_nonneg hdiv0 (le_of_lt hc)
  have hwr : wrap64 (i / m.m_cols * m.m_cols) = i / m.m_cols * m.m_cols :=
    wrap64_eq (by omega) (by omega)
  -- the scan
  have t1 : tripCount 0 m.m_capacity = some m.m_capacity.toNat := by
    have : 0 ≤ m.m_capacity := by omega
    simp [tripCount, this]
  have hscan : stdFind x m.arr m.m_capacity.toNat 0 = some i := by
    apply stdFind_first x m.arr m.m_capacity.toNat 0 i hi0 (by omega) hix
    intro j hj0 hj1
    obtain ⟨y, hy⟩ := load_isSome (a := m.arr) hj0 (by omega)
    refine ⟨y, hy, ?_⟩
    intro hyx
    subst hyx
    exact hmin j hj0 hj1 hy
  refine ⟨i / m.m_cols, i % m.m_cols, ?_, ?_, ?_, hdiv0, hdiv1, hmod0, hmod1, ?_⟩
  · simp only [find, Matrix.capacity, t1, hscan, hcne, if_false]
    rw [Int.tdiv_eq_ediv hi0 (le_of_lt hc), Int.tmod_eq_emod hi0 (le_of_lt hc),
      wrap32_eq (by omega) (by omega), wrap32_eq (by omega) (by omega)]
  · rw [hlin]; exact hix
  · rw [hlin]; exact hmin
  · intro DEBUG
    exact at_of_load DEBUG m _ _ hdiv0 (by omega) hmod0 hmod1 hwr x (by rw [hlin]; exact hix)

theorem find_first_witness :
    ∃ r c : Int, sample32b.find 3 = .ok (r, c) ∧
      load sample32b.arr (r * sample32b.cols + c) = some 3 ∧
      (∀ j : Int, 0 ≤ j → j < r * sample32b.cols + c → load sample32b.arr j ≠ some 3) ∧
      0 ≤ r ∧ r < sample32b.numRows ∧ 0 ≤ c ∧ c < sample32b.cols ∧
      ∀ DEBUG : Bool, sample32b.at DEBUG r c = .ok 3 :=
  find_first sample32b (by decide) (by decide) (by decide) (by decide) (by decide) 3
    ⟨2, by decide, by decide, by decide⟩

/-- C14. For an object satisfying the bookkeeping invariant and a row `r` with
`0 <= r < rows`, advancing a cursor from `crowBegin(r)` until it equals `crowEnd(r)` ends after
exactly `cols` steps, the `j`-th visited element being the one at `r * cols + j`, which is
`at(r, j)`; `extractRow(r)` returns that sequence, of length `cols`; `rowBegin(r)` and
`rowEnd(r)` stand at the same positions as the const variants. -/
theorem row_iteration (m : Matrix T) (hw : m.WellFormed) (hi : m.Bookkeeping) (DEBUG : Bool)
    (r : Int) (hr0 : 0 ≤ r) (hr : r < m.rows) :
    ∃ (first last : ForwardRowIterator) (l : List T),
      m.crowBegin DEBUG r = .ok first ∧ m.crowEnd DEBUG r = .ok last ∧
      m.rowBegin DEBUG r = .ok (r * m.cols) ∧ first.p_iter = m.ptr (r * m.cols) ∧
      m.rowEnd DEBUG r = .ok (r * m.cols + m.cols) ∧
      last.p_iter = m.ptr (r * m.cols + m.cols) ∧
      (∀ fuel : Nat, m.cols ≤ fuel → rowLoop m.arr fuel first last = some (.ok l)) ∧
      (∀ fuel : Nat, (fuel : Int) < m.cols → rowLoop m.arr fuel first last = none) ∧
      (l.length : Int) = m.cols ∧
      (∀ j : Nat, (j : Int) < m.cols → ∃ x, l[j]? = some x ∧
        load m.arr (r * m.cols + j) = some x ∧ m.at DEBUG r j = .ok x) ∧
      m.extractRow DEBUG r = .ok l := by
  obtain ⟨w1, w2, w3, w4, w5, w6⟩ := hw
  obtain ⟨i1, i2, i3, i4, i5, i6⟩ := hi
  simp only [Matrix.capacity, Matrix.rows, Matrix.cols, Matrix.size, Matrix.numRows,
    isInt64] at *
  have hcols : 0 ≤ m.m_cols := by
    by_contra hneg
    have hneg : m.m_cols < 0 := not_le.mp hneg
    have := mul_neg_of_pos_of_neg (lt_of_le_of_lt hr0 hr) hneg
    omega
  have hrow0 : 0 ≤ r * m.m_cols := mul_nonneg hr0 hcols
  have hrow1 : (r + 1) * m.m_cols ≤ m.m_rows * m.m_cols :=
    mul_le_mul_of_nonneg_right (by omega) hcols
  have e1 : (r + 1) * m.m_cols = r * m.m_cols + m.m_cols := by ring
  have hwr : wrap64 (r * m.m_cols) = r * m.m_cols := wrap64_eq (by omega) (by omega)
  have d2 : ¬ (DEBUG = true ∧ (r ≥ m.m_rows ∨ r < 0)) := by
    intro h; omega
  obtain ⟨l, hl⟩ := readRange_ok m.arr m.m_cols.toNat (r * m.m_cols) hrow0 (by omega)
  obtain ⟨hlen, hlk⟩ := readRange_spec _ _ _ _ hl
  have hloop := rowLoop_ptr m m.m_cols.toNat (r * m.m_cols) l hl
  have ecast : ((m.m_cols.toNat : Nat) : Int) = m.m_cols := Int.toNat_of_nonneg hcols
  rw [ecast] at hloop
  refine ⟨{ p_iter := m.ptr (r * m.m_cols) }, { p_iter := m.ptr (r * m.m_cols + m.m_cols) }, l,
    ?_, ?_, ?_, rfl, ?_, rfl, ?_, ?_, by omega, ?_, ?_⟩
  · simp only [crowBegin, at_row, d2, if_false, hwr]
  · simp only [crowEnd, at_row, d2, if_false, hwr]
  · simp only [rowBegin, at_row, d2, if_false, hwr]
  · simp only [rowEnd, at_row, d2, if_false, hwr]
  · intro fuel hf
    exact hloop.1 fuel (by omega)
  · intro fuel hf
    exact hloop.2 fuel (by omega)
  · intro j hj
    have hjn : j < m.m_cols.toNat := by omega
    have hk := hlk j hjn
    have hx : ∃ x, l[j]? = some x := ⟨l[j], List.getElem?_eq_getElem (by omega)⟩
    obtain ⟨x, hx⟩ := hx
    refine ⟨x, hx, by rw [hk, hx], ?_⟩
    exact at_of_load DEBUG m r j hr0 hr (by omega) hj hwr x (by rw [hk, hx])
  · exact extractRow_of_range DEBUG m r hr0 hr hcols hwr l hl

theorem row_iteration_witness :
    ∃ (first last : ForwardRowIterator) (l : List Int),
      sample32b.crowBegin true 1 = .ok first ∧ sample32b.crowEnd true 1 = .ok last ∧
      sample32b.rowBegin true 1 = .ok (1 * sample32b.cols) ∧
      first.p_iter = sample32b.ptr (1 * sample32b.cols) ∧
      sample32b.rowEnd true 1 = .ok (1 * sample32b.cols + sample32b.cols) ∧
      last.p_iter = sample32b.ptr (1 * sample32b.cols + sample32b.cols) ∧
      (∀ fuel : Nat, sample32b.cols ≤ fuel →
        rowLoop sample32b.arr fuel first last = some (.ok l)) ∧
      (∀ fuel : Nat, (fuel : Int) < sample32b.cols →
        rowLoop sample32b.arr fuel first last = none) ∧
      (l.length : Int) = sample32b.cols ∧
      (∀ j : Nat, (j : Int) < sample32b.cols → ∃ x, l[j]? = some x ∧
        load sample32b.arr (1 * sample32b.cols + j) = some x ∧
        sample32b.at true 1 j = .ok x) ∧
      sample32b.extractRow true 1 = .ok l :=
  row_iteration sample32b (by decide) (by decide) true 1 (by decide) (by decide)

/-- C19, as amended. Traversing from `cbegin()` until the cursor equals `cend()` is bounded
to the allocated capacity: it visits exactly `capacity` elements, the whole array in row-major
order, the unoccupied reserved slots at `[size, capacity)` included. -/
theorem whole_traversal (m : Matrix T) (hw : m.WellFormed) :
    (∀ fuel : Nat, m.capacity ≤ fuel →
      rowLoop m.arr fuel m.cbegin m.cend = some (.ok m.arr)) ∧
    (∀ fuel : Nat, (fuel : Int) < m.capacity → rowLoop m.arr fuel m.cbegin m.cend = none) ∧
    (m.arr.length : Int) = m.capacity ∧
    (∀ i : Int, 0 ≤ i → i < m.capacity → ∃ x, load m.arr i = some x ∧ m.arr[i.toNat]? = some x) ∧
    m.begin = m.cbegin ∧ m.end = m.cend := by
  have w6 := hw.2.2.2.2.2
  have hloop := rowLoop_ptr m m.arr.length 0 m.arr (readRange_full m.arr)
  simp only [zero_add] at hloop
  rw [w6] at hloop
  refine ⟨fun fuel hf => ?_, fun fuel hf => ?_, w6, ?_, rfl, rfl⟩
  · exact hloop.1 fuel (by simp only [Matrix.capacity] at hf; omega)
  · exact hloop.2 fuel (by simp only [Matrix.capacity] at hf; omega)
  · intro i h0 h1
    simp only [Matrix.capacity] at h1
    obtain ⟨x, hx⟩ := load_isSome (a := m.arr) h0 (by omega)
    refine ⟨x, hx, ?_⟩
    have := (load_eq_some.1 hx).2
    exact this

theorem whole_traversal_witness :
    (∀ fuel : Nat, sample32b.capacity ≤ fuel →
      rowLoop sample32b.arr fuel sample32b.cbegin sample32b.cend = some (.ok sample32b.arr)) ∧
    (∀ fuel : Nat, (fuel : Int) < sample32b.capacity →
      rowLoop sample32b.arr fuel sample32b.cbegin sample32b.cend = none) ∧
    (sample32b.arr.length : Int) = sample32b.capacity ∧
    (∀ i : Int, 0 ≤ i → i < sample32b.capacity →
      ∃ x, load sample32b.arr i = some x ∧ sample32b.arr[i.toNat]? = some x) ∧
    sample32b.begin = sample32b.cbegin ∧ sample32b.end = sample32b.cend :=
  whole_traversal sample32b (by decide)

/-- C19 fails as stated. The object after `Matrix<int>(3, 2, false)`, `append({1, 2})`,
`append({3, 4})` has `size() == 4` and `capacity() == 6`; the cursor started at `cbegin()` has
not met `cend()` after 4 steps, and the traversal visits 6 elements, the last two being the
unoccupied reserved slots. -/
theorem whole_traversal_visits_reserved :
    sample32b.size = 4 ∧ sample32b.capacity = 6 ∧
    rowLoop sample32b.arr 4 sample32b.cbegin sample32b.cend = none ∧
    rowLoop sample32b.arr 6 sample32b.cbegin sample32b.cend = some (.ok [1, 2, 3, 4, 0, 0]) := by
  decide

/-- C15. For an object satisfying the bookkeeping invariant with `cols > 0` and a column `c`
with `0 <= c < cols`, advancing a column cursor from `colBegin(c)` until it equals `colEnd(c)`
ends after exactly `numRows` steps; the `i`-th visited element is the one at offset
`c + i * cols`, which is `at(i, c)`, and every visited offset is below `size`; `ccolBegin` and
`ccolEnd` give the same cursors. -/
theorem column_iteration (m : Matrix T) (hw : m.WellFormed) (hi : m.Bookkeeping)
    (hc : 0 < m.cols) (c : Int) (hc0 : 0 ≤ c) (hc1 : c < m.cols) :
    ∃ l : List T, (l.length : Int) = m.numRows ∧
      (∀ i : Nat, (i : Int) < m.numRows → c + i * m.cols < m.size ∧
        ∃ x, l[i]? = some x ∧ load m.arr (c + i * m.cols) = some x ∧
          ∀ DEBUG : Bool, m.at DEBUG i c = .ok x) ∧
      (∀ fuel : Nat, m.numRows ≤ fuel →
        colLoop m.arr fuel (m.colBegin c) (m.colEnd c) = some (.ok l)) ∧
      (∀ fuel : Nat, (fuel : Int) < m.numRows →
        colLoop m.arr fuel (m.colBegin c) (m.colEnd c) = none) ∧
      m.ccolBegin c = m.colBegin c ∧ m.ccolEnd c = m.colEnd c := by
  obtain ⟨w1, w2, w3, w4, w5, w6⟩ := hw
  obtain ⟨i1, i2, i3, i4, i5, i6⟩ := hi
  simp only [Matrix.capacity, Matrix.rows, Matrix.cols, Matrix.size, Matrix.numRows,
    isInt64] at *
  have hwsz : wrap64 (m.m_numRows * m.m_cols) = m.m_numRows * m.m_cols := by
    rw [← i2]; exact wrap64_eq (by omega) (by omega)
  have hcell : ∀ i : Nat, (i : Int) < m.m_numRows →
      0 ≤ (i : Int) * m.m_cols ∧ (i : Int) * m.m_cols + c < m.m_size := by
    intro i hlt
    have := cell_bounds (R := m.m_numRows) (C := m.m_cols) (r := (i : Int)) (c := c)
      (by omega) hlt hc0 hc1
    rw [i2]; exact this
  have hread : ∀ i : Nat, i < m.m_numRows.toNat →
      ∃ x, load m.arr (c + (i : Int) * m.m_cols) = some x := by
    intro i hlt
    have hb := hcell i (by omega)
    exact load_isSome (by omega) (by omega)
  have hnull : m.p_data = none → m.m_numRows = 0 := by
    intro hp
    have harr : m.arr = [] := by simp [arr, hp]
    rw [harr] at w6
    simp only [List.length_nil, Nat.cast_zero] at w6
    have hrows : m.m_rows ≤ 0 := by
      by_contra hpos
      have := mul_pos (not_le.mp hpos) hc
      omega
    omega
  obtain ⟨l, hlen, hget, hge, hlt⟩ :=
    colLoop_stride m.arr m.m_cols hc m.m_numRows.toNat c hread
  have ecast : ((m.m_numRows.toNat : Nat) : Int) = m.m_numRows := Int.toNat_of_nonneg i3
  rw [ecast] at hge hlt
  refine ⟨l, by omega, ?_, ?_, ?_, rfl, rfl⟩
  · intro i hirow
    have hb := hcell i hirow
    have hin : i < m.m_numRows.toNat := by omega
    obtain ⟨x, hx⟩ := hread i hin
    refine ⟨by omega, x, by rw [hget i hin, hx], hx, fun DEBUG => ?_⟩
    have hwr : wrap64 ((i : Int) * m.m_cols) = (i : Int) * m.m_cols :=
      wrap64_eq (by omega) (by omega)
    exact at_of_load DEBUG m i c (by omega) (by omega) hc0 hc1 hwr x (by
      rw [add_comm]; exact hx)
  · intro fuel hf
    cases hp : m.p_data with
    | none =>
      have hl : l = [] := List.length_eq_zero.mp (by have := hnull hp; omega)
      subst hl
      cases fuel <;> simp [colLoop, ForwardColumnIterator.ne, colBegin, colEnd, ptr, hp]
    | some b =>
      have := hge fuel (by omega)
      simpa only [colBegin, colEnd, ptr, hp, Option.map_some', hwsz] using this
  · intro fuel hf
    cases hp : m.p_data with
    | none =>
      have := hnull hp
      omega
    | some b =>
      have := hlt fuel (by omega)
      simpa only [colBegin, colEnd, ptr, hp, Option.map_some', hwsz] using this

theorem column_iteration_witness :
    ∃ l : List Int, (l.length : Int) = sample32b.numRows ∧
      (∀ i : Nat, (i : Int) < sample32b.numRows → 1 + i * sample32b.cols < sample32b.size ∧
        ∃ x, l[i]? = some x ∧ load sample32b.arr (1 + i * sample32b.cols) = some x ∧
          ∀ DEBUG : Bool, sample32b.at DEBUG i 1 = .ok x) ∧
      (∀ fuel : Nat, sample32b.numRows ≤ fuel →
        colLoop sample32b.arr fuel (sample32b.colBegin 1) (sample32b.colEnd 1) = some (.ok l)) ∧
      (∀ fuel : Nat, (fuel : Int) < sample32b.numRows →
        colLoop sample32b.arr fuel (sample32b.colBegin 1) (sample32b.colEnd 1) = none) ∧
      sample32b.ccolBegin 1 = sample32b.colBegin 1 ∧
      sample32b.ccolEnd 1 = sample32b.colEnd 1 :=
  column_iteration sample32b (by decide) (by decide) (by decide) 1 (by decide) (by decide)

/-- C11, as amended. For an object satisfying the bookkeeping invariant with `cols > 0` and
coordinates within `int32_t`, and an element `x` that occurs nowhere in the allocated range
`[0, capacity)`, `find(x)` raises no error and returns the pair
`(capacity / cols, capacity % cols)`, which is `(rows, 0)`: the one-past-the-end coordinates
of the allocated range, equal to `(size / cols, size % cols)` when `size == capacity`.  An `x`
whose first occurrence in the array is at `i`, be it in an unoccupied reserved slot, is
reported at `(i / cols, i % cols)`. -/
theorem find_absent [DecidableEq T] (m : Matrix T) (hw : m.WellFormed) (hi : m.Bookkeeping)
    (hc : 0 < m.cols) (h32r : m.rows < 2 ^ 31) (h32c : m.cols ≤ 2 ^ 31) (x : T) :
    ((∀ i : Int, 0 ≤ i → i < m.capacity → load m.arr i ≠ some x) →
      m.find x = .ok (m.capacity / m.cols, m.capacity % m.cols) ∧
      m.capacity / m.cols = m.rows ∧ m.capacity % m.cols = 0 ∧
      (m.size = m.capacity → m.find x = .ok (m.size / m.cols, m.size % m.cols))) ∧
    (∀ i : Int, 0 ≤ i → i < m.capacity → load m.arr i = some x →
      (∀ j : Int, 0 ≤ j → j < i → load m.arr j ≠ some x) →
      m.find x = .ok (i / m.cols, i % m.cols)) := by
  refine ⟨fun habs => ?_, fun i hi0 hi1 hix hmin =>
    (find_at_first m hw hi hc (le_of_lt h32r) h32c x i hi0 hi1 hix hmin).1⟩
  obtain ⟨w1, w2, w3, w4, w5, w6⟩ := hw
  obtain ⟨i1, i2, i3, i4, i5, i6⟩ := hi
  simp only [Matrix.capacity, Matrix.rows, Matrix.cols, Matrix.size, Matrix.numRows,
    isInt64] at *
  have hcne : m.m_cols ≠ 0 := by omega
  have hcap0 : 0 ≤ m.m_capacity := by omega
  have hdiv : m.m_capacity / m.m_cols = m.m_rows := by
    rw [i1]; exact Int.mul_ediv_cancel _ hcne
  have hmod : m.m_capacity % m.m_cols = 0 := by
    rw [i1]; exact Int.mul_emod_left _ _
  have hrows0 : 0 ≤ m.m_rows := by omega
  have t1 : tripCount 0 m.m_capacity = some m.m_capacity.toNat := by
    simp [tripCount, hcap0]
  have hscan : stdFind x m.arr m.m_capacity.toNat 0 = some m.m_capacity := by
    have := stdFind_absent x m.arr m.m_capacity.toNat 0 (fun j hj0 hj1 => by
      obtain ⟨y, hy⟩ := load_isSome (a := m.arr) hj0 (by omega)
      refine ⟨y, hy, ?_⟩
      intro hyx
      subst hyx
      exact habs j hj0 (by omega) hy)
    rw [this]
    congr 1
    omega
  have hfind : m.find x = .ok (m.m_capacity / m.m_cols, m.m_capacity % m.m_cols) := by
    simp only [find, Matrix.capacity, t1, hscan, hcne, if_false]
    rw [Int.tdiv_eq_ediv hcap0 (le_of_lt hc), Int.tmod_eq_emod hcap0 (le_of_lt hc), hdiv, hmod,
      wrap32_eq (by omega) (by omega), wrap32_eq (by omega) (by omega)]
  refine ⟨hfind, hdiv, hmod, fun hsz => ?_⟩
  rw [hsz]; exact hfind

theorem find_absent_witness :
    (sample32b.find 9 = .ok (sample32b.capacity / sample32b.cols,
        sample32b.capacity % sample32b.cols) ∧
      sample32b.capacity / sample32b.cols = sample32b.rows ∧
      sample32b.capacity % sample32b.cols = 0 ∧
      (sample32b.size = sample32b.capacity →
        sample32b.find 9 = .ok (sample32b.size / sample32b.cols,
          sample32b.size % sample32b.cols))) ∧
    sample32b.find 0 = .ok (4 / sample32b.cols, 4 % sample32b.cols) :=
  ⟨(find_absent sample32b (by decide) (by decide) (by decide) (by decide) (by decide) 9).1
      (by decide),
   (find_absent sample32b (by decide) (by decide) (by decide) (by decide) (by decide) 0).2
      4 (by decide) (by decide) (by decide) (by decide)⟩

/-- C11 fails as stated. In the object after `Matrix<int>(3, 2, false)`, `append({1, 2})`,
`append({3, 4})` the value 9 does not occur in `[0, size)`, the sentinel of the claim is
`(size / cols, size % cols) = (2, 0)`, and `find(9)` returns `(3, 0)`.  With 9 in the last
reserved slot `find(9)` returns `(2, 1)`.  On the default object `cols == 0` and the division
in `find` has no defined result. -/
theorem find_absent_reserved :
    (∀ i : Int, 0 ≤ i → i < sample32b.size → load sample32b.arr i ≠ some 9) ∧
    (sample32b.size / sample32b.cols, sample32b.size % sample32b.cols) = (2, 0) ∧
    sample32b.find 9 = .ok (3, 0) ∧
    Matrix.find { sample32b with p_data := some [1, 2, 3, 4, 0, 9] } 9 = .ok (2, 1) ∧
    (Matrix.default : Matrix Int).find 9 = .error .undefined := by
  decide

/-- C13. Move assignment and move construction from a source distinct from the destination
leave the source in the empty state (`rows == cols == capacity == numRows == size == 0`, null
`p_data`) and give the destination the source's former `rows`, `cols`, `capacity`, `numRows`,
`size` and array, whatever the destination held before. -/
theorem move_spec (dst src : Matrix T) (fillVal : T) (fresh : Nat → T) :
    ((dst.move_assign src).1.rows = src.rows ∧ (dst.move_assign src).1.cols = src.cols ∧
     (dst.move_assign src).1.capacity = src.capacity ∧
     (dst.move_assign src).1.numRows = src.numRows ∧ (dst.move_assign src).1.size = src.size ∧
     (dst.move_assign src).1.p_data = src.p_data ∧ (dst.move_assign src).1.arr = src.arr) ∧
    ((dst.move_assign src).2.rows = 0 ∧ (dst.move_assign src).2.cols = 0 ∧
     (dst.move_assign src).2.capacity = 0 ∧ (dst.move_assign src).2.numRows = 0 ∧
     (dst.move_assign src).2.size = 0 ∧ (dst.move_assign src).2.p_data = none) ∧
    ∃ r : Matrix T × Matrix T, src.move_construct fillVal fresh = .ok r ∧
      (r.1.rows = src.rows ∧ r.1.cols = src.cols ∧ r.1.capacity = src.capacity ∧
       r.1.numRows = src.numRows ∧ r.1.size = src.size ∧ r.1.p_data = src.p_data ∧
       r.1.arr = src.arr) ∧
      (r.2.rows = 0 ∧ r.2.cols = 0 ∧ r.2.capacity = 0 ∧ r.2.numRows = 0 ∧ r.2.size = 0 ∧
       r.2.p_data = none) :=
  ⟨⟨rfl, rfl, rfl, rfl, rfl, rfl, rfl⟩, ⟨rfl, rfl, rfl, rfl, rfl, rfl⟩,
   ⟨(src, Matrix.default), move_construct_ok src fillVal fresh,
    ⟨rfl, rfl, rfl, rfl, rfl, rfl, rfl⟩, ⟨rfl, rfl, rfl, rfl, rfl, rfl⟩⟩⟩

/-- C16. In the checked (`DEBUG`) build, for an object satisfying the bookkeeping invariant:
`at(row, col)` fails with the out-of-range error if and only if `row < 0`, `row >= rows`,
`col < 0` or `col >= cols`; otherwise `row * cols + col` lies in `[0, capacity)` and the result
is the element at that offset; distinct in-range pairs have distinct offsets. -/
theorem at_checked (m : Matrix T) (hw : m.WellFormed) (hi : m.Bookkeeping) (row col : Int) :
    (m.at true row col = .error .out_of_range ↔
      (row < 0 ∨ row ≥ m.rows ∨ col < 0 ∨ col ≥ m.cols)) ∧
    (0 ≤ row → row < m.rows → 0 ≤ col → col < m.cols →
      0 ≤ row * m.cols + col ∧ row * m.cols + col < m.capacity ∧
      ∃ x, load m.arr (row * m.cols + col) = some x ∧ m.at true row col = .ok x) ∧
    (∀ row1 col1 : Int, 0 ≤ row → row < m.rows → 0 ≤ col → col < m.cols →
      0 ≤ row1 → row1 < m.rows → 0 ≤ col1 → col1 < m.cols →
      row * m.cols + col = row1 * m.cols + col1 → row = row1 ∧ col = col1) := by
  obtain ⟨w1, w2, w3, w4, w5, w6⟩ := hw
  obtain ⟨i1, i2, i3, i4, i5, i6⟩ := hi
  simp only [Matrix.capacity, Matrix.rows, Matrix.cols, Matrix.size, Matrix.numRows,
    isInt64] at *
  have hin : 0 ≤ row → row < m.m_rows → 0 ≤ col → col < m.m_cols →
      0 ≤ row * m.m_cols + col ∧ row * m.m_cols + col < m.m_capacity ∧
      ∃ x, load m.arr (row * m.m_cols + col) = some x ∧ m.at true row col = .ok x := by
    intro hr0 hr hc0 hc
    obtain ⟨b1, b2⟩ := cell_bounds hr0 hr hc0 hc
    have hwr : wrap64 (row * m.m_cols) = row * m.m_cols := wrap64_eq (by omega) (by omega)
    obtain ⟨x, hx⟩ := load_isSome (a := m.arr) (i := row * m.m_cols + col) (by omega) (by omega)
    exact ⟨by omega, by omega, x, hx, at_of_load true m row col hr0 hr hc0 hc hwr x hx⟩
  refine ⟨⟨?_, ?_⟩, hin, ?_⟩
  · intro h
    by_contra hn
    obtain ⟨_, _, x, _, hx⟩ := hin (by omega) (by omega) (by omega) (by omega)
    rw [hx] at h
    cases h
  · intro h
    by_cases hcol : col ≥ m.m_cols ∨ col < 0
    · simp [«at», hcol]
    · have hrow : row ≥ m.m_rows ∨ row < 0 := by omega
      simp [«at», at_row, hcol, hrow]
  · intro row1 col1 hr0 hr hc0 hc hr0' hr' hc0' hc' heq
    have hcne : m.m_cols ≠ 0 := by omega
    have e1 : (col + row * m.m_cols) / m.m_cols = row := by
      rw [Int.add_mul_ediv_right _ _ hcne, Int.ediv_eq_zero_of_lt hc0 hc, zero_add]
    have e2 : (col1 + row1 * m.m_cols) / m.m_cols = row1 := by
      rw [Int.add_mul_ediv_right _ _ hcne, Int.ediv_eq_zero_of_lt hc0' hc', zero_add]
    have hrr : row = row1 := by
      rw [← e1, ← e2, add_comm col, add_comm col1, heq]
    subst hrr
    exact ⟨rfl, by omega⟩

theorem at_checked_witness :
    (sample32b.at true 1 1 = .error .out_of_range ↔
      ((1 : Int) < 0 ∨ 1 ≥ sample32b.rows ∨ (1 : Int) < 0 ∨ 1 ≥ sample32b.cols)) ∧
    ((0 : Int) ≤ 1 → 1 < sample32b.rows → (0 : Int) ≤ 1 → 1 < sample32b.cols →
      0 ≤ 1 * sample32b.cols + 1 ∧ 1 * sample32b.cols + 1 < sample32b.capacity ∧
      ∃ x, load sample32b.arr (1 * sample32b.cols + 1) = some x ∧
        sample32b.at true 1 1 = .ok x) ∧
    (∀ row1 col1 : Int, (0 : Int) ≤ 1 → 1 < sample32b.rows → (0 : Int) ≤ 1 →
      1 < sample32b.cols →
      0 ≤ row1 → row1 < sample32b.rows → 0 ≤ col1 → col1 < sample32b.cols →
      1 * sample32b.cols + 1 = row1 * sample32b.cols + col1 → 1 = row1 ∧ 1 = col1) :=
  at_checked sample32b (by decide) (by decide) 1 1

/-- C17, as amended. For an object satisfying the bookkeeping invariant, a row with
`0 <= row < rows` that is an `int32_t` value (`row < 2^31`), populated or not, and data of
exactly `cols` elements, `set(row, data)` (each overload) succeeds, makes
`extractRow(row) == data`, leaves every element outside offsets
`[row * cols, row * cols + cols)` unchanged, and keeps `rows`, `cols`, `capacity`, `numRows`
and `size`. -/
theorem set_effect (m : Matrix T) (hw : m.WellFormed) (hi : m.Bookkeeping) (DEBUG : Bool)
    (row : Int) (hr0 : 0 ≤ row) (hr : row < m.rows) (hr32 : row < 2 ^ 31) (d : List T)
    (hd : (d.length : Int) = m.cols) :
    ∃ m1, m.set DEBUG row d = (.ok (), m1) ∧ m.set_rvalue DEBUG row d = (.ok (), m1) ∧
      m.set_range DEBUG row d = (.ok (), m1) ∧
      m1.extractRow DEBUG row = .ok d ∧
      (∀ j : Nat, j < d.length → load m1.arr (row * m.cols + j) = d[j]?) ∧
      (∀ i : Int, ¬ (row * m.cols ≤ i ∧ i < row * m.cols + m.cols) →
        load m1.arr i = load m.arr i) ∧
      m1.rows = m.rows ∧ m1.cols = m.cols ∧ m1.capacity = m.capacity ∧
      m1.numRows = m.numRows ∧ m1.size = m.size := by
  obtain ⟨w1, w2, w3, w4, w5, w6⟩ := hw
  obtain ⟨i1, i2, i3, i4, i5, i6⟩ := hi
  simp only [Matrix.capacity, Matrix.rows, Matrix.cols, Matrix.size, Matrix.numRows,
    isInt64] at *
  have h32 : wrap32 row = row := wrap32_eq (by omega) hr32
  have hcols : 0 ≤ m.m_cols := by omega
  have hrow0 : 0 ≤ row * m.m_cols := mul_nonneg hr0 hcols
  have hrow1 : (row + 1) * m.m_cols ≤ m.m_rows * m.m_cols :=
    mul_le_mul_of_nonneg_right (by omega) hcols
  have e1 : (row + 1) * m.m_cols = row * m.m_cols + m.m_cols := by ring
  have hwr : wrap64 (row * m.m_cols) = row * m.m_cols := wrap64_eq (by omega) (by omega)
  have d2 : ¬ (DEBUG = true ∧ (row ≥ m.m_rows ∨ row < 0)) := by
    intro h; omega
  obtain ⟨a, ha⟩ := stdCopy_ok d (row * m.m_cols) m.arr hrow0 (by omega)
  obtain ⟨hl, hload⟩ := stdCopy_spec _ _ _ _ ha
  have harr : (m.setArr a).arr = a := arr_setArr m a hl
  have hset : m.set DEBUG row d = (.ok (), m.setArr a) := by
    simp only [Matrix.set, h32, rowBegin, at_row, d2, if_false, hwr, ha]
  refine ⟨m.setArr a, hset, by rw [set_rvalue_eq]; exact hset,
    by rw [set_range_eq]; exact hset, ?_, ?_, ?_, rfl, rfl, rfl, rfl, rfl⟩
  · apply extractRow_of_range DEBUG _ row hr0 (by exact hr) (by exact hcols) (by exact hwr)
    show readRange (m.setArr a).arr m.m_cols.toNat (row * m.m_cols) = some d
    rw [harr]
    have hn : m.m_cols.toNat = d.length := by omega
    rw [hn]
    apply readRange_of_load
    intro k hk
    rw [hload]
    have c : row * m.m_cols ≤ row * m.m_cols + (k : Int) ∧
        row * m.m_cols + (k : Int) < row * m.m_cols + d.length := by omega
    rw [if_pos c]
    congr 1
    omega
  · intro j hj
    rw [harr, hload]
    have c : row * m.m_cols ≤ row * m.m_cols + (j : Int) ∧
        row * m.m_cols + (j : Int) < row * m.m_cols + d.length := by omega
    rw [if_pos c]
    congr 1
    omega
  · intro i hni
    rw [harr, hload, hd, if_neg hni]

theorem set_effect_witness :
    ∃ m1, sample32b.set true 2 [8, 9] = (.ok (), m1) ∧
      sample32b.set_rvalue true 2 [8, 9] = (.ok (), m1) ∧
      sample32b.set_range true 2 [8, 9] = (.ok (), m1) ∧
      m1.extractRow true 2 = .ok [8, 9] ∧
      (∀ j : Nat, j < [8, 9].length → load m1.arr (2 * sample32b.cols + j) = [8, 9][j]?) ∧
      (∀ i : Int, ¬ (2 * sample32b.cols ≤ i ∧ i < 2 * sample32b.cols + sample32b.cols) →
        load m1.arr i = load sample32b.arr i) ∧
      m1.rows = sample32b.rows ∧ m1.cols = sample32b.cols ∧
      m1.capacity = sample32b.capacity ∧
      m1.numRows = sample32b.numRows ∧ m1.size = sample32b.size :=
  set_effect sample32b (by decide) (by decide) true 2 (by decide) (by decide) (by decide)
    [8, 9] (by decide)

/-- C17 fails as stated. `Matrix<int>(2^31 + 1, 1, true, 0)` satisfies the bookkeeping
invariant and `row = 2^31` lies in `[0, rows)`, yet `set(row, {5})` receives the `int32_t`
value `-2^31`: the checked build throws the out-of-range error, the unchecked build writes
before the array, and `extractRow(2^31)` still returns `{0}`, not the data. -/
theorem set_row_narrowed :
    ∃ m : Matrix Int, construct (2 ^ 31 + 1) 1 true 0 (fun _ => 0) = .ok m ∧
      m.WellFormed ∧ m.Bookkeeping ∧
      (0 : Int) ≤ 2 ^ 31 ∧ 2 ^ 31 < m.rows ∧ (([5] : List Int).length : Int) = m.cols ∧
      m.set true (2 ^ 31) [5] = (.error .out_of_range, m) ∧
      m.set false (2 ^ 31) [5] = (.error .undefined, m) ∧
      m.extractRow true (2 ^ 31) = .ok [0] ∧ m.extractRow false (2 ^ 31) = .ok [0] := by
  obtain ⟨m, hcon, hw, hi, hrows, hcols, hload⟩ :=
    construct_filled (2 ^ 31 + 1) 1 (by decide) (by decide) (by decide) (by decide)
      (by decide) (0 : Int) (fun _ => 0)
  have hl : load m.arr (2 ^ 31) = some 0 := hload (2 ^ 31) (by decide) (by decide)
  have hr : (2 : Int) ^ 31 < m.m_rows := by rw [hrows]; decide
  exact ⟨m, hcon, hw, hi, by decide, hr, by rw [Matrix.cols, hcols]; rfl,
    set_narrowed_checked m [5], set_narrowed_unchecked m 5 hcols,
    extractRow_single true m (2 ^ 31) 0 (by decide) hr hcols (by decide) hl,
    extractRow_single false m (2 ^ 31) 0 (by decide) hr hcols (by decide) hl⟩

/-- C20. What the advance operators do.  For a row cursor at position `p`, `operator++()`
moves the cursor to `p + 1` and returns a cursor at the old position `p`; `operator++(int)`
moves the cursor to `p + 1` and returns the cursor at the new position `p + 1`.  For a column
cursor with stride `cols` the same holds with `p + cols`.  The returned cursors are those of
the standard contract with prefix and postfix exchanged; at `begin()` of an object with a
non-null array, `++it` yields a cursor at position 0 and `it++` one at position 1. -/
theorem increment_returns (p cols : Int) :
    ((ForwardRowIterator.pre_increment { p_iter := some p }).2.p_iter = some (p + 1) ∧
     (ForwardRowIterator.pre_increment { p_iter := some p }).1.p_iter = some p ∧
     (ForwardRowIterator.post_increment { p_iter := some p }).2.p_iter = some (p + 1) ∧
     (ForwardRowIterator.post_increment { p_iter := some p }).1.p_iter = some (p + 1)) ∧
    ((ForwardColumnIterator.pre_increment { p_iter := some p, m_cols := cols }).2.p_iter
        = some (p + cols) ∧
     (ForwardColumnIterator.pre_increment { p_iter := some p, m_cols := cols }).1.p_iter
        = some p ∧
     (ForwardColumnIterator.post_increment { p_iter := some p, m_cols := cols }).2.p_iter
        = some (p + cols) ∧
     (ForwardColumnIterator.post_increment { p_iter := some p, m_cols := cols }).1.p_iter
        = some (p + cols)) ∧
    (sample32b.begin.p_iter = some 0 ∧
     sample32b.begin.pre_increment.1.p_iter = some 0 ∧
     sample32b.begin.pre_increment.1.p_iter ≠ some (0 + 1) ∧
     sample32b.begin.post_increment.1.p_iter = some 1 ∧
     sample32b.begin.post_increment.1.p_iter ≠ some 0 ∧
     ((sample32b.colBegin 0).pre_increment.1.p_iter = some 0 ∧
      (sample32b.colBegin 0).post_increment.1.p_iter = some 2)) :=
  ⟨⟨rfl, rfl, rfl, rfl⟩, ⟨rfl, rfl, rfl, rfl⟩,
   ⟨rfl, rfl, by decide, rfl, by decide, rfl, rfl⟩⟩

/-- C18. `clear()` keeps `rows`, `cols`, `capacity` and the array and sets
`numRows == size == 0`; the cleared object then behaves as a fresh `Matrix(rows, cols, false)`:
the two compare equal under `operator==`, and along every sequence of appends of rows of
`cols` elements each call has the same outcome on both, with the same `numRows` and `size`
afterwards, and the two objects compare equal at the end of every such sequence. -/
theorem clear_equiv [DecidableEq T] (m : Matrix T) (hw : m.WellFormed) (hi : m.Bookkeeping)
    (hc : 0 ≤ m.cols) (fillVal : T) (fresh : Nat → T) :
    (m.clear.rows = m.rows ∧ m.clear.cols = m.cols ∧ m.clear.capacity = m.capacity ∧
     m.clear.p_data = m.p_data ∧ m.clear.numRows = 0 ∧ m.clear.size = 0) ∧
    ∃ f, construct m.rows m.cols false fillVal fresh = .ok f ∧
      m.clear.eq f = .ok true ∧
      ∀ ds : List (List T), (∀ d ∈ ds, (d.length : Int) = m.cols) →
        (m.clear.appendTrace ds).1 = (f.appendTrace ds).1 ∧
        (m.clear.appendTrace ds).2.eq (f.appendTrace ds).2 = .ok true := by
  refine ⟨⟨rfl, rfl, rfl, rfl, rfl, rfl⟩, ?_⟩
  have hgc := good_clear hw hi
  obtain ⟨w1, w2, w3, w4, w5, w6⟩ := hw
  obtain ⟨i1, i2, i3, i4, i5, i6⟩ := hi
  simp only [Matrix.capacity, Matrix.rows, Matrix.cols, Matrix.size, Matrix.numRows] at *
  have hrows : 0 ≤ m.m_rows := by omega
  have hprod : isInt64 (m.m_rows * m.m_cols) := by rw [← i1]; exact w3
  have hcon := construct_result m.m_rows m.m_cols hrows hc hprod.2 false fillVal fresh
  have hgf := good_construct w1 w2 hrows hc hprod hcon
  simp only [Bool.false_eq_true, if_false] at hcon hgf
  refine ⟨_, hcon, ?_, ?_⟩
  · refine eq_of_agree m.clear _ (by rfl) (by rfl) (by exact i1) (by rfl) (by rfl) ?_
    intro i h0 h1
    have h1' : i < 0 := h1
    omega
  · intro ds hd
    have hsim := appendTrace_agree ds m.clear _ hgc.1 hgc.2 hgf.1 hgf.2 (by rfl) (by rfl)
      (by exact i1) (by rfl) (by rfl) (fun i h0 h1 => by
        have h1' : i < 0 := h1
        omega) (by exact hd)
    obtain ⟨htr, ⟨hwe, hie⟩, e1, e2, e3, e4, e5, hag⟩ := hsim
    refine ⟨htr, eq_of_agree _ _ e1 e2 e3 e4 e5 (fun i h0 h1 => ?_)⟩
    have hlen := hwe.2.2.2.2.2
    have hsz := hie.2.2.2.2.2
    simp only [Matrix.size, Matrix.capacity] at hsz
    obtain ⟨x, hx⟩ := load_isSome (a := (m.clear.appendTrace ds).2.arr) h0 (by omega)
    exact ⟨x, hx, by rw [← hag i h0 h1]; exact hx⟩

theorem clear_equiv_witness :
    (sample32b.clear.rows = sample32b.rows ∧ sample32b.clear.cols = sample32b.cols ∧
     sample32b.clear.capacity = sample32b.capacity ∧
     sample32b.clear.p_data = sample32b.p_data ∧ sample32b.clear.numRows = 0 ∧
     sample32b.clear.size = 0) ∧
    ∃ f, construct sample32b.rows sample32b.cols false 0 (fun _ => 7) = .ok f ∧
      sample32b.clear.eq f = .ok true ∧
      ∀ ds : List (List Int), (∀ d ∈ ds, (d.length : Int) = sample32b.cols) →
        (sample32b.clear.appendTrace ds).1 = (f.appendTrace ds).1 ∧
        (sample32b.clear.appendTrace ds).2.eq (f.appendTrace ds).2 = .ok true :=
  clear_equiv sample32b (by decide) (by decide) (by decide) 0 (fun _ => 7)

/-- C12, as amended. For an original `m` satisfying the bookkeeping invariant, seen in a free
store where its array lives, copy construction and copy assignment (into any other object)
succeed and give a copy with the same `rows`, `cols`, `capacity`, `numRows` and `size`, with
equal elements on `[0, size)`, so that the copy compares equal to `m` right away while `m` has
kept its value; and no later sequence of `append`, `set`, `resize`, `fill` and `clear` calls on
the copy changes any field or element of `m`. -/
theorem copy_independent [DecidableEq T] (m : Object) (h : Heap T)
    (hw : (m.view h).WellFormed) (hi : (m.view h).Bookkeeping)
    (hlive : ∀ b, m.p_data = some b → h b ≠ none) (fresh : Nat → T) (a : Nat) :
    (h a = none →
      ∃ c h1, m.copy_construct h a fresh = .ok (c, h1) ∧ Object.CopyOf m h c h1) ∧
    (∀ o : Object, (∀ b, o.p_data = some b → m.p_data ≠ some b) →
      Object.writeAt h o.p_data none a = none →
      ∃ c h1, o.copy_assign m h a fresh = (.ok (), c, h1) ∧ Object.CopyOf m h c h1) := by
  have w6 := hw.2.2.2.2.2
  have hcap : ¬ m.m_capacity < 0 := by
    have : (m.view h).m_capacity = m.m_capacity := rfl
    omega
  have t1 : tripCount 0 m.m_capacity = some (m.view h).arr.length := by
    have e : (m.view h).m_capacity = m.m_capacity := rfl
    have h0 : 0 ≤ m.m_capacity := by omega
    have : m.m_capacity.toNat = (m.view h).arr.length := by omega
    simp [tripCount, h0, this]
  have hcopy : stdCopy (m.view h).arr 0 ((List.range m.m_capacity.toNat).map fresh)
      = some (m.view h).arr := by
    have e : (m.view h).m_capacity = m.m_capacity := rfl
    exact stdCopy_full _ _ (by simp; omega)
  -- the array of `m` is read through `m.p_data` in a store that agrees with `h` there
  have hsrc : ∀ h0 : Heap T, (∀ b, m.p_data = some b → h0 b = h b) →
      Object.arrAt h0 m.p_data = (m.view h).arr := by
    intro h0 h0m
    rw [arrAt_view, view_congr m h h0 h0m]
  have hdst : ∀ (h0 : Heap T) (x : List T),
      Object.arrAt (Object.writeAt h0 (some a) (some x)) (some a) = x := by
    intro h0 x
    simp [Object.arrAt, writeAt_same]
  constructor
  · intro ha
    have hne : m.p_data ≠ some a := fun hp => hlive a hp ha
    have h0m : ∀ b, m.p_data = some b →
        Object.writeAt h (some a) (some ((List.range m.m_capacity.toNat).map fresh)) b
          = h b := by
      intro b hb
      exact writeAt_other h (some a) _ b (by intro e; exact hne (by rw [hb, Option.some.inj e]))
    refine ⟨_, _, ?_, copyOf_at_fresh m h _ a hw hi hne h0m⟩
    simp only [Object.copy_construct, hcap, if_false, t1, hsrc _ h0m, readRange_full, hdst,
      hcopy]
  · intro o hdist ha
    have h1m : ∀ b, m.p_data = some b → Object.writeAt h o.p_data none b = h b := by
      intro b hb
      exact writeAt_other h o.p_data none b (fun e => hdist b e hb)
    have hne : m.p_data ≠ some a := by
      intro hp
      exact hlive a hp (by rw [← h1m a hp, ha])
    have h0m : ∀ b, m.p_data = some b →
        Object.writeAt (Object.writeAt h o.p_data none) (some a)
          (some ((List.range m.m_capacity.toNat).map fresh)) b = h b := by
      intro b hb
      rw [writeAt_other _ (some a) _ b (by intro e; exact hne (by rw [hb, Option.some.inj e]))]
      exact h1m b hb
    refine ⟨_, _, ?_, copyOf_at_fresh m h _ a hw hi hne h0m⟩
    simp only [Object.copy_assign, hcap, if_false, t1, hsrc _ h0m, readRange_full, hdst,
      hcopy]

theorem copy_independent_witness :
    (sampleHeap 1 = none →
      ∃ c h1, sampleObject.copy_construct sampleHeap 1 (fun _ => 7) = .ok (c, h1) ∧
        Object.CopyOf sampleObject sampleHeap c h1) ∧
    (∀ o : Object, (∀ b, o.p_data = some b → sampleObject.p_data ≠ some b) →
      Object.writeAt sampleHeap o.p_data none 1 = none →
      ∃ c h1, o.copy_assign sampleObject sampleHeap 1 (fun _ => 7) = (.ok (), c, h1) ∧
        Object.CopyOf sampleObject sampleHeap c h1) :=
  copy_independent sampleObject sampleHeap (by decide) (by decide)
    (by intro b hb; cases hb; decide) (fun _ => 7) 1

/-- C12, counterexample. `Matrix<int>(2^32, 2^32, false)` followed by `resize(1)` is an object
with `size() == 2^32` over an array of no element: it is outside the bookkeeping invariant.
Its copy, made by the copy constructor or by copy assignment into a moved-from object, has the
same counters and an array of no element of its own, and comparing the copy with the original
reads past the end of both arrays instead of yielding `true`. -/
theorem copy_overflow_object :
    ∃ m0 m1 : Matrix Int, construct (2 ^ 32) (2 ^ 32) false 0 (fun _ => 0) = .ok m0 ∧
      m0.resize 1 = (.ok (), m1) ∧ overflowObject.view overflowHeap = m1 ∧
      m1.WellFormed ∧ ¬ m1.Bookkeeping ∧ overflowHeap 1 = none ∧
      (∃ c h1, overflowObject.copy_construct overflowHeap 1 (fun _ => 0) = .ok (c, h1) ∧
        (c.view h1).eq (overflowObject.view h1) = .error .undefined ∧
        ¬ Object.CopyOf overflowObject overflowHeap c h1) ∧
      (∃ c h1, Object.copy_assign
          { m_rows := 0, m_cols := 0, m_capacity := 0, m_numRows := 0, m_size := 0,
            p_data := none }
          overflowObject overflowHeap 1 (fun _ => 0) = (.ok (), c, h1) ∧
        (c.view h1).eq (overflowObject.view h1) = .error .undefined ∧
        ¬ Object.CopyOf overflowObject overflowHeap c h1) :=
  ⟨_, _, rfl, rfl, rfl, by decide, by decide, rfl,
    ⟨_, _, rfl, by decide, fun hc => absurd hc.2.2.2.2.2.2.1 (by decide)⟩,
    ⟨_, _, rfl, by decide, fun hc => absurd hc.2.2.2.2.2.2.1 (by decide)⟩⟩

end Claims

end Matrix

end DenseMatrix
